import Mathlib

/-!
# Identifier mapping of user namespaces (`kernel/user_namespace.c`)

A shallow embedding of the id translation functions (`map_id_down`,
`map_id_up`, `map_id_range_down`) and of the one-shot installer `map_write`,
followed by the properties proved about them.

Conventions of the embedding:

* a `u32` is a `Nat`; every arithmetic operation of the source on `u32`
  operands is written with an explicit reduction modulo `2 ^ 32`;
* a C string is the list of its bytes; the terminating NUL is implicit at the
  end of the list, and a byte `0` inside the list also ends the string;
* a `char *` into a buffer is the suffix of the buffer that starts there;
* a C loop is a function recursing on a fuel argument; for each of them a
  lemma shows that the fuel handed to it is enough.
-/

namespace UserNamespace

/-! ## Machine arithmetic -/

/-- The value of `(u32) -1`. -/
def U32_MAX : Nat := 4294967295

/-- Addition of two `u32` values. -/
def u32_add (a b : Nat) : Nat := (a + b) % 4294967296

/-- Subtraction of two `u32` values. -/
def u32_sub (a b : Nat) : Nat := (a + (4294967296 - b % 4294967296)) % 4294967296

/-! ## Data model -/

/-- Modelled from the spec: `struct uid_gid_extent` of
`include/linux/user_namespace.h`, which is not among the sources; the spec
gives it as the triple of `u32` fields `first`, `lower_first`, `count`. -/
structure uid_gid_extent where
  first : Nat
  lower_first : Nat
  count : Nat
deriving DecidableEq

/-- Modelled from the spec: the capacity `UID_GID_MAP_MAX_EXTENTS` of an
extent table, declared in `include/linux/user_namespace.h`, which is not among
the sources. -/
def UID_GID_MAP_MAX_EXTENTS : Nat := 5

/-- Modelled from the spec: `struct uid_gid_map` of
`include/linux/user_namespace.h`, which is not among the sources: the number
of extents in use and the array of extent slots. -/
structure uid_gid_map where
  nr_extents : Nat
  extent : List uid_gid_extent
deriving DecidableEq

/-- The array read `map->extent[idx]`. -/
def extent_at (map : uid_gid_map) (idx : Nat) : uid_gid_extent :=
  map.extent.getD idx ⟨0, 0, 0⟩

/-- Modelled from the spec: `struct user_namespace` of
`include/linux/user_namespace.h`, which is not among the sources. A pointer to
a namespace is the number of the node it refers to, `none` being `NULL`. -/
structure user_namespace where
  uid_map : uid_gid_map
  gid_map : uid_gid_map
  kref : Nat
  parent : Option Nat
  owner : Nat
  group : Nat
  proc_inum : Nat
deriving DecidableEq

/-! ## Id translation (lines 85-155) -/

/-- The search loop of `map_id_range_down` (lines 95-101). The state is
`(idx, first, last)`; the loop stops at the first extent holding both `id` and
`id2`, or with `idx = extents`. -/
def map_id_range_down_loop (map : uid_gid_map) (id id2 extents : Nat) :
    Nat → Nat × Nat × Nat → Nat × Nat × Nat
  | 0, st => st
  | fuel + 1, (idx, first, last) =>
    if idx < extents then
      let first := (extent_at map idx).first
      let last := u32_sub (u32_add first (extent_at map idx).count) 1
      if id ≥ first ∧ id ≤ last ∧ (id2 ≥ first ∧ id2 ≤ last) then (idx, first, last)
      else map_id_range_down_loop map id id2 extents fuel (idx + 1, first, last)
    else (idx, first, last)

/-- The function `map_id_range_down` (lines 85-109). -/
def map_id_range_down (map : uid_gid_map) (id count : Nat) : Nat :=
  let id2 := u32_sub (u32_add id count) 1
  let extents := map.nr_extents
  let st := map_id_range_down_loop map id id2 extents extents (0, 0, 0)
  if st.1 < extents then u32_add (u32_sub id st.2.1) (extent_at map st.1).lower_first
  else U32_MAX

/-- The search loop of `map_id_down` (lines 119-124). -/
def map_id_down_loop (map : uid_gid_map) (id extents : Nat) :
    Nat → Nat × Nat × Nat → Nat × Nat × Nat
  | 0, st => st
  | fuel + 1, (idx, first, last) =>
    if idx < extents then
      let first := (extent_at map idx).first
      let last := u32_sub (u32_add first (extent_at map idx).count) 1
      if id ≥ first ∧ id ≤ last then (idx, first, last)
      else map_id_down_loop map id extents fuel (idx + 1, first, last)
    else (idx, first, last)

/-- The function `map_id_down` (lines 111-132). -/
def map_id_down (map : uid_gid_map) (id : Nat) : Nat :=
  let extents := map.nr_extents
  let st := map_id_down_loop map id extents extents (0, 0, 0)
  if st.1 < extents then u32_add (u32_sub id st.2.1) (extent_at map st.1).lower_first
  else U32_MAX

/-- The search loop of `map_id_up` (lines 142-147). -/
def map_id_up_loop (map : uid_gid_map) (id extents : Nat) :
    Nat → Nat × Nat × Nat → Nat × Nat × Nat
  | 0, st => st
  | fuel + 1, (idx, first, last) =>
    if idx < extents then
      let first := (extent_at map idx).lower_first
      let last := u32_sub (u32_add first (extent_at map idx).count) 1
      if id ≥ first ∧ id ≤ last then (idx, first, last)
      else map_id_up_loop map id extents fuel (idx + 1, first, last)
    else (idx, first, last)

/-- The function `map_id_up` (lines 134-155). -/
def map_id_up (map : uid_gid_map) (id : Nat) : Nat :=
  let extents := map.nr_extents
  let st := map_id_up_loop map id extents extents (0, 0, 0)
  if st.1 < extents then u32_add (u32_sub id st.2.1) (extent_at map st.1).first
  else U32_MAX

/-- The wrapper `KUIDT_INIT` and the projection `__kuid_val`: a `kuid_t` holds
one `uid_t`. -/
def KUIDT_INIT (value : Nat) : Nat := value

/-- The wrapper `KGIDT_INIT` and the projection `__kgid_val`. -/
def KGIDT_INIT (value : Nat) : Nat := value

/-- The function `make_kuid` (lines 170-174). -/
def make_kuid (ns : user_namespace) (uid : Nat) : Nat :=
  KUIDT_INIT (map_id_down ns.uid_map uid)

/-- The function `from_kuid` (lines 189-193). -/
def from_kuid (targ : user_namespace) (kuid : Nat) : Nat :=
  map_id_up targ.uid_map kuid

/-- The function `make_kgid` (lines 238-242). -/
def make_kgid (ns : user_namespace) (gid : Nat) : Nat :=
  KGIDT_INIT (map_id_down ns.gid_map gid)

/-- The function `from_kgid` (lines 257-261). -/
def from_kgid (targ : user_namespace) (kgid : Nat) : Nat :=
  map_id_up targ.gid_map kgid

/-! ## The installer `map_write` (lines 386-555) -/

/-- Modelled from the spec: the error number `EPERM` of
`include/asm-generic/errno-base.h`, which is not among the sources. -/
def EPERM : Int := 1

/-- Modelled from the spec: the error number `ENOMEM` of
`include/asm-generic/errno-base.h`, which is not among the sources. -/
def ENOMEM : Int := 12

/-- Modelled from the spec: the error number `EFAULT` of
`include/asm-generic/errno-base.h`, which is not among the sources. -/
def EFAULT : Int := 14

/-- Modelled from the spec: the error number `EINVAL` of
`include/asm-generic/errno-base.h`, which is not among the sources. -/
def EINVAL : Int := 22

/-- Modelled from the spec: the size `PAGE_SIZE` of one memory page, declared
in `arch/arm/include/asm/page.h`, which is not among the sources. -/
def PAGE_SIZE : Nat := 4096

/-- Modelled from the spec: the character class test `isspace` of
`include/linux/ctype.h`, which is not among the sources: the white space
characters are the blank, the characters `\t \n \v \f \r` and the
no-break space of Latin-1. -/
def isspace (c : Nat) : Bool :=
  decide (c = 32 ∨ (9 ≤ c ∧ c ≤ 13) ∨ c = 160)

/-- Modelled from the spec: the character class test `isdigit` of
`include/linux/ctype.h`, which is not among the sources. -/
def isdigit (c : Nat) : Bool :=
  decide (48 ≤ c ∧ c ≤ 57)

/-- Modelled from the spec: `skip_spaces` of `lib/string.c`, which is not
among the sources: the cursor is moved past the leading white space. -/
def skip_spaces : List Nat → List Nat
  | [] => []
  | c :: cs => if isspace c then skip_spaces cs else c :: cs

/-- The digit loop of `simple_strtoul` in base 10, accumulating in an
`unsigned long long`. -/
def simple_strtoul_loop : List Nat → Nat → Nat × List Nat
  | [], result => (result, [])
  | c :: cs, result =>
    if isdigit c then simple_strtoul_loop cs ((result * 10 + (c - 48)) % 18446744073709551616)
    else (result, c :: cs)

/-- Modelled from the spec: `simple_strtoul (cp, &endp, 10)` of
`lib/vsprintf.c`, which is not among the sources: the unsigned decimal integer
at the cursor (`0` when there is no digit) and the cursor after its digits.
The value is the one stored in a `u32` field, so it is reduced modulo
`2 ^ 32`. -/
def simple_strtoul (cp : List Nat) : Nat × List Nat :=
  let r := simple_strtoul_loop cp 0
  (r.1 % 4294967296, r.2)

/-- The character `*pos` under a cursor; the buffer ends with a NUL. -/
def deref (pos : List Nat) : Nat := pos.headD 0

/-- Finding the end of the line (lines 460-466): `strchr (pos, '\n')` looks
for a newline before the end of the string; a newline found is overwritten
with NUL and `next_line` points after it, or is `NULL` when the string ends
there. The result is the string now at `pos` together with `next_line`. -/
def find_end_of_line : List Nat → List Nat × Option (List Nat)
  | [] => ([], none)
  | c :: cs =>
    if c = 10 then ([], if deref cs = 0 then none else some cs)
    else if c = 0 then ([], none)
    else ((c :: (find_end_of_line cs).1), (find_end_of_line cs).2)

/-- Reading the three numbers of one line (lines 468-486); `none` stands for
`goto out`. -/
def parse_line (line : List Nat) : Option uid_gid_extent :=
  let pos := skip_spaces line
  let first := simple_strtoul pos
  if !isspace (deref first.2) then none
  else
    let pos := skip_spaces first.2
    let lower_first := simple_strtoul pos
    if !isspace (deref lower_first.2) then none
    else
      let pos := skip_spaces lower_first.2
      let count := simple_strtoul pos
      if deref count.2 ≠ 0 ∧ !isspace (deref count.2) then none
      else
        let pos := skip_spaces count.2
        if deref pos ≠ 0 then none
        else some ⟨first.1, lower_first.1, count.1⟩

/-- The ordering test of lines 500-502: `last` is not `NULL` and the extent it
points to ends after the start of `extent`, in the upper or in the lower
ids. -/
def out_of_order (last : Option uid_gid_extent) (extent : uid_gid_extent) : Bool :=
  match last with
  | some l =>
    decide (u32_add l.first l.count > extent.first ∨
      u32_add l.lower_first l.count > extent.lower_first)
  | none => false

/-- One iteration of the parsing loop of `map_write` (lines 457-511). `none`
stands for `goto out`; otherwise the result is the working table after
`new_map.nr_extents++`, the extent just accepted (the new `last`) and
`next_line`, which is `none` when it is `NULL`. -/
def parse_iteration (pos : List Nat) (new_map : uid_gid_map) (last : Option uid_gid_extent) :
    Option (uid_gid_map × uid_gid_extent × Option (List Nat)) :=
  let eol := find_end_of_line pos
  let next_line := eol.2
  match parse_line eol.1 with
  | none => none
  | some extent =>
    let stored : uid_gid_map :=
      { new_map with extent := new_map.extent.set new_map.nr_extents extent }
    if extent.first = U32_MAX ∨ extent.lower_first = U32_MAX then none
    else if u32_add extent.first extent.count ≤ extent.first then none
    else if u32_add extent.lower_first extent.count ≤ extent.lower_first then none
    else if out_of_order last extent then none
    else
      let counted : uid_gid_map := { stored with nr_extents := stored.nr_extents + 1 }
      if counted.nr_extents = UID_GID_MAP_MAX_EXTENTS ∧ next_line.isSome then none
      else some (counted, extent, next_line)

/-- The parsing loop of `map_write` (lines 456-512). The state is the cursor
`pos`, the working table `new_map` and `last`, the extent accepted by the
previous iteration (`last` points to a slot of `new_map` that is not written
again, so it is kept by value). The result is `none` when the fuel is
exhausted, `some none` for `goto out`, and `some (some new_map)` with the
working table when the loop ends with `pos = NULL`. -/
def parse_loop :
    Nat → List Nat → uid_gid_map → Option uid_gid_extent → Option (Option uid_gid_map)
  | 0, _, _, _ => none
  | fuel + 1, pos, new_map, last =>
    match parse_iteration pos new_map last with
    | none => some none
    | some (counted, _, none) => some (some counted)
    | some (counted, extent, some next) => parse_loop fuel next counted (some extent)

/-- The working table `new_map` before the parsing loop: no extent in use. Its
slots are not initialised by the source; they are zero here, and no slot is
read before the loop has written it. -/
def new_map_init : uid_gid_map :=
  ⟨0, List.replicate UID_GID_MAP_MAX_EXTENTS ⟨0, 0, 0⟩⟩

/-- Parsing the user data (lines 452-512) from the start of `kbuf`; `none`
stands for `goto out`. Every iteration but the last moves the cursor forward,
so the fuel is never exhausted (`parse_loop_fuel`). -/
def parse_user_data (kbuf : List Nat) : Option uid_gid_map :=
  match parse_loop (kbuf.length + 1) kbuf new_map_init none with
  | some result => result
  | none => none

/-- The function `new_idmap_permitted` (lines 581-591); `parent_of ns` is
`ns->parent`. -/
def new_idmap_permitted {NS : Type} (ns_capable : NS → Nat → Bool) (parent_of : NS → NS)
    (ns : NS) (cap_setid : Nat) (_new_map : uid_gid_map) : Bool :=
  if ns_capable (parent_of ns) cap_setid then true else false

/-- The loop that maps the lower ids through the parent table
(lines 525-540); `none` stands for `goto out`. -/
def map_lower_ids (parent_map : uid_gid_map) : Nat → Nat → uid_gid_map → Option uid_gid_map
  | 0, _, new_map => some new_map
  | fuel + 1, idx, new_map =>
    if idx < new_map.nr_extents then
      let extent := extent_at new_map idx
      let lower_first := map_id_range_down parent_map extent.lower_first extent.count
      if lower_first = U32_MAX then none
      else
        map_lower_ids parent_map fuel (idx + 1)
          { new_map with
            extent := new_map.extent.set idx { extent with lower_first := lower_first } }
    else some new_map

/-- What a call of `map_write` leaves behind: the value returned, the target
table and the file position. -/
structure write_result where
  ret : Int
  map : uid_gid_map
  ppos : Int
deriving DecidableEq

/-- The function `map_write` (lines 386-555). The user buffer is `buf` and
`count` is its length. The collaborators outside the file are parameters:
`ns_capable` is the capability test, `parent_of ns` is `ns->parent`, `page_ok`
tells whether `__get_free_page` returned a page and `copy_ok` whether
`copy_from_user` copied the data. -/
def map_write {NS : Type} (ns_capable : NS → Nat → Bool) (parent_of : NS → NS)
    (page_ok copy_ok : Bool) (ns : NS) (buf : List Nat) (ppos : Int) (cap_setid : Nat)
    (map parent_map : uid_gid_map) : write_result :=
  let count := buf.length
  if map.nr_extents ≠ 0 then ⟨-EPERM, map, ppos⟩
  else if !ns_capable ns cap_setid then ⟨-EPERM, map, ppos⟩
  else if !page_ok then ⟨-ENOMEM, map, ppos⟩
  else if ppos ≠ 0 ∨ count ≥ PAGE_SIZE then ⟨-EINVAL, map, ppos⟩
  else if !copy_ok then ⟨-EFAULT, map, ppos⟩
  else
    match parse_user_data buf with
    | none => ⟨-EINVAL, map, ppos⟩
    | some new_map =>
      if new_map.nr_extents = 0 then ⟨-EINVAL, map, ppos⟩
      else if !new_idmap_permitted ns_capable parent_of ns cap_setid new_map then
        ⟨-EPERM, map, ppos⟩
      else
        match map_lower_ids parent_map new_map.nr_extents 0 new_map with
        | none => ⟨-EPERM, map, ppos⟩
        | some mapped =>
          ⟨count,
            { nr_extents := mapped.nr_extents,
              extent := mapped.extent.take mapped.nr_extents ++
                map.extent.drop mapped.nr_extents },
            count⟩


/-! ## The invariant of an extent table -/

/-- The Extent Table invariant, in the words of the specification: every
extent in use has `count > 0`, neither `first + count` nor
`lower_first + count` goes past `2 ^ 32 - 1`, and any extent before another one
ends before the other starts, in the upper and in the lower ids. -/
def extent_table_inv (map : uid_gid_map) : Prop :=
  (∀ i, i < map.nr_extents →
    0 < (extent_at map i).count ∧
    (extent_at map i).first + (extent_at map i).count ≤ 4294967295 ∧
    (extent_at map i).lower_first + (extent_at map i).count ≤ 4294967295) ∧
  (∀ j, j < map.nr_extents → ∀ i, i < j →
    (extent_at map i).first + (extent_at map i).count ≤ (extent_at map j).first ∧
    (extent_at map i).lower_first + (extent_at map i).count ≤ (extent_at map j).lower_first)

instance (map : uid_gid_map) : Decidable (extent_table_inv map) := by
  unfold extent_table_inv
  infer_instance

/-- An extent with `count > 0` whose upper and lower ranges do not go past
`2 ^ 32 - 1`. -/
def extent_valid (e : uid_gid_extent) : Prop :=
  0 < e.count ∧ e.first + e.count ≤ 4294967295 ∧ e.lower_first + e.count ≤ 4294967295

/-- The invariant of the parsing loop at the start of an iteration: the
working table has its five slots, fewer than five of them are in use, the
extents in use satisfy the Extent Table invariant, and `last` is `NULL` before
the first extent is accepted and the extent accepted last afterwards. -/
def parse_inv (new_map : uid_gid_map) (last : Option uid_gid_extent) : Prop :=
  new_map.extent.length = UID_GID_MAP_MAX_EXTENTS ∧
  new_map.nr_extents < UID_GID_MAP_MAX_EXTENTS ∧
  extent_table_inv new_map ∧
  ((new_map.nr_extents = 0 ∧ last = none) ∨
    (0 < new_map.nr_extents ∧ last = some (extent_at new_map (new_map.nr_extents - 1))))

/-! ## Inputs of the examples -/

/-- The bytes of a text. -/
def bytes (s : String) : List Nat := s.toList.map Char.toNat

/-- A table with the two extents `0 100 5` and `5 200 5`. -/
def two_extent_table : uid_gid_map :=
  ⟨2, [⟨0, 100, 5⟩, ⟨5, 200, 5⟩, ⟨0, 0, 0⟩, ⟨0, 0, 0⟩, ⟨0, 0, 0⟩]⟩

/-- A table with no extent in use, as in a namespace just created. -/
def empty_table : uid_gid_map :=
  ⟨0, [⟨0, 0, 0⟩, ⟨0, 0, 0⟩, ⟨0, 0, 0⟩, ⟨0, 0, 0⟩, ⟨0, 0, 0⟩]⟩

/-- A caller that holds every capability over every namespace. -/
def all_capable : Unit → Nat → Bool := fun _ _ => true

/-- The parent link of the examples, where the namespaces are not told
apart. -/
def unit_parent : Unit → Unit := fun u => u

/-- The table that the parsing loop builds from the text `0 2 3\n10 5 5\n`. -/
def sample_parsed : uid_gid_map :=
  ⟨2, [⟨0, 2, 3⟩, ⟨10, 5, 5⟩, ⟨0, 0, 0⟩, ⟨0, 0, 0⟩, ⟨0, 0, 0⟩]⟩

/-! ## Munged translation (lines 214-290) -/

/-- The function `from_kuid_munged` (lines 214-222). The global variable
`overflowuid` of `kernel/sys.c`, which is not among the sources, is a
parameter. -/
def from_kuid_munged (overflowuid : Nat) (targ : user_namespace) (kuid : Nat) : Nat :=
  let uid := from_kuid targ kuid
  if uid = U32_MAX then overflowuid else uid

/-- The function `from_kgid_munged` (lines 281-289). The global variable
`overflowgid` of `kernel/sys.c`, which is not among the sources, is a
parameter. -/
def from_kgid_munged (overflowgid : Nat) (targ : user_namespace) (kgid : Nat) : Nat :=
  let gid := from_kgid targ kgid
  if gid = U32_MAX then overflowgid else gid

/-! ## Namespaces in memory -/

/-- The namespace nodes in memory: the node at each address, `none` where no
node is allocated. -/
def ns_heap : Type := Nat → Option user_namespace

/-- Modelled from the spec: the capability number `CAP_SETGID` of
`include/linux/capability.h`, which is not among the sources. -/
def CAP_SETGID : Nat := 6

/-- Modelled from the spec: the capability number `CAP_SETUID` of
`include/linux/capability.h`, which is not among the sources. -/
def CAP_SETUID : Nat := 7

/-- What a write to `uid_map` or `gid_map` leaves behind: the value returned,
the namespaces in memory and the file position. -/
structure proc_write_result where
  ret : Int
  heap : ns_heap
  ppos : Int

/-- The function `proc_uid_map_write` (lines 557-567); `ns` is the address in
`seq->private`. The result is `none` when `ns` or `ns->parent` points to no
node. -/
def proc_uid_map_write (ns_capable : Nat → Nat → Bool) (page_ok copy_ok : Bool)
    (heap : ns_heap) (ns : Nat) (buf : List Nat) (ppos : Int) : Option proc_write_result :=
  match heap ns with
  | none => none
  | some node =>
    match node.parent with
    | none => some ⟨-EPERM, heap, ppos⟩
    | some parent =>
      match heap parent with
      | none => none
      | some parent_node =>
        let r := map_write ns_capable (fun _ => parent) page_ok copy_ok ns buf ppos CAP_SETUID
          node.uid_map parent_node.uid_map
        some ⟨r.ret, fun a => if a = ns then some { node with uid_map := r.map } else heap a,
          r.ppos⟩

/-- The function `proc_gid_map_write` (lines 569-579). -/
def proc_gid_map_write (ns_capable : Nat → Nat → Bool) (page_ok copy_ok : Bool)
    (heap : ns_heap) (ns : Nat) (buf : List Nat) (ppos : Int) : Option proc_write_result :=
  match heap ns with
  | none => none
  | some node =>
    match node.parent with
    | none => some ⟨-EPERM, heap, ppos⟩
    | some parent =>
      match heap parent with
      | none => none
      | some parent_node =>
        let r := map_write ns_capable (fun _ => parent) page_ok copy_ok ns buf ppos CAP_SETGID
          node.gid_map parent_node.gid_map
        some ⟨r.ret, fun a => if a = ns then some { node with gid_map := r.map } else heap a,
          r.ppos⟩

/-! ## Creating a namespace (lines 36-71) -/

/-- Modelled from the spec: the fields of `struct cred` of
`include/linux/cred.h`, which is not among the sources, that `create_user_ns`
reads or writes. -/
structure cred where
  user_ns : Nat
  euid : Nat
  egid : Nat
  request_key_auth : Option Nat
deriving DecidableEq

/-- Modelled from the spec: `kuid_has_mapping` of `include/linux/uidgid.h`,
which is not among the sources: the kernel uid has a mapping in the namespace
when `from_kuid` does not give `(uid_t) -1`. -/
def kuid_has_mapping (ns : user_namespace) (uid : Nat) : Bool :=
  from_kuid ns uid != U32_MAX

/-- Modelled from the spec: `kgid_has_mapping` of `include/linux/uidgid.h`,
which is not among the sources. -/
def kgid_has_mapping (ns : user_namespace) (gid : Nat) : Bool :=
  from_kgid ns gid != U32_MAX

/-- The node that `kmem_cache_zalloc` returns: every byte is zero. -/
def zeroed_user_ns : user_namespace :=
  { uid_map := ⟨0, List.replicate UID_GID_MAP_MAX_EXTENTS ⟨0, 0, 0⟩⟩,
    gid_map := ⟨0, List.replicate UID_GID_MAP_MAX_EXTENTS ⟨0, 0, 0⟩⟩,
    kref := 0, parent := none, owner := 0, group := 0, proc_inum := 0 }

/-- What a call of `create_user_ns` leaves behind: the value returned, the
namespaces in memory and the credentials. -/
structure create_result where
  ret : Int
  heap : ns_heap
  new : cred

/-- The function `create_user_ns` (lines 36-71). `alloc` is what
`kmem_cache_zalloc` returns: the address of a new node, or `none` for `NULL`.
The keys subsystem is outside the model: of lines 60-61 only the store of
`NULL` is kept. The result is `none` when `new->user_ns` points to no
node. -/
def create_user_ns (alloc : Option Nat) (heap : ns_heap) (new : cred) : Option create_result :=
  let parent_ns := new.user_ns
  let owner := new.euid
  let group := new.egid
  match heap parent_ns with
  | none => none
  | some parent_node =>
    if !kuid_has_mapping parent_node owner || !kgid_has_mapping parent_node group then
      some ⟨-EPERM, heap, new⟩
    else
      match alloc with
      | none => some ⟨-ENOMEM, heap, new⟩
      | some ns =>
        let node : user_namespace :=
          { zeroed_user_ns with
            kref := 1, parent := some parent_ns, owner := owner, group := group }
        some ⟨0, fun a => if a = ns then some node else heap a,
          { new with request_key_auth := none, user_ns := ns }⟩

/-- A table with the one extent `0 1000 10` as written in a text, the lower
ids not mapped yet. -/
def unresolved_parsed : uid_gid_map :=
  ⟨1, [⟨0, 1000, 10⟩, ⟨0, 0, 0⟩, ⟨0, 0, 0⟩, ⟨0, 0, 0⟩, ⟨0, 0, 0⟩]⟩

/-- A caller that holds every capability over the namespace at address `1`
and none over any other namespace. -/
def child_only_capable : Nat → Nat → Bool := fun ns _ => decide (ns = 1)

/-- A parent link that leads to the namespace at address `0`. -/
def parent_at_zero : Nat → Nat := fun _ => 0

/-- A namespace whose uid and gid tables hold the extents `0 100 5` and
`5 200 5`. -/
def two_extent_ns : user_namespace :=
  { uid_map := two_extent_table, gid_map := two_extent_table,
    kref := 1, parent := none, owner := 0, group := 0, proc_inum := 0 }

/-- A caller that holds every capability over every namespace, the namespaces
being given by their addresses. -/
def all_capable_at : Nat → Nat → Bool := fun _ _ => true

/-- A namespace with a parent at address `0` and empty tables, as it is just
after its creation. -/
def fresh_child_ns : user_namespace :=
  { uid_map := empty_table, gid_map := empty_table,
    kref := 1, parent := some 0, owner := 100, group := 100, proc_inum := 0 }

/-- Two namespaces in memory: a root at address `0` with the extents
`0 100 5` and `5 200 5` in both tables, and a child of it at address `1` with
empty tables. -/
def sample_heap : ns_heap :=
  fun a => if a = 0 then some two_extent_ns else if a = 1 then some fresh_child_ns else none

/-- Credentials in the namespace at address `0` whose kernel ids `202` have a
mapping there. -/
def mapped_cred : cred :=
  { user_ns := 0, euid := 202, egid := 202, request_key_auth := some 9 }

/-- Credentials in the namespace at address `0` whose kernel uid `5000` has no
mapping there. -/
def unmapped_cred : cred :=
  { user_ns := 0, euid := 5000, egid := 202, request_key_auth := none }

/-- What `create_user_ns` leaves behind when it is called with the credentials
`mapped_cred` in `sample_heap` and the allocation returns the address `2`. -/
def created_sample : create_result :=
  ⟨0,
    fun a =>
      if a = 2 then
        some { zeroed_user_ns with kref := 1, parent := some 0, owner := 202, group := 202 }
      else sample_heap a,
    { user_ns := 2, euid := 202, egid := 202, request_key_auth := none }⟩

/-! ## Texts made of lines -/

/-- What may follow the last line of a text: the end of the string (the end of
the buffer or a NUL), or one newline followed by the end of the string. -/
def is_end (post : List Nat) : Prop :=
  deref post = 0 ∨ (deref post = 10 ∧ deref post.tail = 0)

instance (post : List Nat) : Decidable (is_end post) := by
  unfold is_end
  infer_instance

/-- The text made of the given lines, with a newline between two lines and
`post` after the last line. -/
def lines_text : List (List Nat) → List Nat → List Nat
  | [], post => post
  | [l], post => l ++ post
  | l :: l2 :: ls, post => l ++ 10 :: lines_text (l2 :: ls) post

/-- The working table after the records `rs` have been stored one after the
other from slot `new_map.nr_extents` on, `nr_extents` counting each of
them. -/
def store_records (new_map : uid_gid_map) (rs : List uid_gid_extent) : uid_gid_map :=
  rs.foldl (fun m e => ⟨m.nr_extents + 1, m.extent.set m.nr_extents e⟩) new_map

/-- The extent `e` starts, in the upper and in the lower ids, where the extent
`last` accepted before it ends or later; nothing is asked when there is no
extent before it. -/
def starts_after (last : Option uid_gid_extent) (e : uid_gid_extent) : Prop :=
  match last with
  | none => True
  | some l => l.first + l.count ≤ e.first ∧ l.lower_first + l.count ≤ e.lower_first

instance (last : Option uid_gid_extent) (e : uid_gid_extent) :
    Decidable (starts_after last e) :=
  match last with
  | none => isTrue trivial
  | some l =>
    inferInstanceAs (Decidable
      (l.first + l.count ≤ e.first ∧ l.lower_first + l.count ≤ e.lower_first))

instance (e : uid_gid_extent) : Decidable (extent_valid e) := by
  unfold extent_valid
  infer_instance

/-- The records `rs` pass the checks of lines 489-503 one after the other,
`last` being the record accepted before them: each has `count > 0` and ranges
that do not go past `2 ^ 32 - 1`, and each starts where the record before it
ends or later. -/
def records_ok : Option uid_gid_extent → List uid_gid_extent → Prop
  | _, [] => True
  | last, e :: rs => extent_valid e ∧ starts_after last e ∧ records_ok (some e) rs

/-- The checks of `records_ok` can be computed. -/
def records_ok_decidable :
    (last : Option uid_gid_extent) → (rs : List uid_gid_extent) → Decidable (records_ok last rs)
  | _, [] => isTrue trivial
  | last, e :: rs =>
    have := records_ok_decidable (some e) rs
    inferInstanceAs (Decidable (extent_valid e ∧ starts_after last e ∧ records_ok (some e) rs))

instance (last : Option uid_gid_extent) (rs : List uid_gid_extent) :
    Decidable (records_ok last rs) :=
  records_ok_decidable last rs

/-- The two lines of the text `0 2 3\n10 5 5\n`. -/
def sample_lines : List (List Nat) := [bytes "0 2 3", bytes "10 5 5"]

/-- The records that the lines of `sample_lines` read as. -/
def sample_records : List uid_gid_extent := [⟨0, 2, 3⟩, ⟨10, 5, 5⟩]

/-! ## The form of a line -/

/-- The form of a line in the words of the specification: optional white
space, decimal digits, white space, decimal digits, white space, decimal
digits, optional white space. White space is what `isspace` accepts. -/
def well_formed_line (l : List Nat) : Prop :=
  ∃ s0 d1 s1 d2 s2 d3 s3 : List Nat,
    l = s0 ++ (d1 ++ (s1 ++ (d2 ++ (s2 ++ (d3 ++ s3))))) ∧
    (∀ c, c ∈ s0 → isspace c = true) ∧ (∀ c, c ∈ s1 → isspace c = true) ∧
    (∀ c, c ∈ s2 → isspace c = true) ∧ (∀ c, c ∈ s3 → isspace c = true) ∧
    (∀ c, c ∈ d1 → isdigit c = true) ∧ (∀ c, c ∈ d2 → isdigit c = true) ∧
    (∀ c, c ∈ d3 → isdigit c = true) ∧
    d1 ≠ [] ∧ d2 ≠ [] ∧ d3 ≠ [] ∧ s1 ≠ [] ∧ s2 ≠ []

/-- The input `0 2 3`, a NUL byte, `junk`. -/
def nul_input : List Nat := bytes "0 2 3" ++ 0 :: bytes "junk"

/-! ## The initial namespace -/

/-- Modelled from the spec: the uid table and the gid table of the root
namespace `init_user_ns` of `kernel/user.c`, which is not among the sources:
a single extent that starts at id `0`, maps it to id `0` and has the largest
count that a `u32` holds. The extent holds the ids `0 .. 2 ^ 32 - 2`; the id
`2 ^ 32 - 1` is the value `(u32) -1`. -/
def root_table : uid_gid_map :=
  ⟨1, [⟨0, 0, 4294967295⟩, ⟨0, 0, 0⟩, ⟨0, 0, 0⟩, ⟨0, 0, 0⟩, ⟨0, 0, 0⟩]⟩

/-- Modelled from the spec: the root namespace `init_user_ns` of
`kernel/user.c`, which is not among the sources: it has no parent and both its
tables are `root_table`. The fields that the spec gives no value for are
arguments. -/
def init_user_ns (kref owner group proc_inum : Nat) : user_namespace :=
  { uid_map := root_table, gid_map := root_table, kref := kref, parent := none,
    owner := owner, group := group, proc_inum := proc_inum }

/-- Every namespace in memory that has no parent has the tables of the root
namespace. -/
def roots_identity (heap : ns_heap) : Prop :=
  ∀ a node, heap a = some node → node.parent = none →
    node.uid_map = root_table ∧ node.gid_map = root_table

/-- Memory that holds the root namespace at address `0` and nothing else. -/
def boot_heap : ns_heap :=
  fun a => if a = 0 then some (init_user_ns 1 0 0 0) else none

/-! ## Reading a table back (lines 292-382) -/

/-- The decimal digits of `n`, the most significant first, as the conversion
`%u` writes them; `fuel` bounds the number of digits. -/
def decimal_digits : Nat → Nat → List Nat
  | 0, _ => []
  | fuel + 1, n =>
    if n < 10 then [48 + n] else decimal_digits fuel (n / 10) ++ [48 + n % 10]

/-- The number that a list of decimal digits stands for. -/
def digits_value (ds : List Nat) : Nat :=
  ds.foldl (fun acc d => acc * 10 + (d - 48)) 0

/-- The conversion `%10u` of a `u32`: its decimal digits, which are at most
ten, after the spaces that fill the field to ten characters. -/
def format_u10 (n : Nat) : List Nat :=
  List.replicate (10 - (decimal_digits 10 n).length) 32 ++ decimal_digits 10 n

/-- The text that `seq_printf(seq, "%10u %10u %10u\n", a, b, c)` adds to the
file (lines 305-308 and 326-329): three fields and a newline. -/
def seq_printf_record (a b c : Nat) : List Nat :=
  format_u10 a ++ 32 :: (format_u10 b ++ 32 :: (format_u10 c ++ [10]))

/-- The function `m_start` (lines 334-343): the extent at position `pos`, or
`NULL` past the extents in use. The position of a `seq_file` starts at `0`
and is only incremented, so it is a natural number. -/
def m_start (pos : Nat) (map : uid_gid_map) : Option uid_gid_extent :=
  if pos < map.nr_extents then some (extent_at map pos) else none

/-- The function `uid_m_start` (lines 345-350); `ns` is the address in
`seq->private`. The result is `none` when `ns` points to no node. -/
def uid_m_start (heap : ns_heap) (ns : Nat) (pos : Nat) : Option (Option uid_gid_extent) :=
  match heap ns with
  | none => none
  | some node => some (m_start pos node.uid_map)

/-- The function `gid_m_start` (lines 352-357). -/
def gid_m_start (heap : ns_heap) (ns : Nat) (pos : Nat) : Option (Option uid_gid_extent) :=
  match heap ns with
  | none => none
  | some node => some (m_start pos node.gid_map)

/-- The choice of `lower_ns` in `uid_m_show` and `gid_m_show` (lines 299-301
and 320-322): the namespace of the caller, or the parent of it when the caller
is in the namespace `ns` that is shown and that namespace has a parent. The
result is `none` when the pointer that is followed points to no node. -/
def lower_ns (heap : ns_heap) (current_user_ns ns : Nat) : Option Nat :=
  if current_user_ns = ns then
    match heap current_user_ns with
    | none => none
    | some node =>
      match node.parent with
      | some parent => some parent
      | none => some current_user_ns
  else some current_user_ns

/-- The function `uid_m_show` (lines 292-311): the value returned and the text
added to the file. `current_user_ns` is the address of the namespace of the
caller, `ns` the address in `seq->private` and `extent` the extent that `v`
points to. -/
def uid_m_show (heap : ns_heap) (current_user_ns ns : Nat) (extent : uid_gid_extent) :
    Option (Int × List Nat) :=
  match lower_ns heap current_user_ns ns with
  | none => none
  | some lower_ns =>
    match heap lower_ns with
    | none => none
    | some lower_node =>
      let lower := from_kuid lower_node (KUIDT_INIT extent.lower_first)
      some (0, seq_printf_record extent.first lower extent.count)

/-- The function `gid_m_show` (lines 313-332). -/
def gid_m_show (heap : ns_heap) (current_user_ns ns : Nat) (extent : uid_gid_extent) :
    Option (Int × List Nat) :=
  match lower_ns heap current_user_ns ns with
  | none => none
  | some lower_ns =>
    match heap lower_ns with
    | none => none
    | some lower_node =>
      let lower := from_kgid lower_node (KGIDT_INIT extent.lower_first)
      some (0, seq_printf_record extent.first lower extent.count)

/-- A table with the one extent `0 1000 10`. -/
def child_table : uid_gid_map :=
  ⟨1, [⟨0, 1000, 10⟩, ⟨0, 0, 0⟩, ⟨0, 0, 0⟩, ⟨0, 0, 0⟩, ⟨0, 0, 0⟩]⟩

/-- A child of the namespace at address `0` whose tables hold the extent
`0 1000 10`, the lower ids being kernel ids. -/
def mapped_child_ns : user_namespace :=
  { uid_map := child_table, gid_map := child_table,
    kref := 1, parent := some 0, owner := 1000, group := 1000, proc_inum := 0 }

/-- Two namespaces in memory: the root namespace at address `0` and the child
`mapped_child_ns` at address `1`. -/
def show_heap : ns_heap :=
  fun a =>
    if a = 0 then some (init_user_ns 2 0 0 0)
    else if a = 1 then some mapped_child_ns
    else none

/-- Column `k` of a record of the read-back text, counted from `0`: the number
in the field of ten characters that starts at character `11 * k`. -/
def record_column (text : List Nat) (k : Nat) : Nat :=
  digits_value ((text.drop (11 * k)).take 10)

/-! ## Releasing a namespace (lines 73-82) -/

/-- Modelled from the spec: `put_user_ns` of
`include/linux/user_namespace.h` with the `kref_put` of `include/linux/kref.h`
that it calls, which are not among the sources: nothing is done for `NULL`;
otherwise the reference count, a 32-bit counter, is decremented and, when it
reaches zero, the function `release` is called on the node. The outer `none`
is passed on from `release`; the result is `some none` when `ns` points to no
node. -/
def put_user_ns (release : ns_heap → Nat → Option (Option ns_heap)) (heap : ns_heap)
    (ns : Option Nat) : Option (Option ns_heap) :=
  match ns with
  | none => some (some heap)
  | some ns =>
    match heap ns with
    | none => some none
    | some node =>
      let kref := u32_sub node.kref 1
      let heap : ns_heap := fun a => if a = ns then some { node with kref := kref } else heap a
      if kref = 0 then release heap ns else some (some heap)

/-- The function `free_user_ns` (lines 73-82); `ns` is the address of the node
that holds `kref`. The calls of `free_user_ns` nested in one another through
`put_user_ns` are counted by `fuel`: the result is `none` when there are more
of them than `fuel`, and `some none` when a pointer that is followed points to
no node. The inode numbers of proc are outside the model: `proc_free_inum`
(line 79) changes no namespace. -/
def free_user_ns : Nat → ns_heap → Nat → Option (Option ns_heap)
  | 0, _, _ => none
  | fuel + 1, heap, ns =>
    match heap ns with
    | none => some none
    | some node =>
      let parent := node.parent
      let heap : ns_heap := fun a => if a = ns then none else heap a
      put_user_ns (free_user_ns fuel) heap parent

/-- From the pointer `p` the `parent` links lead through the nodes at the
addresses `l`, in this order, and the `parent` link of the last of them is
`stop`. -/
def parent_chain (heap : ns_heap) : Option Nat → List Nat → Option Nat → Prop
  | p, [], stop => p = stop
  | p, a :: l, stop =>
    p = some a ∧
    match heap a with
    | none => False
    | some node => parent_chain heap node.parent l stop

/-- The links of `parent_chain` can be computed. -/
def parent_chain_decidable (heap : ns_heap) :
    (p : Option Nat) → (l : List Nat) → (stop : Option Nat) →
      Decidable (parent_chain heap p l stop)
  | p, [], stop => inferInstanceAs (Decidable (p = stop))
  | p, a :: l, stop =>
    match h : heap a with
    | none => isFalse (by
        intro hc
        unfold parent_chain at hc
        rw [h] at hc
        exact hc.2)
    | some node =>
      have := parent_chain_decidable heap node.parent l stop
      if hp : p = some a then
        if hr : parent_chain heap node.parent l stop then
          isTrue (by
            unfold parent_chain
            rw [h]
            exact ⟨hp, hr⟩)
        else
          isFalse (by
            intro hc
            unfold parent_chain at hc
            rw [h] at hc
            exact hr hc.2)
      else
        isFalse (by
          intro hc
          unfold parent_chain at hc
          exact hp hc.1)

instance (heap : ns_heap) (p : Option Nat) (l : List Nat) (stop : Option Nat) :
    Decidable (parent_chain heap p l stop) :=
  parent_chain_decidable heap p l stop

/-- A namespace with empty tables, the reference count `kref` and the parent
`parent`. -/
def chain_ns (kref : Nat) (parent : Option Nat) : user_namespace :=
  { uid_map := empty_table, gid_map := empty_table,
    kref := kref, parent := parent, owner := 0, group := 0, proc_inum := 0 }

/-- Five namespaces in memory: a chain `4 -> 3 -> 2 -> 1 -> 0` of parents up
to the root at address `0`, with the reference counts `1` at the addresses
`4`, `3` and `2`, `3` at the address `1` and `2` at the root. -/
def chain_heap : ns_heap :=
  fun a =>
    if a = 0 then some (init_user_ns 2 0 0 0)
    else if a = 1 then some (chain_ns 3 (some 0))
    else if a = 2 then some (chain_ns 1 (some 1))
    else if a = 3 then some (chain_ns 1 (some 2))
    else if a = 4 then some (chain_ns 1 (some 3))
    else none

/-! # Properties -/

/-! ## The search loops -/

/-- What the search loop of `map_id_range_down` leaves in its state: either the
index of the first extent from `idx` on that passes the test, with `first` read
from that extent, or `extents` when no extent from `idx` on passes it. -/
theorem map_id_range_down_loop_spec (map : uid_gid_map) (id id2 extents : Nat) :
    ∀ (fuel idx first last : Nat) (st : Nat × Nat × Nat), extents ≤ idx + fuel →
      map_id_range_down_loop map id id2 extents fuel (idx, first, last) = st →
      (st.1 < extents ∧ idx ≤ st.1 ∧ st.2.1 = (extent_at map st.1).first ∧
        ((extent_at map st.1).first ≤ id ∧
        id ≤ u32_sub (u32_add (extent_at map st.1).first (extent_at map st.1).count) 1 ∧
        (extent_at map st.1).first ≤ id2 ∧
        id2 ≤ u32_sub (u32_add (extent_at map st.1).first (extent_at map st.1).count) 1) ∧
        ∀ j, idx ≤ j → j < st.1 → ¬ ((extent_at map j).first ≤ id ∧
        id ≤ u32_sub (u32_add (extent_at map j).first (extent_at map j).count) 1 ∧
        (extent_at map j).first ≤ id2 ∧
        id2 ≤ u32_sub (u32_add (extent_at map j).first (extent_at map j).count) 1)) ∨
      (¬ st.1 < extents ∧
        ∀ j, idx ≤ j → j < extents → ¬ ((extent_at map j).first ≤ id ∧
        id ≤ u32_sub (u32_add (extent_at map j).first (extent_at map j).count) 1 ∧
        (extent_at map j).first ≤ id2 ∧
        id2 ≤ u32_sub (u32_add (extent_at map j).first (extent_at map j).count) 1)) := by
  intro fuel
  induction fuel with
  | zero =>
    intro idx first last st h hst
    right
    simp only [map_id_range_down_loop] at hst
    subst hst
    exact ⟨by simp only; omega, fun j h1 h2 => by omega⟩
  | succ n ih =>
    intro idx first last st h hst
    rw [map_id_range_down_loop] at hst
    by_cases hlt : idx < extents
    · simp only [hlt, if_true] at hst
      by_cases hhit : id ≥ (extent_at map idx).first ∧
          id ≤ u32_sub (u32_add (extent_at map idx).first (extent_at map idx).count) 1 ∧
          (id2 ≥ (extent_at map idx).first ∧
          id2 ≤ u32_sub (u32_add (extent_at map idx).first (extent_at map idx).count) 1)
      · rw [if_pos hhit] at hst
        subst hst
        left
        refine ⟨hlt, le_refl _, rfl, ⟨hhit.1, hhit.2.1, hhit.2.2.1, hhit.2.2.2⟩, ?_⟩
        intro j h1 h2
        simp only at h2
        omega
      · rw [if_neg hhit] at hst
        have hmiss : ¬ ((extent_at map idx).first ≤ id ∧
        id ≤ u32_sub (u32_add (extent_at map idx).first (extent_at map idx).count) 1 ∧
        (extent_at map idx).first ≤ id2 ∧
        id2 ≤ u32_sub (u32_add (extent_at map idx).first (extent_at map idx).count) 1) := fun hx => hhit ⟨hx.1, hx.2.1, hx.2.2.1, hx.2.2.2⟩
        rcases ih (idx + 1) _ _ st (by omega) hst with h1 | h1
        · left
          obtain ⟨a, b, c, d, e⟩ := h1
          refine ⟨a, by omega, c, d, ?_⟩
          intro j hj1 hj2
          by_cases hj : j = idx
          · subst hj; exact hmiss
          · exact e j (by omega) hj2
        · right
          obtain ⟨a, e⟩ := h1
          refine ⟨a, ?_⟩
          intro j hj1 hj2
          by_cases hj : j = idx
          · subst hj; exact hmiss
          · exact e j (by omega) hj2
    · simp only [hlt, if_false] at hst
      subst hst
      right
      exact ⟨hlt, fun j h1 h2 => by omega⟩

/-- What the search loop of `map_id_down` leaves in its state: either the
index of the first extent from `idx` on that passes the test, with `first` read
from that extent, or `extents` when no extent from `idx` on passes it. -/
theorem map_id_down_loop_spec (map : uid_gid_map) (id extents : Nat) :
    ∀ (fuel idx first last : Nat) (st : Nat × Nat × Nat), extents ≤ idx + fuel →
      map_id_down_loop map id extents fuel (idx, first, last) = st →
      (st.1 < extents ∧ idx ≤ st.1 ∧ st.2.1 = (extent_at map st.1).first ∧
        ((extent_at map st.1).first ≤ id ∧
        id ≤ u32_sub (u32_add (extent_at map st.1).first (extent_at map st.1).count) 1) ∧
        ∀ j, idx ≤ j → j < st.1 → ¬ ((extent_at map j).first ≤ id ∧
        id ≤ u32_sub (u32_add (extent_at map j).first (extent_at map j).count) 1)) ∨
      (¬ st.1 < extents ∧
        ∀ j, idx ≤ j → j < extents → ¬ ((extent_at map j).first ≤ id ∧
        id ≤ u32_sub (u32_add (extent_at map j).first (extent_at map j).count) 1)) := by
  intro fuel
  induction fuel with
  | zero =>
    intro idx first last st h hst
    right
    simp only [map_id_down_loop] at hst
    subst hst
    exact ⟨by simp only; omega, fun j h1 h2 => by omega⟩
  | succ n ih =>
    intro idx first last st h hst
    rw [map_id_down_loop] at hst
    by_cases hlt : idx < extents
    · simp only [hlt, if_true] at hst
      by_cases hhit : id ≥ (extent_at map idx).first ∧
          id ≤ u32_sub (u32_add (extent_at map idx).first (extent_at map idx).count) 1
      · rw [if_pos hhit] at hst
        subst hst
        left
        refine ⟨hlt, le_refl _, rfl, hhit, ?_⟩
        intro j h1 h2
        simp only at h2
        omega
      · rw [if_neg hhit] at hst
        have hmiss : ¬ ((extent_at map idx).first ≤ id ∧
        id ≤ u32_sub (u32_add (extent_at map idx).first (extent_at map idx).count) 1) := fun hx => hhit hx
        rcases ih (idx + 1) _ _ st (by omega) hst with h1 | h1
        · left
          obtain ⟨a, b, c, d, e⟩ := h1
          refine ⟨a, by omega, c, d, ?_⟩
          intro j hj1 hj2
          by_cases hj : j = idx
          · subst hj; exact hmiss
          · exact e j (by omega) hj2
        · right
          obtain ⟨a, e⟩ := h1
          refine ⟨a, ?_⟩
          intro j hj1 hj2
          by_cases hj : j = idx
          · subst hj; exact hmiss
          · exact e j (by omega) hj2
    · simp only [hlt, if_false] at hst
      subst hst
      right
      exact ⟨hlt, fun j h1 h2 => by omega⟩

/-- What the search loop of `map_id_up` leaves in its state: either the
index of the first extent from `idx` on that passes the test, with `first` read
from that extent, or `extents` when no extent from `idx` on passes it. -/
theorem map_id_up_loop_spec (map : uid_gid_map) (id extents : Nat) :
    ∀ (fuel idx first last : Nat) (st : Nat × Nat × Nat), extents ≤ idx + fuel →
      map_id_up_loop map id extents fuel (idx, first, last) = st →
      (st.1 < extents ∧ idx ≤ st.1 ∧ st.2.1 = (extent_at map st.1).lower_first ∧
        ((extent_at map st.1).lower_first ≤ id ∧
        id ≤ u32_sub (u32_add (extent_at map st.1).lower_first (extent_at map st.1).count) 1) ∧
        ∀ j, idx ≤ j → j < st.1 → ¬ ((extent_at map j).lower_first ≤ id ∧
        id ≤ u32_sub (u32_add (extent_at map j).lower_first (extent_at map j).count) 1)) ∨
      (¬ st.1 < extents ∧
        ∀ j, idx ≤ j → j < extents → ¬ ((extent_at map j).lower_first ≤ id ∧
        id ≤ u32_sub (u32_add (extent_at map j).lower_first (extent_at map j).count) 1)) := by
  intro fuel
  induction fuel with
  | zero =>
    intro idx first last st h hst
    right
    simp only [map_id_up_loop] at hst
    subst hst
    exact ⟨by simp only; omega, fun j h1 h2 => by omega⟩
  | succ n ih =>
    intro idx first last st h hst
    rw [map_id_up_loop] at hst
    by_cases hlt : idx < extents
    · simp only [hlt, if_true] at hst
      by_cases hhit : id ≥ (extent_at map idx).lower_first ∧
          id ≤ u32_sub (u32_add (extent_at map idx).lower_first (extent_at map idx).count) 1
      · rw [if_pos hhit] at hst
        subst hst
        left
        refine ⟨hlt, le_refl _, rfl, hhit, ?_⟩
        intro j h1 h2
        simp only at h2
        omega
      · rw [if_neg hhit] at hst
        have hmiss : ¬ ((extent_at map idx).lower_first ≤ id ∧
        id ≤ u32_sub (u32_add (extent_at map idx).lower_first (extent_at map idx).count) 1) := fun hx => hhit hx
        rcases ih (idx + 1) _ _ st (by omega) hst with h1 | h1
        · left
          obtain ⟨a, b, c, d, e⟩ := h1
          refine ⟨a, by omega, c, d, ?_⟩
          intro j hj1 hj2
          by_cases hj : j = idx
          · subst hj; exact hmiss
          · exact e j (by omega) hj2
        · right
          obtain ⟨a, e⟩ := h1
          refine ⟨a, ?_⟩
          intro j hj1 hj2
          by_cases hj : j = idx
          · subst hj; exact hmiss
          · exact e j (by omega) hj2
    · simp only [hlt, if_false] at hst
      subst hst
      right
      exact ⟨hlt, fun j h1 h2 => by omega⟩

/-! ## Arithmetic on `u32` -/

theorem u32_add_comm (a b : Nat) : u32_add a b = u32_add b a := by
  unfold u32_add
  rw [Nat.add_comm]

/-- The last id `first + count - 1` of an extent that does not wrap. -/
theorem u32_last (f c : Nat) (hc : 0 < c) (h : f + c ≤ 4294967295) :
    u32_sub (u32_add f c) 1 = f + c - 1 := by
  unfold u32_sub u32_add
  omega

/-- The offset `(id - first) + base` when it does not wrap. -/
theorem u32_offset (id f b : Nat) (h1 : f ≤ id) (h3 : b + (id - f) < 4294967296) :
    u32_add (u32_sub id f) b = b + (id - f) := by
  unfold u32_sub u32_add
  omega

/-! ## The translations on a table that satisfies the invariant -/

/-- The two outcomes of `map_id_down`. -/
theorem map_id_down_cases (map : uid_gid_map) (id : Nat) :
    (∃ i, i < map.nr_extents ∧
        ((extent_at map i).first ≤ id ∧
          id ≤ u32_sub (u32_add (extent_at map i).first (extent_at map i).count) 1) ∧
        (∀ j, j < i → ¬ ((extent_at map j).first ≤ id ∧
          id ≤ u32_sub (u32_add (extent_at map j).first (extent_at map j).count) 1)) ∧
        map_id_down map id =
          u32_add (u32_sub id (extent_at map i).first) (extent_at map i).lower_first) ∨
      ((∀ j, j < map.nr_extents → ¬ ((extent_at map j).first ≤ id ∧
          id ≤ u32_sub (u32_add (extent_at map j).first (extent_at map j).count) 1)) ∧
        map_id_down map id = 4294967295) := by
  rcases map_id_down_loop_spec map id map.nr_extents map.nr_extents 0 0 0 _ (by omega) rfl
    with h | h
  · left
    obtain ⟨h1, _, h3, h4, h5⟩ := h
    refine ⟨_, h1, h4, fun j hj => h5 j (Nat.zero_le j) hj, ?_⟩
    simp only [map_id_down, h1, if_true, h3]
  · right
    obtain ⟨h1, h2⟩ := h
    refine ⟨fun j hj => h2 j (Nat.zero_le j) hj, ?_⟩
    simp only [map_id_down, h1, if_false]
    rfl

/-- The two outcomes of `map_id_up`. -/
theorem map_id_up_cases (map : uid_gid_map) (id : Nat) :
    (∃ i, i < map.nr_extents ∧
        ((extent_at map i).lower_first ≤ id ∧
          id ≤ u32_sub (u32_add (extent_at map i).lower_first (extent_at map i).count) 1) ∧
        (∀ j, j < i → ¬ ((extent_at map j).lower_first ≤ id ∧
          id ≤ u32_sub (u32_add (extent_at map j).lower_first (extent_at map j).count) 1)) ∧
        map_id_up map id =
          u32_add (u32_sub id (extent_at map i).lower_first) (extent_at map i).first) ∨
      ((∀ j, j < map.nr_extents → ¬ ((extent_at map j).lower_first ≤ id ∧
          id ≤ u32_sub (u32_add (extent_at map j).lower_first (extent_at map j).count) 1)) ∧
        map_id_up map id = 4294967295) := by
  rcases map_id_up_loop_spec map id map.nr_extents map.nr_extents 0 0 0 _ (by omega) rfl
    with h | h
  · left
    obtain ⟨h1, _, h3, h4, h5⟩ := h
    refine ⟨_, h1, h4, fun j hj => h5 j (Nat.zero_le j) hj, ?_⟩
    simp only [map_id_up, h1, if_true, h3]
  · right
    obtain ⟨h1, h2⟩ := h
    refine ⟨fun j hj => h2 j (Nat.zero_le j) hj, ?_⟩
    simp only [map_id_up, h1, if_false]
    rfl

/-- The two outcomes of `map_id_range_down`. -/
theorem map_id_range_down_cases (map : uid_gid_map) (id count : Nat) :
    (∃ i, i < map.nr_extents ∧
        ((extent_at map i).first ≤ id ∧
          id ≤ u32_sub (u32_add (extent_at map i).first (extent_at map i).count) 1 ∧
          (extent_at map i).first ≤ u32_sub (u32_add id count) 1 ∧
          u32_sub (u32_add id count) 1 ≤
            u32_sub (u32_add (extent_at map i).first (extent_at map i).count) 1) ∧
        (∀ j, j < i → ¬ ((extent_at map j).first ≤ id ∧
          id ≤ u32_sub (u32_add (extent_at map j).first (extent_at map j).count) 1 ∧
          (extent_at map j).first ≤ u32_sub (u32_add id count) 1 ∧
          u32_sub (u32_add id count) 1 ≤
            u32_sub (u32_add (extent_at map j).first (extent_at map j).count) 1)) ∧
        map_id_range_down map id count =
          u32_add (u32_sub id (extent_at map i).first) (extent_at map i).lower_first) ∨
      ((∀ j, j < map.nr_extents → ¬ ((extent_at map j).first ≤ id ∧
          id ≤ u32_sub (u32_add (extent_at map j).first (extent_at map j).count) 1 ∧
          (extent_at map j).first ≤ u32_sub (u32_add id count) 1 ∧
          u32_sub (u32_add id count) 1 ≤
            u32_sub (u32_add (extent_at map j).first (extent_at map j).count) 1)) ∧
        map_id_range_down map id count = 4294967295) := by
  rcases map_id_range_down_loop_spec map id (u32_sub (u32_add id count) 1) map.nr_extents
    map.nr_extents 0 0 0 _ (by omega) rfl with h | h
  · left
    obtain ⟨h1, _, h3, h4, h5⟩ := h
    refine ⟨_, h1, h4, fun j hj => h5 j (Nat.zero_le j) hj, ?_⟩
    simp only [map_id_range_down, h1, if_true, h3]
  · right
    obtain ⟨h1, h2⟩ := h
    refine ⟨fun j hj => h2 j (Nat.zero_le j) hj, ?_⟩
    simp only [map_id_range_down, h1, if_false]
    rfl

/-- Under the invariant the upper ranges are disjoint: an id lies in at most
one of them. -/
theorem upper_unique (map : uid_gid_map) (hinv : extent_table_inv map) (i j id : Nat)
    (hi : i < map.nr_extents) (hj : j < map.nr_extents)
    (h1 : (extent_at map i).first ≤ id)
    (h2 : id < (extent_at map i).first + (extent_at map i).count)
    (h3 : (extent_at map j).first ≤ id)
    (h4 : id < (extent_at map j).first + (extent_at map j).count) : i = j := by
  rcases Nat.lt_trichotomy i j with h | h | h
  · have := (hinv.2 j hj i h).1
    omega
  · exact h
  · have := (hinv.2 i hi j h).1
    omega

/-- Under the invariant the lower ranges are disjoint. -/
theorem lower_unique (map : uid_gid_map) (hinv : extent_table_inv map) (i j id : Nat)
    (hi : i < map.nr_extents) (hj : j < map.nr_extents)
    (h1 : (extent_at map i).lower_first ≤ id)
    (h2 : id < (extent_at map i).lower_first + (extent_at map i).count)
    (h3 : (extent_at map j).lower_first ≤ id)
    (h4 : id < (extent_at map j).lower_first + (extent_at map j).count) : i = j := by
  rcases Nat.lt_trichotomy i j with h | h | h
  · have := (hinv.2 j hj i h).2
    omega
  · exact h
  · have := (hinv.2 i hi j h).2
    omega

/-- Under the invariant `map_id_down` of an id of extent `i` is its offset in
the lower range of that extent. -/
theorem map_id_down_of_mem (map : uid_gid_map) (hinv : extent_table_inv map) (i id : Nat)
    (hi : i < map.nr_extents) (h1 : (extent_at map i).first ≤ id)
    (h2 : id < (extent_at map i).first + (extent_at map i).count) :
    map_id_down map id = (extent_at map i).lower_first + (id - (extent_at map i).first) := by
  have hb := hinv.1 i hi
  rcases map_id_down_cases map id with ⟨k, hk, hhit, _, hres⟩ | ⟨hnone, _⟩
  · have hbk := hinv.1 k hk
    rw [u32_last _ _ hbk.1 hbk.2.1] at hhit
    have hki : k = i := upper_unique map hinv k i id hk hi hhit.1 (by omega) h1 h2
    subst hki
    rw [hres]
    exact u32_offset _ _ _ h1 (by omega)
  · exfalso
    apply hnone i hi
    rw [u32_last _ _ hb.1 hb.2.1]
    omega

/-- Under the invariant `map_id_up` of an id in the lower range of extent `i`
is its offset in the upper range of that extent. -/
theorem map_id_up_of_mem (map : uid_gid_map) (hinv : extent_table_inv map) (i id : Nat)
    (hi : i < map.nr_extents) (h1 : (extent_at map i).lower_first ≤ id)
    (h2 : id < (extent_at map i).lower_first + (extent_at map i).count) :
    map_id_up map id = (extent_at map i).first + (id - (extent_at map i).lower_first) := by
  have hb := hinv.1 i hi
  rcases map_id_up_cases map id with ⟨k, hk, hhit, _, hres⟩ | ⟨hnone, _⟩
  · have hbk := hinv.1 k hk
    rw [u32_last _ _ hbk.1 hbk.2.2] at hhit
    have hki : k = i := lower_unique map hinv k i id hk hi hhit.1 (by omega) h1 h2
    subst hki
    rw [hres]
    exact u32_offset _ _ _ h1 (by omega)
  · exfalso
    apply hnone i hi
    rw [u32_last _ _ hb.1 hb.2.2]
    omega

/-- Under the invariant, what `map_id_range_down` returns for a block that
does not wrap: the offset of the block in the one extent that holds it whole,
or `(u32) -1` when no extent does. -/
theorem map_id_range_down_inv (map : uid_gid_map) (hinv : extent_table_inv map)
    (id count : Nat) (hc : 1 ≤ count) (hw : id + count - 1 ≤ 4294967295) :
    (∃ i, i < map.nr_extents ∧
        (extent_at map i).first ≤ id ∧
        id + count ≤ (extent_at map i).first + (extent_at map i).count ∧
        map_id_range_down map id count =
          (extent_at map i).lower_first + (id - (extent_at map i).first)) ∨
      ((∀ i, i < map.nr_extents →
          ¬ ((extent_at map i).first ≤ id ∧
            id + count ≤ (extent_at map i).first + (extent_at map i).count)) ∧
        map_id_range_down map id count = 4294967295) := by
  have hid2 : u32_sub (u32_add id count) 1 = id + count - 1 := by
    unfold u32_sub u32_add
    omega
  rcases map_id_range_down_cases map id count with ⟨k, hk, hhit, _, hres⟩ | ⟨hnone, hres⟩
  · left
    have hbk := hinv.1 k hk
    rw [u32_last _ _ hbk.1 hbk.2.1, hid2] at hhit
    refine ⟨k, hk, hhit.1, by omega, ?_⟩
    rw [hres]
    exact u32_offset _ _ _ hhit.1 (by omega)
  · right
    refine ⟨?_, hres⟩
    intro i hi hcon
    have hb := hinv.1 i hi
    apply hnone i hi
    rw [u32_last _ _ hb.1 hb.2.1, hid2]
    omega

/-! ## The slots of a table -/

theorem extent_at_set_eq (n k : Nat) (l : List uid_gid_extent) (e : uid_gid_extent)
    (h : k < l.length) : extent_at ⟨n, l.set k e⟩ k = e := by
  simp [extent_at, List.getD_eq_getElem?_getD, List.getElem?_set, h]

theorem extent_at_set_ne (n m k i : Nat) (l : List uid_gid_extent) (e : uid_gid_extent)
    (h : i ≠ k) : extent_at ⟨n, l.set k e⟩ i = extent_at ⟨m, l⟩ i := by
  simp [extent_at, List.getD_eq_getElem?_getD, List.getElem?_set, Ne.symm h]

/-! ## The parsing loop -/

/-- The numbers read by `parse_line` are `u32` values. -/
theorem parse_line_bound (line : List Nat) (e : uid_gid_extent) (h : parse_line line = some e) :
    e.first < 4294967296 ∧ e.lower_first < 4294967296 ∧ e.count < 4294967296 := by
  unfold parse_line at h
  simp only at h
  split at h
  · exact absurd h (by simp)
  · split at h
    · exact absurd h (by simp)
    · split at h
      · exact absurd h (by simp)
      · split at h
        · exact absurd h (by simp)
        · simp only [Option.some.injEq] at h
          subst h
          simp only [simple_strtoul]
          refine ⟨Nat.mod_lt _ (by decide), Nat.mod_lt _ (by decide), Nat.mod_lt _ (by decide)⟩

/-- What an iteration of the parsing loop that does not `goto out` has
checked and produced. -/
theorem parse_iteration_some (pos : List Nat) (new_map : uid_gid_map)
    (last : Option uid_gid_extent) (counted : uid_gid_map) (e : uid_gid_extent)
    (next : Option (List Nat)) (h : parse_iteration pos new_map last = some (counted, e, next)) :
    parse_line (find_end_of_line pos).1 = some e ∧
    extent_valid e ∧
    out_of_order last e = false ∧
    counted = ⟨new_map.nr_extents + 1, new_map.extent.set new_map.nr_extents e⟩ ∧
    next = (find_end_of_line pos).2 ∧
    ¬ (new_map.nr_extents + 1 = UID_GID_MAP_MAX_EXTENTS ∧ next.isSome) := by
  unfold parse_iteration at h
  simp only at h
  split at h
  · exact absurd h (by simp)
  · rename_i x hx
    have hb := parse_line_bound _ _ hx
    split at h
    · exact absurd h (by simp)
    · split at h
      · exact absurd h (by simp)
      · split at h
        · exact absurd h (by simp)
        · split at h
          · exact absurd h (by simp)
          · split at h
            · exact absurd h (by simp)
            · rename_i h1 h2 h3 h4 h5
              simp only [Option.some.injEq, Prod.mk.injEq] at h
              obtain ⟨hc, he, hn⟩ := h
              subst he
              subst hn
              have hv : extent_valid x := by
                unfold extent_valid
                unfold u32_add at h2 h3
                unfold U32_MAX at h1
                omega
              refine ⟨hx, hv, by simpa using h4, hc.symm, rfl, h5⟩

/-- An iteration that does not `goto out` keeps the invariant of the parsing
loop: the extent it accepts extends the table in order. -/
theorem parse_iteration_inv (pos : List Nat) (new_map : uid_gid_map)
    (last : Option uid_gid_extent) (counted : uid_gid_map) (e : uid_gid_extent)
    (next : Option (List Nat)) (hinv : parse_inv new_map last)
    (h : parse_iteration pos new_map last = some (counted, e, next)) :
    counted.extent.length = UID_GID_MAP_MAX_EXTENTS ∧
    counted.nr_extents = new_map.nr_extents + 1 ∧
    extent_table_inv counted ∧
    extent_at counted new_map.nr_extents = e ∧
    (∀ i, i < new_map.nr_extents → extent_at counted i = extent_at new_map i) ∧
    (next.isSome → counted.nr_extents < UID_GID_MAP_MAX_EXTENTS) := by
  obtain ⟨_, hv, hord, hc, _, hmax⟩ := parse_iteration_some pos new_map last counted e next h
  obtain ⟨hlen, hnr, htab, hlast⟩ := hinv
  subst hc
  have hat : extent_at ⟨new_map.nr_extents + 1, new_map.extent.set new_map.nr_extents e⟩
      new_map.nr_extents = e := extent_at_set_eq _ _ _ _ (by omega)
  have hold : ∀ i, i < new_map.nr_extents →
      extent_at ⟨new_map.nr_extents + 1, new_map.extent.set new_map.nr_extents e⟩ i =
        extent_at new_map i := by
    intro i hi
    exact extent_at_set_ne _ _ _ _ _ _ (by omega)
  refine ⟨by simpa using hlen, rfl, ?_, hat, hold, ?_⟩
  · constructor
    · intro i hi
      simp only at hi
      by_cases hin : i < new_map.nr_extents
      · rw [hold i hin]
        exact htab.1 i hin
      · have hie : i = new_map.nr_extents := by omega
        subst hie
        rw [hat]
        exact hv
    · intro j hj i hij
      simp only at hj
      by_cases hjn : j < new_map.nr_extents
      · rw [hold j hjn, hold i (by omega)]
        exact htab.2 j hjn i hij
      · have hje : j = new_map.nr_extents := by omega
        subst hje
        rw [hat, hold i hij]
        rcases hlast with ⟨h0, _⟩ | ⟨hpos, hl⟩
        · omega
        · subst hl
          have hvl := htab.1 (new_map.nr_extents - 1) (by omega)
          simp only [out_of_order, decide_eq_false_iff_not] at hord
          unfold u32_add at hord
          by_cases hil : i = new_map.nr_extents - 1
          · subst hil
            omega
          · have hp := htab.2 (new_map.nr_extents - 1) (by omega) i (by omega)
            omega
  · intro hsome
    simp only
    unfold UID_GID_MAP_MAX_EXTENTS at hmax hnr ⊢
    have : ¬ new_map.nr_extents + 1 = 5 := fun hx => hmax ⟨hx, hsome⟩
    omega

/-- The working table that the parsing loop ends with has between one and
five extents in use, and they satisfy the Extent Table invariant. -/
theorem parse_loop_inv :
    ∀ (fuel : Nat) (pos : List Nat) (new_map : uid_gid_map) (last : Option uid_gid_extent)
      (result : uid_gid_map), parse_inv new_map last →
      parse_loop fuel pos new_map last = some (some result) →
      result.extent.length = UID_GID_MAP_MAX_EXTENTS ∧ 0 < result.nr_extents ∧
        result.nr_extents ≤ UID_GID_MAP_MAX_EXTENTS ∧ extent_table_inv result := by
  intro fuel
  induction fuel with
  | zero =>
    intro pos new_map last result _ h
    simp [parse_loop] at h
  | succ n ih =>
    intro pos new_map last result hinv h
    rw [parse_loop] at h
    split at h
    · simp at h
    · rename_i counted e hit
      obtain ⟨h1, h2, h3, _, _, _⟩ := parse_iteration_inv pos new_map last counted e none hinv hit
      simp only [Option.some.injEq] at h
      subst h
      have := hinv.2.1
      exact ⟨h1, by omega, by omega, h3⟩
    · rename_i counted e next hit
      obtain ⟨h1, h2, h3, h4, _, h6⟩ :=
        parse_iteration_inv pos new_map last counted e (some next) hinv hit
      apply ih next counted (some e) result _ h
      refine ⟨h1, h6 rfl, h3, Or.inr ⟨by omega, ?_⟩⟩
      rw [h2, Nat.add_sub_cancel, h4]

theorem parse_inv_init : parse_inv new_map_init none := by
  refine ⟨rfl, by decide, by decide, Or.inl ⟨rfl, rfl⟩⟩

/-- The table parsed from the user data has between one and five extents in
use, and they satisfy the Extent Table invariant (with the lower ids as
written in the text). -/
theorem parse_user_data_inv (kbuf : List Nat) (parsed : uid_gid_map)
    (h : parse_user_data kbuf = some parsed) :
    parsed.extent.length = UID_GID_MAP_MAX_EXTENTS ∧ 0 < parsed.nr_extents ∧
      parsed.nr_extents ≤ UID_GID_MAP_MAX_EXTENTS ∧ extent_table_inv parsed := by
  unfold parse_user_data at h
  split at h
  · rename_i result hr
    subst h
    exact parse_loop_inv _ _ _ _ _ parse_inv_init hr
  · simp at h

/-! ## Mapping the lower ids and installing the table -/

/-- What the loop of lines 525-540 has done when it ends without `goto out`:
every extent in use from `idx` on has its `lower_first` replaced by the value
that `map_id_range_down` gives in the parent table, which is not `(u32) -1`;
nothing else is changed. -/
theorem map_lower_ids_spec (parent_map : uid_gid_map) :
    ∀ (fuel idx : Nat) (new_map mapped : uid_gid_map),
      new_map.nr_extents ≤ idx + fuel → new_map.nr_extents ≤ new_map.extent.length →
      map_lower_ids parent_map fuel idx new_map = some mapped →
      mapped.nr_extents = new_map.nr_extents ∧
      mapped.extent.length = new_map.extent.length ∧
      (∀ i, i < idx → extent_at mapped i = extent_at new_map i) ∧
      (∀ i, idx ≤ i → i < new_map.nr_extents →
        extent_at mapped i =
          ⟨(extent_at new_map i).first,
            map_id_range_down parent_map (extent_at new_map i).lower_first
              (extent_at new_map i).count,
            (extent_at new_map i).count⟩ ∧
        map_id_range_down parent_map (extent_at new_map i).lower_first
          (extent_at new_map i).count ≠ U32_MAX) := by
  intro fuel
  induction fuel with
  | zero =>
    intro idx new_map mapped hf _ h
    simp only [map_lower_ids, Option.some.injEq] at h
    subst h
    exact ⟨rfl, rfl, fun _ _ => rfl, fun i h1 h2 => by omega⟩
  | succ n ih =>
    intro idx new_map mapped hf hlen h
    rw [map_lower_ids] at h
    by_cases hlt : idx < new_map.nr_extents
    · simp only [hlt, if_true] at h
      split at h
      · simp at h
      · rename_i hres
        obtain ⟨h1, h2, h3, h4⟩ := ih (idx + 1) _ mapped (by simp only; omega)
          (by simp only [List.length_set]; omega) h
        simp only [List.length_set] at h2
        refine ⟨h1, h2, ?_, ?_⟩
        · intro i hi
          rw [h3 i (by omega)]
          exact extent_at_set_ne _ _ _ _ _ _ (by omega)
        · intro i hi1 hi2
          by_cases hie : i = idx
          · subst hie
            rw [h3 i (by omega)]
            exact ⟨extent_at_set_eq _ _ _ _ (by omega), hres⟩
          · have hne : extent_at
                ⟨new_map.nr_extents, new_map.extent.set idx
                  ⟨(extent_at new_map idx).first,
                    map_id_range_down parent_map (extent_at new_map idx).lower_first
                      (extent_at new_map idx).count,
                    (extent_at new_map idx).count⟩⟩ i = extent_at new_map i :=
              extent_at_set_ne _ _ _ _ _ _ hie
            have h5 := h4 i (by omega) hi2
            rw [hne] at h5
            exact h5
    · simp only [hlt, if_false, Option.some.injEq] at h
      subst h
      exact ⟨rfl, rfl, fun _ _ => rfl, fun i h1 h2 => by omega⟩

/-- The slots copied by the `memcpy` of line 543. -/
theorem extent_at_install (n m i : Nat) (l old : List uid_gid_extent) (hi : i < n)
    (hn : n ≤ l.length) :
    extent_at ⟨m, l.take n ++ old.drop n⟩ i = extent_at ⟨m, l⟩ i := by
  have h1 : i < (l.take n).length := by
    rw [List.length_take]
    omega
  simp [extent_at, List.getD_eq_getElem?_getD, List.getElem?_append_left h1,
    List.getElem?_take, hi]

/-- A call of `map_write` that does not return an error has passed every
check, and has installed the parsed table with its lower ids mapped. -/
theorem map_write_success {NS : Type} (ns_capable : NS → Nat → Bool) (parent_of : NS → NS)
    (page_ok copy_ok : Bool) (ns : NS) (buf : List Nat) (ppos : Int) (cap_setid : Nat)
    (map parent_map : uid_gid_map)
    (h : 0 ≤ (map_write ns_capable parent_of page_ok copy_ok ns buf ppos cap_setid map
      parent_map).ret) :
    map.nr_extents = 0 ∧ ns_capable ns cap_setid = true ∧ page_ok = true ∧ ppos = 0 ∧
    buf.length < PAGE_SIZE ∧ copy_ok = true ∧
    ∃ parsed mapped, parse_user_data buf = some parsed ∧
      ns_capable (parent_of ns) cap_setid = true ∧
      map_lower_ids parent_map parsed.nr_extents 0 parsed = some mapped ∧
      map_write ns_capable parent_of page_ok copy_ok ns buf ppos cap_setid map parent_map =
        ⟨buf.length,
          ⟨mapped.nr_extents,
            mapped.extent.take mapped.nr_extents ++ map.extent.drop mapped.nr_extents⟩,
          buf.length⟩ := by
  unfold map_write at h ⊢
  simp only at h ⊢
  have e1 : ¬ (0 : Int) ≤ -EPERM := by decide
  have e2 : ¬ (0 : Int) ≤ -ENOMEM := by decide
  have e3 : ¬ (0 : Int) ≤ -EINVAL := by decide
  have e4 : ¬ (0 : Int) ≤ -EFAULT := by decide
  split at h
  · exact absurd h e1
  · rename_i c1
    split at h
    · exact absurd h e1
    · rename_i c2
      split at h
      · exact absurd h e2
      · rename_i c3
        split at h
        · exact absurd h e3
        · rename_i c4
          split at h
          · exact absurd h e4
          · rename_i c5
            split at h
            · exact absurd h e3
            · rename_i parsed hp
              split at h
              · exact absurd h e3
              · rename_i c6
                split at h
                · exact absurd h e1
                · rename_i c7
                  split at h
                  · exact absurd h e1
                  · rename_i mapped hm
                    simp only [ne_eq, Decidable.not_not] at c1
                    simp only [Bool.not_eq_true, Bool.not_eq_false, Bool.not_eq_eq_eq_not,
                      Bool.not_true, Bool.not_false] at c2 c3 c5 c7
                    have c7b : ns_capable (parent_of ns) cap_setid = true := by
                      unfold new_idmap_permitted at c7
                      by_cases hx : ns_capable (parent_of ns) cap_setid = true
                      · exact hx
                      · simp [hx] at c7
                    refine ⟨c1, c2, c3, by omega, by omega, c5, parsed, mapped, hp, c7b, hm, ?_⟩
                    simp [c1, c2, c3, c4, c5, c6, c7, hm, hp]

/-- The table installed by a call of `map_write` that does not return an
error: slot `i` holds the record `i` of the parsed table with its lower id
replaced by what `map_id_range_down` gives in the parent table. -/
theorem map_write_installed {NS : Type} (ns_capable : NS → Nat → Bool) (parent_of : NS → NS)
    (page_ok copy_ok : Bool) (ns : NS) (buf : List Nat) (ppos : Int) (cap_setid : Nat)
    (map parent_map : uid_gid_map)
    (h : 0 ≤ (map_write ns_capable parent_of page_ok copy_ok ns buf ppos cap_setid map parent_map).ret) :
    ∃ parsed, parse_user_data buf = some parsed ∧
      (map_write ns_capable parent_of page_ok copy_ok ns buf ppos cap_setid map parent_map).map.nr_extents = parsed.nr_extents ∧
      ∀ i, i < parsed.nr_extents →
        extent_at (map_write ns_capable parent_of page_ok copy_ok ns buf ppos cap_setid map parent_map).map i =
          ⟨(extent_at parsed i).first,
            map_id_range_down parent_map (extent_at parsed i).lower_first
              (extent_at parsed i).count,
            (extent_at parsed i).count⟩ ∧
        map_id_range_down parent_map (extent_at parsed i).lower_first
          (extent_at parsed i).count ≠ U32_MAX := by
  obtain ⟨_, _, _, _, _, _, parsed, mapped, hp, _, hm, hw⟩ :=
    map_write_success ns_capable parent_of page_ok copy_ok ns buf ppos cap_setid map parent_map h
  obtain ⟨hlen, _, hle, _⟩ := parse_user_data_inv buf parsed hp
  obtain ⟨h1, h2, _, h4⟩ :=
    map_lower_ids_spec parent_map parsed.nr_extents 0 parsed mapped (by omega)
      (by omega) hm
  refine ⟨parsed, hp, ?_, ?_⟩
  · rw [hw]
    exact h1
  · intro i hi
    rw [hw]
    simp only
    rw [extent_at_install _ _ _ _ _ (by omega) (by omega)]
    exact h4 i (Nat.zero_le i) hi

/-- In a parent table that satisfies the invariant, a block that
`map_id_range_down` maps lies in one extent of the parent, and the value
returned is its offset in the lower range of that extent. -/
theorem resolved_in_parent (parent_map : uid_gid_map) (hinv : extent_table_inv parent_map)
    (lower count : Nat) (hc : 0 < count) (hw : lower + count ≤ 4294967295)
    (hres : map_id_range_down parent_map lower count ≠ U32_MAX) :
    ∃ k, k < parent_map.nr_extents ∧ (extent_at parent_map k).first ≤ lower ∧
      lower + count ≤ (extent_at parent_map k).first + (extent_at parent_map k).count ∧
      map_id_range_down parent_map lower count =
        (extent_at parent_map k).lower_first + (lower - (extent_at parent_map k).first) := by
  rcases map_id_range_down_inv parent_map hinv lower count hc (by omega) with h | h
  · exact h
  · exact absurd h.2 hres

/-- The table installed by `map_write` satisfies the Extent Table invariant
when the parent table does. -/
theorem map_write_installed_inv {NS : Type} (ns_capable : NS → Nat → Bool) (parent_of : NS → NS)
    (page_ok copy_ok : Bool) (ns : NS) (buf : List Nat) (ppos : Int) (cap_setid : Nat)
    (map parent_map : uid_gid_map)
    (hpinv : extent_table_inv parent_map)
    (h : 0 ≤ (map_write ns_capable parent_of page_ok copy_ok ns buf ppos cap_setid map parent_map).ret) :
    extent_table_inv (map_write ns_capable parent_of page_ok copy_ok ns buf ppos cap_setid map parent_map).map := by
  obtain ⟨parsed, hp, hnr, hslots⟩ :=
    map_write_installed ns_capable parent_of page_ok copy_ok ns buf ppos cap_setid map
      parent_map h
  obtain ⟨_, _, _, hpar⟩ := parse_user_data_inv buf parsed hp
  constructor
  · intro i hi
    rw [hnr] at hi
    obtain ⟨hs, hne⟩ := hslots i hi
    have hv := hpar.1 i hi
    obtain ⟨k, hk, k1, k2, k3⟩ := resolved_in_parent parent_map hpinv _ _ hv.1 hv.2.2 hne
    have hkv := hpinv.1 k hk
    rw [hs]
    simp only
    refine ⟨hv.1, hv.2.1, ?_⟩
    omega
  · intro j hj i hij
    rw [hnr] at hj
    obtain ⟨hsi, hnei⟩ := hslots i (by omega)
    obtain ⟨hsj, hnej⟩ := hslots j hj
    have hvi := hpar.1 i (by omega)
    have hvj := hpar.1 j hj
    have hord := hpar.2 j hj i hij
    obtain ⟨ki, hki, i1, i2, i3⟩ := resolved_in_parent parent_map hpinv _ _ hvi.1 hvi.2.2 hnei
    obtain ⟨kj, hkj, j1, j2, j3⟩ := resolved_in_parent parent_map hpinv _ _ hvj.1 hvj.2.2 hnej
    have hkvi := hpinv.1 ki hki
    have hkvj := hpinv.1 kj hkj
    rw [hsi, hsj]
    simp only
    refine ⟨hord.1, ?_⟩
    rcases Nat.lt_trichotomy ki kj with hlt | heq | hgt
    · have := hpinv.2 kj hkj ki hlt
      omega
    · subst heq
      omega
    · have := hpinv.2 ki hki kj hgt
      omega

/-- A call of `map_write` either returns an error and leaves the table and the
file position as they were, or returns a value that is not negative. -/
theorem map_write_cases {NS : Type} (ns_capable : NS → Nat → Bool) (parent_of : NS → NS)
    (page_ok copy_ok : Bool) (ns : NS) (buf : List Nat) (ppos : Int) (cap_setid : Nat)
    (map parent_map : uid_gid_map) :
    ((map_write ns_capable parent_of page_ok copy_ok ns buf ppos cap_setid map parent_map).map = map ∧
      (map_write ns_capable parent_of page_ok copy_ok ns buf ppos cap_setid map parent_map).ppos = ppos ∧
      (map_write ns_capable parent_of page_ok copy_ok ns buf ppos cap_setid map parent_map).ret < 0) ∨
    0 ≤ (map_write ns_capable parent_of page_ok copy_ok ns buf ppos cap_setid map parent_map).ret := by
  unfold map_write
  simp only
  iterate 10 (all_goals (try split))
  all_goals first
    | exact Or.inl ⟨rfl, rfl, by simp only [EPERM, ENOMEM, EINVAL, EFAULT]; decide⟩
    | exact Or.inr (Int.ofNat_nonneg _)

/-! ## Lines of the buffer -/

/-- A line that is followed by a newline: `strchr` stops at that newline. -/
theorem find_end_of_line_newline (line rest : List Nat)
    (h : ∀ c, c ∈ line → c ≠ 0 ∧ c ≠ 10) :
    find_end_of_line (line ++ 10 :: rest) =
      (line, if deref rest = 0 then none else some rest) := by
  induction line with
  | nil => simp [find_end_of_line]
  | cons c cs ih =>
    have hc := h c (List.mem_cons_self c cs)
    have ih2 := ih (fun d hd => h d (List.mem_cons_of_mem c hd))
    rw [List.cons_append, find_end_of_line]
    simp only [hc.1, hc.2, if_false, ih2]

/-- A line that is followed by the end of the string or by a newline is the
string that `parse_line` is given. -/
theorem find_end_of_line_fst (line post : List Nat)
    (h : ∀ c, c ∈ line → c ≠ 0 ∧ c ≠ 10) (hpost : deref post = 0 ∨ deref post = 10) :
    (find_end_of_line (line ++ post)).1 = line := by
  induction line with
  | nil =>
    cases post with
    | nil => simp [find_end_of_line]
    | cons d ds =>
      simp only [deref, List.headD_cons] at hpost
      rcases hpost with h0 | h10
      · subst h0
        simp [find_end_of_line]
      · subst h10
        simp [find_end_of_line]
  | cons c cs ih =>
    have hc := h c (List.mem_cons_self c cs)
    have ih2 := ih (fun d hd => h d (List.mem_cons_of_mem c hd))
    rw [List.cons_append, find_end_of_line]
    simp only [hc.1, hc.2, if_false, ih2]

/-- The cursor `next_line` is further in the buffer than `pos`. -/
theorem find_end_of_line_length :
    ∀ (pos next : List Nat), (find_end_of_line pos).2 = some next → next.length < pos.length := by
  intro pos
  induction pos with
  | nil =>
    intro next h
    simp [find_end_of_line] at h
  | cons c cs ih =>
    intro next h
    simp only [find_end_of_line] at h
    by_cases h10 : c = 10
    · simp only [h10, if_true] at h
      split at h
      · simp at h
      · simp only [Option.some.injEq] at h
        subst h
        simp
    · by_cases h0 : c = 0
      · simp [h10, h0] at h
      · simp only [h10, h0, if_false] at h
        have := ih next h
        simp only [List.length_cons]
        omega

/-- The fuel of the parsing loop is never exhausted: with more fuel than
characters under the cursor the loop ends, with `goto out` or with a table. -/
theorem parse_loop_fuel :
    ∀ (fuel : Nat) (pos : List Nat) (new_map : uid_gid_map) (last : Option uid_gid_extent),
      pos.length < fuel → parse_loop fuel pos new_map last ≠ none := by
  intro fuel
  induction fuel with
  | zero =>
    intro pos new_map last h
    omega
  | succ n ih =>
    intro pos new_map last h
    rw [parse_loop]
    split
    · simp
    · simp
    · rename_i counted e next hit
      obtain ⟨_, _, _, _, hn, _⟩ := parse_iteration_some pos new_map last counted e _ hit
      have := find_end_of_line_length pos next hn.symm
      exact ih next counted (some e) (by omega)

/-- The value of `parse_user_data` is what the parsing loop ends with: the
fuel it gives to the loop is not exhausted. -/
theorem parse_user_data_eq (kbuf : List Nat) :
    parse_loop (kbuf.length + 1) kbuf new_map_init none = some (parse_user_data kbuf) := by
  have h := parse_loop_fuel (kbuf.length + 1) kbuf new_map_init none (by omega)
  unfold parse_user_data
  split
  · rename_i r hr
    exact hr
  · rename_i hr
    exact absurd hr h

/-- The iteration of the parsing loop on a line that has more text after its
newline: the line is read, its extent passes the checks, and the loop goes on
after the newline with that extent as `last`. -/
theorem parse_loop_next (fuel : Nat) (line rest : List Nat) (new_map : uid_gid_map)
    (last : Option uid_gid_extent) (result : uid_gid_map)
    (hline : ∀ c, c ∈ line → c ≠ 0 ∧ c ≠ 10) (hrest : deref rest ≠ 0)
    (h : parse_loop fuel (line ++ 10 :: rest) new_map last = some (some result)) :
    ∃ fuel2 counted e, parse_line line = some e ∧ extent_valid e ∧
      out_of_order last e = false ∧
      parse_loop fuel2 rest counted (some e) = some (some result) := by
  cases fuel with
  | zero => simp [parse_loop] at h
  | succ n =>
    rw [parse_loop] at h
    have heol := find_end_of_line_newline line rest hline
    simp only [hrest, if_false] at heol
    split at h
    · simp at h
    · rename_i counted e hit
      obtain ⟨_, _, _, _, hn, _⟩ := parse_iteration_some _ new_map last counted e _ hit
      rw [heol] at hn
      simp at hn
    · rename_i counted e next hit
      obtain ⟨hp, hv, ho, _, hn, _⟩ := parse_iteration_some _ new_map last counted e _ hit
      rw [heol] at hn hp
      simp only [Option.some.injEq] at hn
      subst hn
      exact ⟨n, counted, e, hp, hv, ho, h⟩

/-- The iteration of the parsing loop on a line: when the loop ends with a
table, the line was read and its extent passed the checks. -/
theorem parse_loop_line (fuel : Nat) (line post : List Nat) (new_map : uid_gid_map)
    (last : Option uid_gid_extent) (result : uid_gid_map)
    (hline : ∀ c, c ∈ line → c ≠ 0 ∧ c ≠ 10) (hpost : deref post = 0 ∨ deref post = 10)
    (h : parse_loop fuel (line ++ post) new_map last = some (some result)) :
    ∃ e, parse_line line = some e ∧ extent_valid e ∧ out_of_order last e = false := by
  cases fuel with
  | zero => simp [parse_loop] at h
  | succ n =>
    rw [parse_loop] at h
    have heol := find_end_of_line_fst line post hline hpost
    split at h
    · simp at h
    · rename_i counted e hit
      obtain ⟨hp, hv, ho, _, _, _⟩ := parse_iteration_some _ new_map last counted e _ hit
      rw [heol] at hp
      exact ⟨e, hp, hv, ho⟩
    · rename_i counted e next hit
      obtain ⟨hp, hv, ho, _, _, _⟩ := parse_iteration_some _ new_map last counted e _ hit
      rw [heol] at hp
      exact ⟨e, hp, hv, ho⟩

/-- The parsing loop reaches every line of the string: when the text before
`rest` is made of whole lines and the loop ends with a table, some iteration
started with the cursor on `rest`. -/
theorem parse_loop_reach :
    ∀ (n : Nat) (pre rest : List Nat) (fuel : Nat) (new_map : uid_gid_map)
      (last : Option uid_gid_extent) (result : uid_gid_map),
      pre.length ≤ n → (∀ c, c ∈ pre → c ≠ 0) → (pre = [] ∨ pre.getLast? = some 10) →
      deref rest ≠ 0 →
      parse_loop fuel (pre ++ rest) new_map last = some (some result) →
      ∃ fuel2 new_map2 last2, parse_loop fuel2 rest new_map2 last2 = some (some result) := by
  intro n
  induction n with
  | zero =>
    intro pre rest fuel new_map last result hlen _ _ _ h
    have hnil : pre = [] := List.length_eq_zero.mp (by omega)
    subst hnil
    exact ⟨fuel, new_map, last, h⟩
  | succ n ih =>
    intro pre rest fuel new_map last result hlen h0 hend hrest h
    rcases hend with hnil | hlast
    · subst hnil
      exact ⟨fuel, new_map, last, h⟩
    · have hmem : 10 ∈ pre := List.mem_of_getLast?_eq_some hlast
      obtain ⟨line, pre2, hsplit, hnot⟩ := List.eq_append_cons_of_mem hmem
      subst hsplit
      have hline : ∀ c, c ∈ line → c ≠ 0 ∧ c ≠ 10 := by
        intro c hc
        refine ⟨h0 c (List.mem_append_left _ hc), ?_⟩
        intro hc10
        subst hc10
        exact hnot hc
      have h02 : ∀ c, c ∈ pre2 → c ≠ 0 := fun c hc =>
        h0 c (List.mem_append_right _ (List.mem_cons_of_mem _ hc))
      have hend2 : pre2 = [] ∨ pre2.getLast? = some 10 := by
        cases pre2 with
        | nil => exact Or.inl rfl
        | cons d ds =>
          right
          simpa using hlast
      have hrest2 : deref (pre2 ++ rest) ≠ 0 := by
        cases pre2 with
        | nil => simpa using hrest
        | cons d ds =>
          simp only [List.cons_append, deref, List.headD_cons]
          exact h02 d (List.mem_cons_self d ds)
      rw [List.append_assoc, List.cons_append] at h
      obtain ⟨fuel2, counted, e, _, _, _, hgo⟩ :=
        parse_loop_next fuel line (pre2 ++ rest) new_map last result hline hrest2 h
      have hlen2 : pre2.length ≤ n := by
        simp only [List.length_append, List.length_cons] at hlen
        omega
      exact ih pre2 rest fuel2 counted (some e) result hlen2 h02 hend2 hrest hgo

/-- The string of an empty line holds no record. -/
theorem parse_line_nil : parse_line [] = none := by decide

/-- The first character of a line that `parse_line` reads. -/
theorem deref_line (line post : List Nat) (e : uid_gid_extent) (h0 : ∀ c, c ∈ line → c ≠ 0)
    (h : parse_line line = some e) : deref (line ++ post) ≠ 0 := by
  cases line with
  | nil =>
    rw [parse_line_nil] at h
    simp at h
  | cons c cs =>
    simp only [List.cons_append, deref, List.headD_cons]
    exact h0 c (List.mem_cons_self c cs)

/-! ## Rejected batches -/

/-- When the checks made before parsing pass and the parsing loop ends with
`goto out`, `map_write` returns `-EINVAL` and changes nothing. -/
theorem map_write_parse_none {NS : Type} (ns_capable : NS → Nat → Bool) (parent_of : NS → NS)
    (page_ok copy_ok : Bool) (ns : NS) (buf : List Nat) (ppos : Int) (cap_setid : Nat)
    (map parent_map : uid_gid_map)
    (hmap : map.nr_extents = 0) (hcap : ns_capable ns cap_setid = true)
    (hpage : page_ok = true) (hpos : ppos = 0) (hsize : buf.length < PAGE_SIZE)
    (hcopy : copy_ok = true) (hparse : parse_user_data buf = none) :
    map_write ns_capable parent_of page_ok copy_ok ns buf ppos cap_setid map parent_map = ⟨-EINVAL, map, ppos⟩ := by
  have hs : ¬ buf.length ≥ PAGE_SIZE := by omega
  unfold map_write
  simp [hmap, hcap, hpage, hpos, hs, hcopy, hparse]

theorem parse_user_data_some (kbuf : List Nat) (result : uid_gid_map)
    (h : parse_user_data kbuf = some result) :
    parse_loop (kbuf.length + 1) kbuf new_map_init none = some (some result) := by
  unfold parse_user_data at h
  split at h
  · rename_i r hr
    rw [hr, h]
  · simp at h

/-- A batch in which a line follows a line whose extent ends after the start
of its own, in the upper or in the lower ids, is not parsed. -/
theorem parse_user_data_disorder (pre lineA lineB post : List Nat) (A B : uid_gid_extent)
    (hpre : pre = [] ∨ pre.getLast? = some 10) (hpre0 : ∀ c, c ∈ pre → c ≠ 0)
    (hA : ∀ c, c ∈ lineA → c ≠ 0 ∧ c ≠ 10) (hB : ∀ c, c ∈ lineB → c ≠ 0 ∧ c ≠ 10)
    (hpost : deref post = 0 ∨ deref post = 10)
    (hrecA : parse_line lineA = some A) (hrecB : parse_line lineB = some B)
    (hbad : A.first + A.count > B.first ∨ A.lower_first + A.count > B.lower_first) :
    parse_user_data (pre ++ (lineA ++ 10 :: (lineB ++ post))) = none := by
  cases hp : parse_user_data (pre ++ (lineA ++ 10 :: (lineB ++ post))) with
  | none => rfl
  | some result =>
    exfalso
    have h1 := parse_user_data_some _ _ hp
    obtain ⟨f2, m2, l2, h2⟩ :=
      parse_loop_reach pre.length pre (lineA ++ 10 :: (lineB ++ post)) _ _ _ result
        (le_refl _) hpre0 hpre
        (deref_line lineA _ A (fun c hc => (hA c hc).1) hrecA) h1
    obtain ⟨f3, m3, e3, he3, hv, _, h3⟩ :=
      parse_loop_next f2 lineA (lineB ++ post) m2 l2 result hA
        (deref_line lineB post B (fun c hc => (hB c hc).1) hrecB) h2
    rw [hrecA] at he3
    simp only [Option.some.injEq] at he3
    subst he3
    obtain ⟨e4, he4, _, ho⟩ := parse_loop_line f3 lineB post m3 (some A) result hB hpost h3
    rw [hrecB] at he4
    simp only [Option.some.injEq] at he4
    subst he4
    simp only [out_of_order, decide_eq_false_iff_not] at ho
    unfold extent_valid at hv
    unfold u32_add at ho
    omega

/-! ## The claims -/

/-- C1. `map_id_down` returns `lower_first + (id - first)`, computed on `u32`,
of the first extent in index order with `first <= id <= first + count - 1`
(the bound computed on `u32`, as the source computes `last`), and `(u32) -1`
when no extent in use passes that test; `make_kuid` and `make_kgid` are
`map_id_down` on the uid and on the gid table of the namespace. -/
theorem map_id_down_first_match (ns : user_namespace) (map : uid_gid_map) (id : Nat) :
    ((∃ i, i < map.nr_extents ∧
        ((extent_at map i).first ≤ id ∧
          id ≤ u32_sub (u32_add (extent_at map i).first (extent_at map i).count) 1) ∧
        (∀ j, j < i → ¬ ((extent_at map j).first ≤ id ∧
          id ≤ u32_sub (u32_add (extent_at map j).first (extent_at map j).count) 1)) ∧
        map_id_down map id =
          u32_add (extent_at map i).lower_first (u32_sub id (extent_at map i).first)) ∨
      ((∀ j, j < map.nr_extents → ¬ ((extent_at map j).first ≤ id ∧
          id ≤ u32_sub (u32_add (extent_at map j).first (extent_at map j).count) 1)) ∧
        map_id_down map id = 4294967295)) ∧
    make_kuid ns id = map_id_down ns.uid_map id ∧
    make_kgid ns id = map_id_down ns.gid_map id := by
  refine ⟨?_, rfl, rfl⟩
  rcases map_id_down_cases map id with ⟨i, h1, h2, h3, h4⟩ | h
  · left
    exact ⟨i, h1, h2, h3, by rw [h4, u32_add_comm]⟩
  · right
    exact h

/-- C2. `map_id_up` returns `first + (id - lower_first)`, computed on `u32`,
of the first extent in index order with
`lower_first <= id <= lower_first + count - 1` (the bound computed on `u32`, as
the source computes `last`), and `(u32) -1` when no extent in use passes that
test; `from_kuid` and `from_kgid` are `map_id_up` on the uid and on the gid
table of the namespace. -/
theorem map_id_up_first_match (targ : user_namespace) (map : uid_gid_map) (id : Nat) :
    ((∃ i, i < map.nr_extents ∧
        ((extent_at map i).lower_first ≤ id ∧
          id ≤ u32_sub (u32_add (extent_at map i).lower_first (extent_at map i).count) 1) ∧
        (∀ j, j < i → ¬ ((extent_at map j).lower_first ≤ id ∧
          id ≤ u32_sub (u32_add (extent_at map j).lower_first (extent_at map j).count) 1)) ∧
        map_id_up map id =
          u32_add (extent_at map i).first (u32_sub id (extent_at map i).lower_first)) ∨
      ((∀ j, j < map.nr_extents → ¬ ((extent_at map j).lower_first ≤ id ∧
          id ≤ u32_sub (u32_add (extent_at map j).lower_first (extent_at map j).count) 1)) ∧
        map_id_up map id = 4294967295)) ∧
    from_kuid targ id = map_id_up targ.uid_map id ∧
    from_kgid targ id = map_id_up targ.gid_map id := by
  refine ⟨?_, rfl, rfl⟩
  rcases map_id_up_cases map id with ⟨i, h1, h2, h3, h4⟩ | h
  · left
    exact ⟨i, h1, h2, h3, by rw [h4, u32_add_comm]⟩
  · right
    exact h

/-- C3. Round trip: on a table that satisfies the Extent Table invariant, for
every extent in use and every id with `first <= id <= first + count - 1`,
`map_id_up (map_id_down id) = id`. -/
theorem map_id_round_trip (map : uid_gid_map) (hinv : extent_table_inv map) (i id : Nat)
    (hi : i < map.nr_extents) (h1 : (extent_at map i).first ≤ id)
    (h2 : id ≤ (extent_at map i).first + (extent_at map i).count - 1) :
    map_id_up map (map_id_down map id) = id := by
  have hb := hinv.1 i hi
  rw [map_id_down_of_mem map hinv i id hi h1 (by omega),
    map_id_up_of_mem map hinv i _ hi (by omega) (by omega)]
  omega

/-- Witness of C3: id `7` of the second extent of the table `0 100 5`,
`5 200 5`. -/
theorem map_id_round_trip_witness :
    extent_table_inv two_extent_table ∧
      map_id_up two_extent_table (map_id_down two_extent_table 7) = 7 :=
  ⟨by decide, map_id_round_trip two_extent_table (by decide) 1 7 (by decide) (by decide)
    (by decide)⟩

/-- C4. Atomic block translation: on a table that satisfies the Extent Table
invariant, for a block of `count >= 1` ids from `id` on that does not go past
`2 ^ 32 - 1`, `map_id_range_down` returns `lower_first + (id - first)` of the
extent that holds both `id` and `id + count - 1` when there is one, and
`(u32) -1` when there is none; there is none when the block starts in one
extent and ends in another. -/
theorem map_id_range_down_atomic (map : uid_gid_map) (hinv : extent_table_inv map)
    (id count : Nat) (hc : 1 ≤ count) (hw : id + count - 1 ≤ 4294967295) :
    ((∃ i, i < map.nr_extents ∧
        ((extent_at map i).first ≤ id ∧
          id ≤ (extent_at map i).first + (extent_at map i).count - 1 ∧
          (extent_at map i).first ≤ id + count - 1 ∧
          id + count - 1 ≤ (extent_at map i).first + (extent_at map i).count - 1) ∧
        map_id_range_down map id count =
          (extent_at map i).lower_first + (id - (extent_at map i).first)) ∨
      ((∀ i, i < map.nr_extents →
          ¬ ((extent_at map i).first ≤ id ∧
            id ≤ (extent_at map i).first + (extent_at map i).count - 1 ∧
            (extent_at map i).first ≤ id + count - 1 ∧
            id + count - 1 ≤ (extent_at map i).first + (extent_at map i).count - 1)) ∧
        map_id_range_down map id count = 4294967295)) ∧
    (∀ i j, i < map.nr_extents → j < map.nr_extents → i ≠ j →
      ((extent_at map i).first ≤ id ∧
        id ≤ (extent_at map i).first + (extent_at map i).count - 1) →
      ((extent_at map j).first ≤ id + count - 1 ∧
        id + count - 1 ≤ (extent_at map j).first + (extent_at map j).count - 1) →
      map_id_range_down map id count = 4294967295) := by
  constructor
  · rcases map_id_range_down_inv map hinv id count hc hw with ⟨k, hk, h1, h2, h3⟩ | ⟨h1, h2⟩
    · left
      have hbk := hinv.1 k hk
      exact ⟨k, hk, ⟨h1, by omega, by omega, by omega⟩, h3⟩
    · right
      refine ⟨?_, h2⟩
      intro i hi hcon
      have hb := hinv.1 i hi
      exact h1 i hi ⟨hcon.1, by omega⟩
  · intro i j hi hj hij hin1 hin2
    rcases map_id_range_down_inv map hinv id count hc hw with ⟨k, hk, h1, hk2, _⟩ | ⟨_, h2⟩
    · exfalso
      have hbk := hinv.1 k hk
      have hbi := hinv.1 i hi
      have hbj := hinv.1 j hj
      have e1 : k = i := upper_unique map hinv k i id hk hi h1 (by omega) hin1.1 (by omega)
      have e2 : k = j :=
        upper_unique map hinv k j (id + count - 1) hk hj (by omega) (by omega) hin2.1 (by omega)
      exact hij (e1.symm.trans e2)
    · exact h2

/-- Witness of C4: with the extents `0 100 5` and `5 200 5` the block of `4`
ids from `3` on starts in the first extent and ends in the second, and
`map_id_range_down` returns `(u32) -1`. -/
theorem map_id_range_down_atomic_witness :
    extent_table_inv two_extent_table ∧ map_id_range_down two_extent_table 3 4 = 4294967295 :=
  ⟨by decide,
    (map_id_range_down_atomic two_extent_table (by decide) 3 4 (by decide) (by decide)).2 0 1
      (by decide) (by decide) (by decide) (by decide) (by decide)⟩

/-- C5. Parent-chain composition: after a call of `map_write` that does not
return an error, made with a parent table that satisfies the Extent Table
invariant, for every parsed record `(first, lower, count)` and every id with
`first <= id <= first + count - 1` the single lookup `map_id_down` in the
installed table equals the lookup `map_id_down` of `lower + (id - first)` in
the parent table, and that value is not `(u32) -1`. -/
theorem map_write_composes {NS : Type} (ns_capable : NS → Nat → Bool) (parent_of : NS → NS)
    (page_ok copy_ok : Bool) (ns : NS) (buf : List Nat) (ppos : Int) (cap_setid : Nat)
    (map parent_map : uid_gid_map)
    (hpinv : extent_table_inv parent_map)
    (h : 0 ≤ (map_write ns_capable parent_of page_ok copy_ok ns buf ppos cap_setid map parent_map).ret) :
    ∃ parsed, parse_user_data buf = some parsed ∧
      ∀ i id, i < parsed.nr_extents → (extent_at parsed i).first ≤ id →
        id ≤ (extent_at parsed i).first + (extent_at parsed i).count - 1 →
        map_id_down (map_write ns_capable parent_of page_ok copy_ok ns buf ppos cap_setid map parent_map).map id =
          map_id_down parent_map
            ((extent_at parsed i).lower_first + (id - (extent_at parsed i).first)) ∧
        map_id_down (map_write ns_capable parent_of page_ok copy_ok ns buf ppos cap_setid map parent_map).map id ≠ 4294967295 := by
  obtain ⟨parsed, hp, hnr, hslots⟩ :=
    map_write_installed ns_capable parent_of page_ok copy_ok ns buf ppos cap_setid map
      parent_map h
  have hinst := map_write_installed_inv ns_capable parent_of page_ok copy_ok ns buf ppos
    cap_setid map parent_map hpinv h
  obtain ⟨_, _, _, hpar⟩ := parse_user_data_inv buf parsed hp
  refine ⟨parsed, hp, ?_⟩
  intro i id hi h1 h2
  obtain ⟨hs, hne⟩ := hslots i hi
  have hv := hpar.1 i hi
  obtain ⟨k, hk, k1, k2, k3⟩ := resolved_in_parent parent_map hpinv _ _ hv.1 hv.2.2 hne
  have hkv := hpinv.1 k hk
  have hdown := map_id_down_of_mem _ hinst i id (by rw [hnr]; exact hi)
    (by rw [hs]; exact h1) (by rw [hs]; simp only; omega)
  rw [hs] at hdown
  simp only at hdown
  have hpar2 := map_id_down_of_mem parent_map hpinv k
    ((extent_at parsed i).lower_first + (id - (extent_at parsed i).first)) hk (by omega)
    (by omega)
  rw [hdown, hpar2, k3]
  constructor <;> omega


/-- Witness of C5: the text `0 2 3\n10 5 5\n` is installed below the table
`0 100 5`, `5 200 5`; id `11` of the second record is looked up in one step as
the lower id `5 + (11 - 10)` is in the parent table. -/
theorem map_write_composes_witness :
    extent_table_inv two_extent_table ∧
    0 ≤ (map_write all_capable unit_parent true true () (bytes "0 2 3\n10 5 5\n") 0 7 empty_table
      two_extent_table).ret ∧
    map_id_down (map_write all_capable unit_parent true true () (bytes "0 2 3\n10 5 5\n") 0 7 empty_table
      two_extent_table).map 11 =
      map_id_down two_extent_table
        ((extent_at sample_parsed 1).lower_first + (11 - (extent_at sample_parsed 1).first)) ∧
    map_id_down (map_write all_capable unit_parent true true () (bytes "0 2 3\n10 5 5\n") 0 7 empty_table
      two_extent_table).map 11 ≠ 4294967295 := by
  obtain ⟨parsed, hp, hall⟩ := map_write_composes all_capable unit_parent true true ()
    (bytes "0 2 3\n10 5 5\n") 0 7 empty_table two_extent_table (by decide) (by decide)
  have hparsed : parse_user_data (bytes "0 2 3\n10 5 5\n") = some sample_parsed := by decide
  rw [hparsed] at hp
  have heq := Option.some.inj hp
  subst heq
  exact ⟨by decide, by decide, hall 1 11 (by decide) (by decide) (by decide)⟩

/-- C6. Installed tables keep the Extent Table invariant: when the parent
table satisfies it, the table published by a call of `map_write` that does not
return an error satisfies it for all pairs of extents, with `lower_first` the
value stored after translation through the parent. -/
theorem map_write_keeps_invariant {NS : Type} (ns_capable : NS → Nat → Bool) (parent_of : NS → NS)
    (page_ok copy_ok : Bool) (ns : NS) (buf : List Nat) (ppos : Int) (cap_setid : Nat)
    (map parent_map : uid_gid_map)
    (hpinv : extent_table_inv parent_map)
    (h : 0 ≤ (map_write ns_capable parent_of page_ok copy_ok ns buf ppos cap_setid map parent_map).ret) :
    extent_table_inv (map_write ns_capable parent_of page_ok copy_ok ns buf ppos cap_setid map parent_map).map :=
  map_write_installed_inv ns_capable parent_of page_ok copy_ok ns buf ppos cap_setid map
    parent_map hpinv h


/-- Witness of C6: the table installed from the text `0 2 3\n10 5 5\n` below
the table `0 100 5`, `5 200 5`. -/
theorem map_write_keeps_invariant_witness :
    extent_table_inv two_extent_table ∧
    0 ≤ (map_write all_capable unit_parent true true () (bytes "0 2 3\n10 5 5\n") 0 7 empty_table
      two_extent_table).ret ∧
    extent_table_inv (map_write all_capable unit_parent true true () (bytes "0 2 3\n10 5 5\n") 0 7 empty_table
      two_extent_table).map :=
  ⟨by decide, by decide,
    map_write_keeps_invariant all_capable unit_parent true true () (bytes "0 2 3\n10 5 5\n") 0 7
      empty_table two_extent_table (by decide) (by decide)⟩

/-- C7. Write-once: when the target table has `nr_extents != 0` on entry,
`map_write` returns `-EPERM` and leaves the table (and the file position)
unchanged, whatever the text, the offset and the capabilities are. -/
theorem map_write_once {NS : Type} (ns_capable : NS → Nat → Bool) (parent_of : NS → NS)
    (page_ok copy_ok : Bool) (ns : NS) (buf : List Nat) (ppos : Int) (cap_setid : Nat)
    (map parent_map : uid_gid_map)
    (h : map.nr_extents ≠ 0) :
    map_write ns_capable parent_of page_ok copy_ok ns buf ppos cap_setid map parent_map = ⟨-EPERM, map, ppos⟩ := by
  unfold map_write
  simp only [h, ne_eq, not_false_eq_true, if_true]


/-- Witness of C7: a valid text written to a table that has two extents. -/
theorem map_write_once_witness :
    two_extent_table.nr_extents ≠ 0 ∧
    map_write all_capable unit_parent true true () (bytes "10 300 5\n") 0 7 two_extent_table
      two_extent_table = ⟨-EPERM, two_extent_table, 0⟩ :=
  ⟨by decide,
    map_write_once all_capable unit_parent true true () (bytes "10 300 5\n") 0 7
      two_extent_table two_extent_table (by decide)⟩

/-- C8. All-or-nothing install: a call of `map_write` that returns an error
(a negative value) leaves the target table as it was. -/
theorem map_write_all_or_nothing {NS : Type} (ns_capable : NS → Nat → Bool) (parent_of : NS → NS)
    (page_ok copy_ok : Bool) (ns : NS) (buf : List Nat) (ppos : Int) (cap_setid : Nat)
    (map parent_map : uid_gid_map)
    (h : (map_write ns_capable parent_of page_ok copy_ok ns buf ppos cap_setid map parent_map).ret < 0) :
    (map_write ns_capable parent_of page_ok copy_ok ns buf ppos cap_setid map parent_map).map = map := by
  rcases map_write_cases ns_capable parent_of page_ok copy_ok ns buf ppos cap_setid map
    parent_map with h1 | h1
  · exact h1.1
  · omega

/-- Witness of C8: the text `0 0 10\n5 20 10`, whose second record overlaps
the first, leaves the table as it was. -/
theorem map_write_all_or_nothing_witness :
    (map_write all_capable unit_parent true true () (bytes "0 0 10\n5 20 10") 0 7 empty_table
      two_extent_table).ret < 0 ∧
    (map_write all_capable unit_parent true true () (bytes "0 0 10\n5 20 10") 0 7 empty_table
      two_extent_table).map = empty_table :=
  ⟨by decide,
    map_write_all_or_nothing all_capable unit_parent true true () (bytes "0 0 10\n5 20 10") 0 7
      empty_table two_extent_table (by decide)⟩

/-- C9. Ordering and overlap enforcement: take a batch that passes the checks
made before parsing (empty table, capability, page obtained, offset `0`, size
below one page, data copied) in which a line that reads as the record `B`
comes right after a line that reads as the record `A`, the line of `A`
being at the start of the text or after a newline and the line of `B` being
followed by a newline or by the end of the string. If
`A.first + A.count > B.first` or `A.lower_first + A.count > B.lower_first`,
then `map_write` returns `-EINVAL` and the table stays as it was, empty. -/
theorem map_write_rejects_disorder {NS : Type} (ns_capable : NS → Nat → Bool)
    (parent_of : NS → NS) (ns : NS) (cap_setid : Nat) (map parent_map : uid_gid_map)
    (pre lineA lineB post : List Nat) (A B : uid_gid_extent)
    (hmap : map.nr_extents = 0) (hcap : ns_capable ns cap_setid = true)
    (hsize : (pre ++ (lineA ++ 10 :: (lineB ++ post))).length < PAGE_SIZE)
    (hpre : pre = [] ∨ pre.getLast? = some 10) (hpre0 : ∀ c, c ∈ pre → c ≠ 0)
    (hA : ∀ c, c ∈ lineA → c ≠ 0 ∧ c ≠ 10) (hB : ∀ c, c ∈ lineB → c ≠ 0 ∧ c ≠ 10)
    (hpost : deref post = 0 ∨ deref post = 10)
    (hrecA : parse_line lineA = some A) (hrecB : parse_line lineB = some B)
    (hbad : A.first + A.count > B.first ∨ A.lower_first + A.count > B.lower_first) :
    map_write ns_capable parent_of true true ns (pre ++ (lineA ++ 10 :: (lineB ++ post))) 0
      cap_setid map parent_map = ⟨-EINVAL, map, 0⟩ :=
  map_write_parse_none ns_capable parent_of true true ns _ 0 cap_setid map parent_map hmap hcap
    rfl rfl hsize rfl
    (parse_user_data_disorder pre lineA lineB post A B hpre hpre0 hA hB hpost hrecA hrecB hbad)

/-- Witness of C9: the texts `0 0 10\n5 20 10` and `10 0 5\n0 10 5` written
to an empty table are rejected with `-EINVAL`, and the table stays empty. -/
theorem map_write_rejects_disorder_witness :
    (parse_line (bytes "0 0 10") = some ⟨0, 0, 10⟩ ∧
      parse_line (bytes "5 20 10") = some ⟨5, 20, 10⟩ ∧
      map_write all_capable unit_parent true true () (bytes "0 0 10\n5 20 10") 0 7 empty_table
        two_extent_table = ⟨-EINVAL, empty_table, 0⟩) ∧
    (parse_line (bytes "10 0 5") = some ⟨10, 0, 5⟩ ∧
      parse_line (bytes "0 10 5") = some ⟨0, 10, 5⟩ ∧
      map_write all_capable unit_parent true true () (bytes "10 0 5\n0 10 5") 0 7 empty_table
        two_extent_table = ⟨-EINVAL, empty_table, 0⟩) :=
  ⟨⟨by decide, by decide,
      map_write_rejects_disorder all_capable unit_parent () 7 empty_table two_extent_table []
        (bytes "0 0 10") (bytes "5 20 10") [] ⟨0, 0, 10⟩ ⟨5, 20, 10⟩ rfl rfl (by decide)
        (Or.inl rfl) (by decide) (by decide) (by decide) (by decide) (by decide) (by decide)
        (by decide)⟩,
    ⟨by decide, by decide,
      map_write_rejects_disorder all_capable unit_parent () 7 empty_table two_extent_table []
        (bytes "10 0 5") (bytes "0 10 5") [] ⟨10, 0, 5⟩ ⟨0, 10, 5⟩ rfl rfl (by decide)
        (Or.inl rfl) (by decide) (by decide) (by decide) (by decide) (by decide) (by decide)
        (by decide)⟩⟩

/-- What `map_write` does once the checks made before parsing have passed and
the parsing loop has ended with the table `parsed`. -/
theorem map_write_parsed {NS : Type} (ns_capable : NS → Nat → Bool) (parent_of : NS → NS)
    (page_ok copy_ok : Bool) (ns : NS) (buf : List Nat) (ppos : Int) (cap_setid : Nat)
    (map parent_map parsed : uid_gid_map)
    (hmap : map.nr_extents = 0) (hcap : ns_capable ns cap_setid = true)
    (hpage : page_ok = true) (hpos : ppos = 0) (hsize : buf.length < PAGE_SIZE)
    (hcopy : copy_ok = true) (hparse : parse_user_data buf = some parsed) :
    map_write ns_capable parent_of page_ok copy_ok ns buf ppos cap_setid map parent_map =
      if ns_capable (parent_of ns) cap_setid = true then
        match map_lower_ids parent_map parsed.nr_extents 0 parsed with
        | none => ⟨-EPERM, map, ppos⟩
        | some mapped =>
          ⟨buf.length,
            ⟨mapped.nr_extents,
              mapped.extent.take mapped.nr_extents ++ map.extent.drop mapped.nr_extents⟩,
            buf.length⟩
      else ⟨-EPERM, map, ppos⟩ := by
  have hs : ¬ buf.length ≥ PAGE_SIZE := by omega
  obtain ⟨_, hnr, _, _⟩ := parse_user_data_inv buf parsed hparse
  have hnr0 : ¬ parsed.nr_extents = 0 := by omega
  unfold map_write new_idmap_permitted
  simp only [hmap, hcap, hpage, hpos, hs, hcopy, hparse, hnr0]
  by_cases hp : ns_capable (parent_of ns) cap_setid = true
  · simp [hp]
  · simp [hp]

/-- The loop of lines 525-540 ends with `goto out` when an extent in use has
no value in the parent table. -/
theorem map_lower_ids_none (parent_map new_map : uid_gid_map) (i : Nat)
    (hlen : new_map.nr_extents ≤ new_map.extent.length) (hi : i < new_map.nr_extents)
    (hfail : map_id_range_down parent_map (extent_at new_map i).lower_first
      (extent_at new_map i).count = U32_MAX) :
    map_lower_ids parent_map new_map.nr_extents 0 new_map = none := by
  cases h : map_lower_ids parent_map new_map.nr_extents 0 new_map with
  | none => rfl
  | some mapped =>
    obtain ⟨_, _, _, h4⟩ :=
      map_lower_ids_spec parent_map new_map.nr_extents 0 new_map mapped (by omega) hlen h
    exact absurd hfail (h4 i (Nat.zero_le i) hi).2

/-- C11, as amended. When the batch parses and validates and the caller passes
both capability checks, but for some record `map_id_range_down` on the parent
table returns `(u32) -1` (as it does when the parent table satisfies the
Extent Table invariant and no extent of it holds the whole block
`lower_first .. lower_first + count - 1`), `map_write` fails with `-EPERM`,
the value it also returns for authorization failures, and the table stays as
it was, empty. -/
theorem map_write_unresolved_parent {NS : Type} (ns_capable : NS → Nat → Bool)
    (parent_of : NS → NS) (page_ok copy_ok : Bool) (ns : NS) (buf : List Nat) (ppos : Int)
    (cap_setid : Nat) (map parent_map parsed : uid_gid_map) (i : Nat)
    (hmap : map.nr_extents = 0) (hcap : ns_capable ns cap_setid = true)
    (hpage : page_ok = true) (hpos : ppos = 0) (hsize : buf.length < PAGE_SIZE)
    (hcopy : copy_ok = true) (hparse : parse_user_data buf = some parsed)
    (hpcap : ns_capable (parent_of ns) cap_setid = true) (hi : i < parsed.nr_extents)
    (hfail : map_id_range_down parent_map (extent_at parsed i).lower_first
        (extent_at parsed i).count = 4294967295 ∨
      (extent_table_inv parent_map ∧
        ∀ k, k < parent_map.nr_extents →
          ¬ ((extent_at parent_map k).first ≤ (extent_at parsed i).lower_first ∧
            (extent_at parsed i).lower_first + (extent_at parsed i).count - 1 ≤
              (extent_at parent_map k).first + (extent_at parent_map k).count - 1))) :
    map_write ns_capable parent_of page_ok copy_ok ns buf ppos cap_setid map parent_map =
      ⟨-EPERM, map, ppos⟩ := by
  obtain ⟨hlen, _, hle, hpar⟩ := parse_user_data_inv buf parsed hparse
  have hv := hpar.1 i hi
  have hres : map_id_range_down parent_map (extent_at parsed i).lower_first
      (extent_at parsed i).count = U32_MAX := by
    rcases hfail with h | ⟨hpinv, hnone⟩
    · exact h
    · rcases map_id_range_down_inv parent_map hpinv (extent_at parsed i).lower_first
        (extent_at parsed i).count hv.1 (by omega) with
        ⟨k, hk, k1, k2, _⟩ | ⟨_, h⟩
      · exfalso
        have hkv := hpinv.1 k hk
        exact hnone k hk ⟨k1, by omega⟩
      · exact h
  rw [map_write_parsed ns_capable parent_of page_ok copy_ok ns buf ppos cap_setid map parent_map
    parsed hmap hcap hpage hpos hsize hcopy hparse,
    map_lower_ids_none parent_map parsed i (by omega) hi hres]
  simp [hpcap]

/-- Witness of C11 as amended: the text `0 1000 10` written below the table
`0 100 5`, `5 200 5`, which maps none of the ids `1000 .. 1009`. -/
theorem map_write_unresolved_parent_witness :
    parse_user_data (bytes "0 1000 10") = some unresolved_parsed ∧
    map_id_range_down two_extent_table (extent_at unresolved_parsed 0).lower_first
      (extent_at unresolved_parsed 0).count = 4294967295 ∧
    map_write all_capable unit_parent true true () (bytes "0 1000 10") 0 7 empty_table
      two_extent_table = ⟨-EPERM, empty_table, 0⟩ :=
  ⟨by decide, by decide,
    map_write_unresolved_parent all_capable unit_parent true true () (bytes "0 1000 10") 0 7
      empty_table two_extent_table unresolved_parsed 0 rfl rfl rfl rfl (by decide) rfl
      (by decide) rfl (by decide) (Or.inl (by decide))⟩

/-- Counterexample to C11 as stated: the text `0 1000 10` parses and
validates, the caller holds every capability, the parent table `0 100 5`,
`5 200 5` maps none of the ids `1000 .. 1009`, and `map_write` returns
`-EPERM`, not `-EINVAL`. -/
theorem map_write_unresolved_parent_counterexample :
    parse_user_data (bytes "0 1000 10") = some unresolved_parsed ∧
    map_id_range_down two_extent_table 1000 10 = 4294967295 ∧
    (map_write all_capable unit_parent true true () (bytes "0 1000 10") 0 7 empty_table
      two_extent_table).ret = -EPERM ∧
    (map_write all_capable unit_parent true true () (bytes "0 1000 10") 0 7 empty_table
      two_extent_table).ret ≠ -EINVAL := by
  decide

/-- C12. Parent-capability gate: a batch that parses and validates, written to
an empty table by a caller that passes the checks made before parsing and
holds the capability over the namespace but not over its parent, makes
`map_write` return `-EPERM` and leave the table as it was, empty; and, whatever
the caller holds, `new_idmap_permitted` is `ns_capable (ns->parent, cap_setid)`
for every proposed table `new_map`. -/
theorem map_write_parent_capability {NS : Type} (ns_capable : NS → Nat → Bool)
    (parent_of : NS → NS) (page_ok copy_ok : Bool) (ns : NS) (buf : List Nat) (ppos : Int)
    (cap_setid : Nat) (map parent_map parsed new_map : uid_gid_map) :
    (map.nr_extents = 0 → ns_capable ns cap_setid = true → page_ok = true → ppos = 0 →
      buf.length < PAGE_SIZE → copy_ok = true → parse_user_data buf = some parsed →
      ns_capable (parent_of ns) cap_setid = false →
      map_write ns_capable parent_of page_ok copy_ok ns buf ppos cap_setid map parent_map =
        ⟨-EPERM, map, ppos⟩) ∧
    new_idmap_permitted ns_capable parent_of ns cap_setid new_map =
      ns_capable (parent_of ns) cap_setid := by
  constructor
  · intro hmap hcap hpage hpos hsize hcopy hparse hpcap
    rw [map_write_parsed ns_capable parent_of page_ok copy_ok ns buf ppos cap_setid map
      parent_map parsed hmap hcap hpage hpos hsize hcopy hparse]
    simp [hpcap]
  · unfold new_idmap_permitted
    cases ns_capable (parent_of ns) cap_setid <;> rfl

/-- Witness of C12: the text `0 2 3\n10 5 5\n` written by a caller that holds
the capability over the namespace at address `1` only, whose parent is at
address `0`, is refused with `-EPERM`; `new_idmap_permitted` is `false` for
that caller and `true` for a caller that holds every capability. -/
theorem map_write_parent_capability_witness :
    child_only_capable 1 7 = true ∧ child_only_capable (parent_at_zero 1) 7 = false ∧
    parse_user_data (bytes "0 2 3\n10 5 5\n") = some sample_parsed ∧
    map_write child_only_capable parent_at_zero true true 1 (bytes "0 2 3\n10 5 5\n") 0 7
      empty_table two_extent_table = ⟨-EPERM, empty_table, 0⟩ ∧
    new_idmap_permitted child_only_capable parent_at_zero 1 7 sample_parsed =
      child_only_capable (parent_at_zero 1) 7 ∧
    new_idmap_permitted all_capable_at parent_at_zero 1 7 sample_parsed = true ∧
    new_idmap_permitted all_capable_at parent_at_zero 1 7 sample_parsed =
      all_capable_at (parent_at_zero 1) 7 :=
  ⟨by decide, by decide, by decide,
    (map_write_parent_capability child_only_capable parent_at_zero true true 1
      (bytes "0 2 3\n10 5 5\n") 0 7 empty_table two_extent_table sample_parsed
      sample_parsed).1 rfl (by decide) rfl rfl (by decide) rfl (by decide) (by decide),
    (map_write_parent_capability child_only_capable parent_at_zero true true 1
      (bytes "0 2 3\n10 5 5\n") 0 7 empty_table two_extent_table sample_parsed
      sample_parsed).2,
    by decide,
    (map_write_parent_capability all_capable_at parent_at_zero true true 1
      (bytes "0 2 3\n10 5 5\n") 0 7 empty_table two_extent_table sample_parsed
      sample_parsed).2⟩

/-- C18. Munged translation: `from_kuid_munged` returns what `from_kuid`
returns when that is not `(uid_t) -1`, and `overflowuid` when it is;
`from_kgid_munged` does the same with `from_kgid` and `overflowgid`. -/
theorem from_kuid_munged_spec (overflowuid overflowgid : Nat) (targ : user_namespace)
    (id : Nat) :
    (from_kuid targ id ≠ 4294967295 →
      from_kuid_munged overflowuid targ id = from_kuid targ id) ∧
    (from_kuid targ id = 4294967295 → from_kuid_munged overflowuid targ id = overflowuid) ∧
    (from_kgid targ id ≠ 4294967295 →
      from_kgid_munged overflowgid targ id = from_kgid targ id) ∧
    (from_kgid targ id = 4294967295 → from_kgid_munged overflowgid targ id = overflowgid) := by
  refine ⟨?_, ?_, ?_, ?_⟩
  · intro h
    simp only [from_kuid_munged, U32_MAX, h, if_false]
  · intro h
    simp only [from_kuid_munged, U32_MAX, h, if_true]
  · intro h
    simp only [from_kgid_munged, U32_MAX, h, if_false]
  · intro h
    simp only [from_kgid_munged, U32_MAX, h, if_true]

/-- Witness of C18: in a namespace with the extents `0 100 5` and `5 200 5`
the kernel id `202` is the id `7` in both forms, and the kernel id `5000`, which
has no mapping, is `(uid_t) -1` in the strict form and the overflow id `65534`
in the munged form. -/
theorem from_kuid_munged_spec_witness :
    (from_kuid two_extent_ns 202 ≠ 4294967295 ∧
      from_kuid_munged 65534 two_extent_ns 202 = from_kuid two_extent_ns 202) ∧
    (from_kuid two_extent_ns 5000 = 4294967295 ∧
      from_kuid_munged 65534 two_extent_ns 5000 = 65534) ∧
    (from_kgid two_extent_ns 202 ≠ 4294967295 ∧
      from_kgid_munged 65534 two_extent_ns 202 = from_kgid two_extent_ns 202) ∧
    (from_kgid two_extent_ns 5000 = 4294967295 ∧
      from_kgid_munged 65534 two_extent_ns 5000 = 65534) :=
  ⟨⟨by decide, (from_kuid_munged_spec 65534 65534 two_extent_ns 202).1 (by decide)⟩,
    ⟨by decide, (from_kuid_munged_spec 65534 65534 two_extent_ns 5000).2.1 (by decide)⟩,
    ⟨by decide, (from_kuid_munged_spec 65534 65534 two_extent_ns 202).2.2.1 (by decide)⟩,
    ⟨by decide, (from_kuid_munged_spec 65534 65534 two_extent_ns 5000).2.2.2 (by decide)⟩⟩

/-! ## Writes through `uid_map` and `gid_map`, and creation -/

/-- Through a table with no extent in use every id translates to
`(u32) -1`. -/
theorem empty_map_translates (map : uid_gid_map) (h : map.nr_extents = 0) (id count : Nat) :
    map_id_down map id = U32_MAX ∧ map_id_up map id = U32_MAX ∧
      map_id_range_down map id count = U32_MAX := by
  simp [map_id_down, map_id_up, map_id_range_down, h, map_id_down_loop, map_id_up_loop,
    map_id_range_down_loop]

/-- C17. The tables of the root namespace cannot be written: on a namespace
whose parent is `NULL`, `proc_uid_map_write` and `proc_gid_map_write` return
`-EPERM` and change nothing in memory; on a namespace with a parent they
return what `map_write` returns with `CAP_SETUID` on the uid tables of the
namespace and of its parent, and with `CAP_SETGID` on the gid tables, store
the table that `map_write` leaves in that field of the namespace, and change
no other field and no other namespace, so a uid install never changes
`gid_map` and a gid install never changes `uid_map`. -/
theorem proc_map_write_spec (ns_capable : Nat → Nat → Bool) (page_ok copy_ok : Bool)
    (heap : ns_heap) (ns : Nat) (buf : List Nat) (ppos : Int) (node : user_namespace)
    (hns : heap ns = some node) :
    (node.parent = none →
      (∃ r, proc_uid_map_write ns_capable page_ok copy_ok heap ns buf ppos = some r ∧
        r.ret = -EPERM ∧ r.heap = heap ∧ r.ppos = ppos) ∧
      (∃ r, proc_gid_map_write ns_capable page_ok copy_ok heap ns buf ppos = some r ∧
        r.ret = -EPERM ∧ r.heap = heap ∧ r.ppos = ppos)) ∧
    (∀ parent parent_node, node.parent = some parent → heap parent = some parent_node →
      (∃ r, proc_uid_map_write ns_capable page_ok copy_ok heap ns buf ppos = some r ∧
        r.ret = (map_write ns_capable (fun _ => parent) page_ok copy_ok ns buf ppos CAP_SETUID
          node.uid_map parent_node.uid_map).ret ∧
        r.ppos = (map_write ns_capable (fun _ => parent) page_ok copy_ok ns buf ppos CAP_SETUID
          node.uid_map parent_node.uid_map).ppos ∧
        r.heap ns = some { node with
          uid_map := (map_write ns_capable (fun _ => parent) page_ok copy_ok ns buf ppos
            CAP_SETUID node.uid_map parent_node.uid_map).map } ∧
        (∃ after, r.heap ns = some after ∧ after.gid_map = node.gid_map) ∧
        ∀ a, a ≠ ns → r.heap a = heap a) ∧
      (∃ r, proc_gid_map_write ns_capable page_ok copy_ok heap ns buf ppos = some r ∧
        r.ret = (map_write ns_capable (fun _ => parent) page_ok copy_ok ns buf ppos CAP_SETGID
          node.gid_map parent_node.gid_map).ret ∧
        r.ppos = (map_write ns_capable (fun _ => parent) page_ok copy_ok ns buf ppos CAP_SETGID
          node.gid_map parent_node.gid_map).ppos ∧
        r.heap ns = some { node with
          gid_map := (map_write ns_capable (fun _ => parent) page_ok copy_ok ns buf ppos
            CAP_SETGID node.gid_map parent_node.gid_map).map } ∧
        (∃ after, r.heap ns = some after ∧ after.uid_map = node.uid_map) ∧
        ∀ a, a ≠ ns → r.heap a = heap a)) := by
  constructor
  · intro hpar
    constructor
    · refine ⟨⟨-EPERM, heap, ppos⟩, ?_, rfl, rfl, rfl⟩
      simp only [proc_uid_map_write, hns, hpar]
    · refine ⟨⟨-EPERM, heap, ppos⟩, ?_, rfl, rfl, rfl⟩
      simp only [proc_gid_map_write, hns, hpar]
  · intro parent parent_node hpar hpn
    have hu : proc_uid_map_write ns_capable page_ok copy_ok heap ns buf ppos =
        some ⟨(map_write ns_capable (fun _ => parent) page_ok copy_ok ns buf ppos CAP_SETUID
            node.uid_map parent_node.uid_map).ret,
          fun a => if a = ns then some { node with
            uid_map := (map_write ns_capable (fun _ => parent) page_ok copy_ok ns buf ppos
              CAP_SETUID node.uid_map parent_node.uid_map).map } else heap a,
          (map_write ns_capable (fun _ => parent) page_ok copy_ok ns buf ppos CAP_SETUID
            node.uid_map parent_node.uid_map).ppos⟩ := by
      simp only [proc_uid_map_write, hns, hpar, hpn]
    have hg : proc_gid_map_write ns_capable page_ok copy_ok heap ns buf ppos =
        some ⟨(map_write ns_capable (fun _ => parent) page_ok copy_ok ns buf ppos CAP_SETGID
            node.gid_map parent_node.gid_map).ret,
          fun a => if a = ns then some { node with
            gid_map := (map_write ns_capable (fun _ => parent) page_ok copy_ok ns buf ppos
              CAP_SETGID node.gid_map parent_node.gid_map).map } else heap a,
          (map_write ns_capable (fun _ => parent) page_ok copy_ok ns buf ppos CAP_SETGID
            node.gid_map parent_node.gid_map).ppos⟩ := by
      simp only [proc_gid_map_write, hns, hpar, hpn]
    constructor
    · have hslot : (fun a => if a = ns then some { node with
            uid_map := (map_write ns_capable (fun _ => parent) page_ok copy_ok ns buf ppos
              CAP_SETUID node.uid_map parent_node.uid_map).map } else heap a) ns =
          some { node with
            uid_map := (map_write ns_capable (fun _ => parent) page_ok copy_ok ns buf ppos
              CAP_SETUID node.uid_map parent_node.uid_map).map } := by
        simp only [if_true]
      refine ⟨_, hu, rfl, rfl, hslot, ⟨_, hslot, rfl⟩, ?_⟩
      intro a ha
      simp only [ha, if_false]
    · have hslot : (fun a => if a = ns then some { node with
            gid_map := (map_write ns_capable (fun _ => parent) page_ok copy_ok ns buf ppos
              CAP_SETGID node.gid_map parent_node.gid_map).map } else heap a) ns =
          some { node with
            gid_map := (map_write ns_capable (fun _ => parent) page_ok copy_ok ns buf ppos
              CAP_SETGID node.gid_map parent_node.gid_map).map } := by
        simp only [if_true]
      refine ⟨_, hg, rfl, rfl, hslot, ⟨_, hslot, rfl⟩, ?_⟩
      intro a ha
      simp only [ha, if_false]

/-- Witness of C17: the text `0 2 3\n` written to the uid table of the root
at address `0` is refused with `-EPERM`; written to the uid table of its child
at address `1` it is installed, and the gid table of the child stays as it
was. -/
theorem proc_map_write_spec_witness :
    (sample_heap 0 = some two_extent_ns ∧ two_extent_ns.parent = none ∧
      ∃ r, proc_uid_map_write all_capable_at true true sample_heap 0 (bytes "0 2 3\n") 0 =
        some r ∧ r.ret = -EPERM ∧ r.heap = sample_heap ∧ r.ppos = 0) ∧
    (sample_heap 1 = some fresh_child_ns ∧ fresh_child_ns.parent = some 0 ∧
      ∃ r, proc_uid_map_write all_capable_at true true sample_heap 1 (bytes "0 2 3\n") 0 =
        some r ∧
        r.ret = (map_write all_capable_at (fun _ => 0) true true 1 (bytes "0 2 3\n") 0
          CAP_SETUID fresh_child_ns.uid_map two_extent_ns.uid_map).ret ∧
        ∃ after, r.heap 1 = some after ∧ after.gid_map = fresh_child_ns.gid_map) :=
  ⟨⟨rfl, rfl,
      ((proc_map_write_spec all_capable_at true true sample_heap 0 (bytes "0 2 3\n") 0
        two_extent_ns rfl).1 rfl).1⟩,
    ⟨rfl, rfl, by
      obtain ⟨r, h1, h2, _, _, h5, _⟩ :=
        ((proc_map_write_spec all_capable_at true true sample_heap 1 (bytes "0 2 3\n") 0
          fresh_child_ns rfl).2 0 two_extent_ns rfl rfl).1
      exact ⟨r, h1, h2, h5⟩⟩⟩

/-- C19. Namespace creation requires a visible creator: `create_user_ns`
returns `-EPERM`, leaves memory as it was (no node is allocated) and leaves the
credentials unchanged when the creator's euid has no mapping in the uid table
of the parent (`map_id_up` gives `(u32) -1`) or the creator's egid has none in
the gid table of the parent; when both have a mapping and the allocation
succeeds it returns `0`. -/
theorem create_user_ns_visible_creator (alloc : Option Nat) (heap : ns_heap) (new : cred)
    (parent_node : user_namespace) (hparent : heap new.user_ns = some parent_node) :
    ((map_id_up parent_node.uid_map new.euid = 4294967295 ∨
        map_id_up parent_node.gid_map new.egid = 4294967295) →
      ∃ r, create_user_ns alloc heap new = some r ∧ r.ret = -EPERM ∧ r.heap = heap ∧
        r.new = new) ∧
    (map_id_up parent_node.uid_map new.euid ≠ 4294967295 →
      map_id_up parent_node.gid_map new.egid ≠ 4294967295 →
      ∀ ns, alloc = some ns → ∃ r, create_user_ns alloc heap new = some r ∧ r.ret = 0) := by
  constructor
  · intro h
    refine ⟨⟨-EPERM, heap, new⟩, ?_, rfl, rfl, rfl⟩
    simp only [create_user_ns, hparent, kuid_has_mapping, kgid_has_mapping, from_kuid,
      from_kgid, U32_MAX]
    rcases h with h | h
    · simp [h]
    · simp [h]
  · intro h1 h2 ns hns
    refine ⟨⟨0, fun a => if a = ns then some { zeroed_user_ns with
          kref := 1, parent := some new.user_ns, owner := new.euid, group := new.egid }
        else heap a, { new with request_key_auth := none, user_ns := ns }⟩, ?_, rfl⟩
    simp only [create_user_ns, hparent, kuid_has_mapping, kgid_has_mapping, from_kuid,
      from_kgid, U32_MAX, hns]
    simp [h1, h2]

/-- Witness of C19: with the root of `sample_heap`, whose tables map the
kernel ids `100 .. 104` and `200 .. 204`, a creator with euid `5000` is
refused and a creator with euid and egid `202` is accepted. -/
theorem create_user_ns_visible_creator_witness :
    (sample_heap unmapped_cred.user_ns = some two_extent_ns ∧
      map_id_up two_extent_ns.uid_map unmapped_cred.euid = 4294967295 ∧
      ∃ r, create_user_ns (some 2) sample_heap unmapped_cred = some r ∧ r.ret = -EPERM ∧
        r.heap = sample_heap ∧ r.new = unmapped_cred) ∧
    (sample_heap mapped_cred.user_ns = some two_extent_ns ∧
      map_id_up two_extent_ns.uid_map mapped_cred.euid ≠ 4294967295 ∧
      map_id_up two_extent_ns.gid_map mapped_cred.egid ≠ 4294967295 ∧
      ∃ r, create_user_ns (some 2) sample_heap mapped_cred = some r ∧ r.ret = 0) :=
  ⟨⟨rfl, by decide,
      (create_user_ns_visible_creator (some 2) sample_heap unmapped_cred two_extent_ns rfl).1
        (Or.inl (by decide))⟩,
    ⟨rfl, by decide, by decide,
      (create_user_ns_visible_creator (some 2) sample_heap mapped_cred two_extent_ns rfl).2
        (by decide) (by decide) 2 rfl⟩⟩

/-- C20. Namespace creation postcondition: when `create_user_ns` returns `0`,
the node at the address that the allocation returned has reference count `1`,
its uid and gid tables have `nr_extents = 0` (so every id translates to
`(u32) -1` through them), its parent is the namespace that the credentials
referred to before the call, its owner and group are the euid and egid of the
credentials, and the credentials now refer to the new node. -/
theorem create_user_ns_postcondition (alloc : Option Nat) (heap : ns_heap) (new : cred)
    (r : create_result) (hcall : create_user_ns alloc heap new = some r) (hret : r.ret = 0) :
    ∃ ns node, alloc = some ns ∧ r.heap ns = some node ∧ r.new.user_ns = ns ∧
      node.kref = 1 ∧
      node.uid_map.nr_extents = 0 ∧ node.gid_map.nr_extents = 0 ∧
      (∀ id, map_id_down node.uid_map id = 4294967295 ∧
        map_id_up node.uid_map id = 4294967295 ∧
        map_id_down node.gid_map id = 4294967295 ∧
        map_id_up node.gid_map id = 4294967295) ∧
      node.parent = some new.user_ns ∧ node.owner = new.euid ∧ node.group = new.egid := by
  unfold create_user_ns at hcall
  simp only at hcall
  split at hcall
  · simp at hcall
  · split at hcall
    · simp only [Option.some.injEq] at hcall
      subst hcall
      simp [EPERM] at hret
    · split at hcall
      · simp only [Option.some.injEq] at hcall
        subst hcall
        simp [ENOMEM] at hret
      · rename_i ns
        simp only [Option.some.injEq] at hcall
        subst hcall
        refine ⟨ns, { zeroed_user_ns with
            kref := 1, parent := some new.user_ns, owner := new.euid, group := new.egid },
          rfl, by simp only [if_true], rfl, rfl, rfl, rfl, ?_, rfl, rfl, rfl⟩
        intro id
        exact ⟨(empty_map_translates _ rfl id 0).1, (empty_map_translates _ rfl id 0).2.1,
          (empty_map_translates _ rfl id 0).1, (empty_map_translates _ rfl id 0).2.1⟩

/-- Witness of C20: the namespace created at address `2` for the credentials
`mapped_cred` of `sample_heap`. -/
theorem create_user_ns_postcondition_witness :
    create_user_ns (some 2) sample_heap mapped_cred = some created_sample ∧
    created_sample.ret = 0 ∧
    ∃ ns node, some 2 = some ns ∧ created_sample.heap ns = some node ∧
      created_sample.new.user_ns = ns ∧ node.kref = 1 ∧
      node.uid_map.nr_extents = 0 ∧ node.gid_map.nr_extents = 0 ∧
      (∀ id, map_id_down node.uid_map id = 4294967295 ∧
        map_id_up node.uid_map id = 4294967295 ∧
        map_id_down node.gid_map id = 4294967295 ∧
        map_id_up node.gid_map id = 4294967295) ∧
      node.parent = some mapped_cred.user_ns ∧ node.owner = mapped_cred.euid ∧
      node.group = mapped_cred.egid :=
  ⟨rfl, rfl,
    create_user_ns_postcondition (some 2) sample_heap mapped_cred created_sample rfl rfl⟩

/-! ## Texts made of lines -/

/-- More fuel does not change what the parsing loop ends with. -/
theorem parse_loop_mono :
    ∀ (fuel : Nat) (pos : List Nat) (new_map : uid_gid_map) (last : Option uid_gid_extent)
      (x : Option uid_gid_map) (more : Nat),
      parse_loop fuel pos new_map last = some x →
      parse_loop (fuel + more) pos new_map last = some x := by
  intro fuel
  induction fuel with
  | zero =>
    intro pos new_map last x more h
    simp [parse_loop] at h
  | succ n ih =>
    intro pos new_map last x more h
    have hfuel : n + 1 + more = (n + more) + 1 := by omega
    rw [hfuel]
    rw [parse_loop] at h ⊢
    cases hit : parse_iteration pos new_map last with
    | none =>
      rw [hit] at h
      exact h
    | some v =>
      obtain ⟨counted, e, next⟩ := v
      rw [hit] at h
      cases next with
      | none => exact h
      | some nx => exact ih nx counted (some e) x more h

/-- The last line of a text: `strchr` finds no newline with text after it. -/
theorem find_end_of_line_end (line post : List Nat)
    (h : ∀ c, c ∈ line → c ≠ 0 ∧ c ≠ 10) (hpost : is_end post) :
    find_end_of_line (line ++ post) = (line, none) := by
  induction line with
  | nil =>
    cases post with
    | nil => simp [find_end_of_line]
    | cons d ds =>
      simp only [is_end, deref, List.headD_cons, List.tail_cons] at hpost
      rcases hpost with h0 | ⟨h10, ht⟩
      · subst h0
        simp [find_end_of_line]
      · subst h10
        have ht2 : deref ds = 0 := ht
        simp [find_end_of_line, ht2]
  | cons c cs ih =>
    have hc := h c (List.mem_cons_self c cs)
    have ih2 := ih (fun d hd => h d (List.mem_cons_of_mem c hd))
    rw [List.cons_append, find_end_of_line]
    simp only [hc.1, hc.2, if_false, ih2]

/-- An iteration of the parsing loop does not `goto out` when the line under
the cursor reads as an extent that passes the checks and the table is not
full with text left. -/
theorem parse_iteration_accepts (pos : List Nat) (new_map : uid_gid_map)
    (last : Option uid_gid_extent) (e : uid_gid_extent)
    (hline : parse_line (find_end_of_line pos).1 = some e) (hv : extent_valid e)
    (hord : out_of_order last e = false)
    (hmax : ¬ (new_map.nr_extents + 1 = UID_GID_MAP_MAX_EXTENTS ∧
      (find_end_of_line pos).2.isSome)) :
    parse_iteration pos new_map last =
      some (⟨new_map.nr_extents + 1, new_map.extent.set new_map.nr_extents e⟩, e,
        (find_end_of_line pos).2) := by
  unfold extent_valid at hv
  have h1 : ¬ (e.first = U32_MAX ∨ e.lower_first = U32_MAX) := by
    unfold U32_MAX
    omega
  have h2 : ¬ u32_add e.first e.count ≤ e.first := by
    unfold u32_add
    omega
  have h3 : ¬ u32_add e.lower_first e.count ≤ e.lower_first := by
    unfold u32_add
    omega
  unfold parse_iteration
  simp only [hline, h1, h2, h3, hord, if_false]
  simp only [hmax, if_false]
  simp

/-- The iteration of the parsing loop on a line that has more text after its
newline, with the state in which the loop goes on. -/
theorem parse_loop_next_state (fuel : Nat) (line rest : List Nat) (new_map : uid_gid_map)
    (last : Option uid_gid_extent) (result : uid_gid_map)
    (hline : ∀ c, c ∈ line → c ≠ 0 ∧ c ≠ 10) (hrest : deref rest ≠ 0)
    (h : parse_loop fuel (line ++ 10 :: rest) new_map last = some (some result)) :
    ∃ fuel2 e, parse_line line = some e ∧ extent_valid e ∧
      out_of_order last e = false ∧
      new_map.nr_extents + 1 ≠ UID_GID_MAP_MAX_EXTENTS ∧
      parse_loop fuel2 rest ⟨new_map.nr_extents + 1, new_map.extent.set new_map.nr_extents e⟩
        (some e) = some (some result) := by
  cases fuel with
  | zero => simp [parse_loop] at h
  | succ n =>
    rw [parse_loop] at h
    have heol := find_end_of_line_newline line rest hline
    simp only [hrest, if_false] at heol
    split at h
    · simp at h
    · rename_i counted e hit
      obtain ⟨_, _, _, _, hn, _⟩ := parse_iteration_some _ new_map last counted e _ hit
      rw [heol] at hn
      simp at hn
    · rename_i counted e next hit
      obtain ⟨hp, hv, ho, hc, hn, hmax⟩ := parse_iteration_some _ new_map last counted e _ hit
      rw [heol] at hn hp
      simp only [Option.some.injEq] at hn
      subst hn
      subst hc
      refine ⟨n, e, hp, hv, ho, ?_, h⟩
      intro hx
      exact hmax ⟨hx, rfl⟩

/-- The iteration of the parsing loop on the last line of a text: the loop
ends with the table in which the extent of that line is stored. -/
theorem parse_loop_last (fuel : Nat) (line post : List Nat) (new_map : uid_gid_map)
    (last : Option uid_gid_extent) (result : uid_gid_map)
    (hline : ∀ c, c ∈ line → c ≠ 0 ∧ c ≠ 10) (hpost : is_end post)
    (h : parse_loop fuel (line ++ post) new_map last = some (some result)) :
    ∃ e, parse_line line = some e ∧ extent_valid e ∧ out_of_order last e = false ∧
      result = ⟨new_map.nr_extents + 1, new_map.extent.set new_map.nr_extents e⟩ := by
  cases fuel with
  | zero => simp [parse_loop] at h
  | succ n =>
    rw [parse_loop] at h
    have heol := find_end_of_line_end line post hline hpost
    split at h
    · simp at h
    · rename_i counted e hit
      obtain ⟨hp, hv, ho, hc, _, _⟩ := parse_iteration_some _ new_map last counted e _ hit
      rw [heol] at hp
      simp only [Option.some.injEq] at h
      subst h
      exact ⟨e, hp, hv, ho, hc⟩
    · rename_i counted e next hit
      obtain ⟨_, _, _, _, hn, _⟩ := parse_iteration_some _ new_map last counted e _ hit
      rw [heol] at hn
      simp at hn

/-- The first character of a text whose first line is not empty. -/
theorem deref_lines_text (l : List Nat) (ls : List (List Nat)) (post : List Nat)
    (hne : l ≠ []) (h0 : ∀ c, c ∈ l → c ≠ 0) : deref (lines_text (l :: ls) post) ≠ 0 := by
  cases l with
  | nil => exact absurd rfl hne
  | cons c cs =>
    have hc := h0 c (List.mem_cons_self c cs)
    cases ls with
    | nil => simpa [lines_text, deref] using hc
    | cons l2 ls2 => simpa [lines_text, deref] using hc

/-- After an extent that passed the checks, the ordering test of the source
fires exactly on the extents that do not start where it ends or later. -/
theorem starts_after_of_order (last : Option uid_gid_extent) (e : uid_gid_extent)
    (hlast : ∀ x, last = some x → extent_valid x) (h : out_of_order last e = false) :
    starts_after last e := by
  cases last with
  | none => trivial
  | some l =>
    have hv := hlast l rfl
    simp only [out_of_order, decide_eq_false_iff_not] at h
    unfold extent_valid at hv
    unfold u32_add at h
    simp only [starts_after]
    omega

theorem store_records_cons (new_map : uid_gid_map) (e : uid_gid_extent)
    (rs : List uid_gid_extent) :
    store_records new_map (e :: rs) =
      store_records ⟨new_map.nr_extents + 1, new_map.extent.set new_map.nr_extents e⟩ rs := rfl

/-- When the parsing loop, run on a text whose lines read as the records `rs`,
ends with a table, that table is the working table with the records stored in
order, and the records pass the checks. -/
theorem parse_loop_records (post : List Nat) (hpost : is_end post) :
    ∀ (ls : List (List Nat)) (l : List Nat) (rs : List uid_gid_extent) (fuel : Nat)
      (new_map : uid_gid_map) (last : Option uid_gid_extent) (result : uid_gid_map),
      (∀ x, x ∈ l :: ls → ∀ c, c ∈ x → c ≠ 0 ∧ c ≠ 10) →
      (∀ x, last = some x → extent_valid x) →
      (l :: ls).map parse_line = rs.map some →
      parse_loop fuel (lines_text (l :: ls) post) new_map last = some (some result) →
      result = store_records new_map rs ∧ records_ok last rs := by
  intro ls
  induction ls with
  | nil =>
    intro l rs fuel new_map last result hclean hlast hrec h
    cases rs with
    | nil => simp at hrec
    | cons e rs2 =>
      cases rs2 with
      | cons e2 rs3 => simp at hrec
      | nil =>
        simp only [List.map_cons, List.map_nil, List.cons.injEq, and_true] at hrec
        simp only [lines_text] at h
        obtain ⟨e2, he2, hv, ho, hres⟩ := parse_loop_last fuel l post new_map last result
          (hclean l (List.mem_cons_self l [])) hpost h
        rw [hrec] at he2
        simp only [Option.some.injEq] at he2
        subst he2
        exact ⟨hres, hv, starts_after_of_order last e hlast ho, trivial⟩
  | cons l2 ls2 ih =>
    intro l rs fuel new_map last result hclean hlast hrec h
    cases rs with
    | nil => simp at hrec
    | cons e rs2 =>
      rw [List.map_cons parse_line l, List.map_cons some e] at hrec
      have hl : parse_line l = some e := List.head_eq_of_cons_eq hrec
      have hrest : (l2 :: ls2).map parse_line = rs2.map some := List.tail_eq_of_cons_eq hrec
      have hl2ne : l2 ≠ [] := by
        intro hx
        subst hx
        cases rs2 with
        | nil => simp at hrest
        | cons e2 rs3 =>
          rw [List.map_cons parse_line [], List.map_cons some e2] at hrest
          have := List.head_eq_of_cons_eq hrest
          rw [parse_line_nil] at this
          simp at this
      have hc2 := hclean l2 (List.mem_cons_of_mem l (List.mem_cons_self l2 ls2))
      have hderef := deref_lines_text l2 ls2 post hl2ne (fun c hc => (hc2 c hc).1)
      have htext : lines_text (l :: l2 :: ls2) post = l ++ 10 :: lines_text (l2 :: ls2) post :=
        rfl
      rw [htext] at h
      obtain ⟨fuel2, e2, he2, hv, ho, _, hgo⟩ :=
        parse_loop_next_state fuel l _ new_map last result
          (hclean l (List.mem_cons_self l _)) hderef h
      rw [hl] at he2
      simp only [Option.some.injEq] at he2
      subst he2
      obtain ⟨hres, hok⟩ := ih l2 rs2 fuel2 _ (some e) result
        (fun x hx => hclean x (List.mem_cons_of_mem l hx))
        (fun x hx => by
          simp only [Option.some.injEq] at hx
          subst hx
          exact hv)
        hrest hgo
      exact ⟨by rw [store_records_cons]; exact hres, hv, starts_after_of_order last e hlast ho,
        hok⟩

theorem store_records_nr :
    ∀ (rs : List uid_gid_extent) (new_map : uid_gid_map),
      (store_records new_map rs).nr_extents = new_map.nr_extents + rs.length ∧
      (store_records new_map rs).extent.length = new_map.extent.length := by
  intro rs
  induction rs with
  | nil =>
    intro new_map
    exact ⟨rfl, rfl⟩
  | cons e rs ih =>
    intro new_map
    rw [store_records_cons]
    obtain ⟨h1, h2⟩ := ih ⟨new_map.nr_extents + 1, new_map.extent.set new_map.nr_extents e⟩
    simp only [List.length_set] at h1 h2
    simp only [List.length_cons]
    exact ⟨by rw [h1]; omega, h2⟩

theorem store_records_below :
    ∀ (rs : List uid_gid_extent) (new_map : uid_gid_map) (i : Nat), i < new_map.nr_extents →
      extent_at (store_records new_map rs) i = extent_at new_map i := by
  intro rs
  induction rs with
  | nil =>
    intro new_map i _
    rfl
  | cons e rs ih =>
    intro new_map i hi
    rw [store_records_cons, ih _ i (Nat.lt_succ_of_lt hi)]
    exact extent_at_set_ne _ _ _ _ _ _ (by omega)

/-- The slots of the working table after the records have been stored. -/
theorem store_records_at :
    ∀ (rs : List uid_gid_extent) (new_map : uid_gid_map) (k : Nat) (e : uid_gid_extent),
      new_map.nr_extents + rs.length ≤ new_map.extent.length → rs[k]? = some e →
      extent_at (store_records new_map rs) (new_map.nr_extents + k) = e := by
  intro rs
  induction rs with
  | nil =>
    intro new_map k e _ h
    simp at h
  | cons e0 rs ih =>
    intro new_map k e hlen h
    simp only [List.length_cons] at hlen
    rw [store_records_cons]
    cases k with
    | zero =>
      simp only [List.getElem?_cons_zero, Option.some.injEq] at h
      subst h
      rw [Nat.add_zero, store_records_below _ _ _ (Nat.lt_succ_self _)]
      exact extent_at_set_eq _ _ _ _ (by omega)
    | succ k2 =>
      simp only [List.getElem?_cons_succ] at h
      have := ih ⟨new_map.nr_extents + 1, new_map.extent.set new_map.nr_extents e0⟩ k2 e
        (by simp only [List.length_set]; omega) h
      simp only at this
      rw [show new_map.nr_extents + (k2 + 1) = new_map.nr_extents + 1 + k2 by omega]
      exact this

/-- What `parse_user_data` gives, when it gives a table, on a text whose lines
read as the records `rs`. -/
theorem parse_user_data_records (l : List Nat) (ls : List (List Nat)) (post : List Nat)
    (rs : List uid_gid_extent) (parsed : uid_gid_map) (hpost : is_end post)
    (hclean : ∀ x, x ∈ l :: ls → ∀ c, c ∈ x → c ≠ 0 ∧ c ≠ 10)
    (hrec : (l :: ls).map parse_line = rs.map some)
    (h : parse_user_data (lines_text (l :: ls) post) = some parsed) :
    parsed = store_records new_map_init rs ∧ records_ok none rs :=
  parse_loop_records post hpost ls l rs _ new_map_init none parsed hclean
    (fun x hx => by simp at hx) hrec (parse_user_data_some _ _ h)

/-- C16. Successful install postcondition: when `map_write` does not return an
error on a text whose `n` lines read as the records `rs`, then
`1 <= n <= 5`, the value returned and the new file position are the number of
bytes of the input, and the table has `nr_extents = n` and holds in slot `i`
the record `i` with its lower id replaced by what `map_id_range_down` gives
for it in the parent table. -/
theorem map_write_postcondition {NS : Type} (ns_capable : NS → Nat → Bool)
    (parent_of : NS → NS) (page_ok copy_ok : Bool) (ns : NS) (buf : List Nat) (ppos : Int)
    (cap_setid : Nat) (map parent_map : uid_gid_map)
    (l : List Nat) (ls : List (List Nat)) (post : List Nat) (rs : List uid_gid_extent)
    (hbuf : buf = lines_text (l :: ls) post)
    (hclean : ∀ x, x ∈ l :: ls → ∀ c, c ∈ x → c ≠ 0 ∧ c ≠ 10) (hpost : is_end post)
    (hrec : (l :: ls).map parse_line = rs.map some)
    (hsucc : 0 ≤ (map_write ns_capable parent_of page_ok copy_ok ns buf ppos cap_setid map
      parent_map).ret) :
    1 ≤ rs.length ∧ rs.length ≤ 5 ∧
    (map_write ns_capable parent_of page_ok copy_ok ns buf ppos cap_setid map
      parent_map).ret = buf.length ∧
    (map_write ns_capable parent_of page_ok copy_ok ns buf ppos cap_setid map
      parent_map).ppos = buf.length ∧
    (map_write ns_capable parent_of page_ok copy_ok ns buf ppos cap_setid map
      parent_map).map.nr_extents = rs.length ∧
    ∀ i e, rs[i]? = some e →
      extent_at (map_write ns_capable parent_of page_ok copy_ok ns buf ppos cap_setid map
        parent_map).map i =
        ⟨e.first, map_id_range_down parent_map e.lower_first e.count, e.count⟩ := by
  obtain ⟨_, _, _, _, _, _, parsed0, mapped, _, _, _, hw⟩ :=
    map_write_success ns_capable parent_of page_ok copy_ok ns buf ppos cap_setid map parent_map
      hsucc
  obtain ⟨parsed, hp, hnr, hslots⟩ :=
    map_write_installed ns_capable parent_of page_ok copy_ok ns buf ppos cap_setid map
      parent_map hsucc
  obtain ⟨_, hpos, hle, _⟩ := parse_user_data_inv buf parsed hp
  have hp2 := hp
  rw [hbuf] at hp2
  obtain ⟨hstore, _⟩ := parse_user_data_records l ls post rs parsed hpost hclean hrec hp2
  obtain ⟨hsnr, _⟩ := store_records_nr rs new_map_init
  have hlen : parsed.nr_extents = rs.length := by
    rw [hstore, hsnr]
    exact Nat.zero_add _
  have hle5 : rs.length ≤ 5 := by
    rw [← hlen]
    exact hle
  refine ⟨by omega, hle5, ?_, ?_, by rw [hnr, hlen], ?_⟩
  · rw [hw]
  · rw [hw]
  · intro i e he
    have hi : i < rs.length := by
      rcases Nat.lt_or_ge i rs.length with h | h
      · exact h
      · rw [List.getElem?_eq_none h] at he
        simp at he
    have hat := store_records_at rs new_map_init i e (by simpa [new_map_init] using hle5) he
    rw [show new_map_init.nr_extents + i = i from Nat.zero_add i, ← hstore] at hat
    rw [(hslots i (by omega)).1, hat]

/-- Witness of C16: the text `0 2 3\n10 5 5\n` installed below the table
`0 100 5`, `5 200 5`. -/
theorem map_write_postcondition_witness :
    bytes "0 2 3\n10 5 5\n" = lines_text sample_lines [10] ∧
    sample_lines.map parse_line = sample_records.map some ∧
    0 ≤ (map_write all_capable unit_parent true true () (bytes "0 2 3\n10 5 5\n") 0 7
      empty_table two_extent_table).ret ∧
    (1 ≤ sample_records.length ∧ sample_records.length ≤ 5 ∧
      (map_write all_capable unit_parent true true () (bytes "0 2 3\n10 5 5\n") 0 7
        empty_table two_extent_table).ret = (bytes "0 2 3\n10 5 5\n").length ∧
      (map_write all_capable unit_parent true true () (bytes "0 2 3\n10 5 5\n") 0 7
        empty_table two_extent_table).ppos = (bytes "0 2 3\n10 5 5\n").length ∧
      (map_write all_capable unit_parent true true () (bytes "0 2 3\n10 5 5\n") 0 7
        empty_table two_extent_table).map.nr_extents = sample_records.length ∧
      ∀ i e, sample_records[i]? = some e →
        extent_at (map_write all_capable unit_parent true true () (bytes "0 2 3\n10 5 5\n") 0 7
          empty_table two_extent_table).map i =
          ⟨e.first, map_id_range_down two_extent_table e.lower_first e.count, e.count⟩) :=
  ⟨by decide, by decide, by decide,
    map_write_postcondition all_capable unit_parent true true () (bytes "0 2 3\n10 5 5\n") 0 7
      empty_table two_extent_table (bytes "0 2 3") [bytes "10 5 5"] [10] sample_records
      (by decide) (by decide) (by decide) (by decide) (by decide)⟩

/-! ## White space and digits -/

theorem isspace_zero : isspace 0 = false := by decide

theorem isspace_not_digit (c : Nat) (h : isspace c = true) : isdigit c = false := by
  simp only [isspace, decide_eq_true_eq] at h
  simp only [isdigit, decide_eq_false_iff_not]
  omega

theorem deref_append (a b : List Nat) (h : a ≠ []) : deref (a ++ b) = deref a := by
  cases a with
  | nil => exact absurd rfl h
  | cons c cs => rfl

theorem ne_nil_of_isspace_deref (a : List Nat) (h : isspace (deref a) = true) : a ≠ [] := by
  intro hx
  subst hx
  simp [deref, isspace_zero] at h

/-- The cursor after `skip_spaces` is not on a white space character. -/
theorem skip_spaces_head (l : List Nat) : isspace (deref (skip_spaces l)) = false := by
  induction l with
  | nil => exact isspace_zero
  | cons c cs ih =>
    rw [skip_spaces]
    by_cases hc : isspace c = true
    · rw [if_pos hc]
      exact ih
    · rw [if_neg hc]
      simpa [deref] using hc

/-- What `skip_spaces` skips is white space. -/
theorem skip_spaces_split (l : List Nat) :
    ∃ s, l = s ++ skip_spaces l ∧ ∀ c, c ∈ s → isspace c = true := by
  induction l with
  | nil => exact ⟨[], rfl, fun c hc => by simp at hc⟩
  | cons c cs ih =>
    rw [skip_spaces]
    by_cases hc : isspace c = true
    · rw [if_pos hc]
      obtain ⟨s, hs, hall⟩ := ih
      refine ⟨c :: s, by rw [List.cons_append, ← hs], ?_⟩
      intro d hd
      rcases List.mem_cons.mp hd with h | h
      · rw [h]
        exact hc
      · exact hall d h
    · rw [if_neg hc]
      exact ⟨[], rfl, fun c hc => by simp at hc⟩

theorem skip_spaces_all (ws : List Nat) (h : ∀ c, c ∈ ws → isspace c = true) :
    skip_spaces ws = [] := by
  induction ws with
  | nil => rfl
  | cons c cs ih =>
    rw [skip_spaces, if_pos (h c (List.mem_cons_self c cs))]
    exact ih (fun d hd => h d (List.mem_cons_of_mem c hd))

theorem skip_spaces_append_ne (a b : List Nat) (h : skip_spaces a ≠ []) :
    skip_spaces (a ++ b) = skip_spaces a ++ b := by
  induction a with
  | nil => exact absurd rfl h
  | cons c cs ih =>
    rw [skip_spaces] at h
    rw [List.cons_append, skip_spaces, skip_spaces]
    by_cases hc : isspace c = true
    · rw [if_pos hc] at h
      rw [if_pos hc, if_pos hc]
      exact ih h
    · rw [if_neg hc, if_neg hc]
      rfl

theorem skip_spaces_append_nil (a b : List Nat) (h : skip_spaces a = []) :
    skip_spaces (a ++ b) = skip_spaces b := by
  induction a with
  | nil => rfl
  | cons c cs ih =>
    rw [skip_spaces] at h
    rw [List.cons_append, skip_spaces]
    by_cases hc : isspace c = true
    · rw [if_pos hc] at h
      rw [if_pos hc]
      exact ih h
    · rw [if_neg hc] at h
      simp at h

/-- What the digit loop of `simple_strtoul` reads is digits, and without a
digit the value is unchanged. -/
theorem simple_strtoul_loop_split :
    ∀ (cp : List Nat) (acc : Nat),
      ∃ d, cp = d ++ (simple_strtoul_loop cp acc).2 ∧ (∀ c, c ∈ d → isdigit c = true) ∧
        (d = [] → (simple_strtoul_loop cp acc).1 = acc) := by
  intro cp
  induction cp with
  | nil =>
    intro acc
    exact ⟨[], rfl, fun c hc => by simp at hc, fun _ => rfl⟩
  | cons c cs ih =>
    intro acc
    rw [simple_strtoul_loop]
    by_cases hc : isdigit c = true
    · rw [if_pos hc]
      obtain ⟨d, hd, hall, _⟩ := ih ((acc * 10 + (c - 48)) % 18446744073709551616)
      refine ⟨c :: d, by rw [List.cons_append, ← hd], ?_, fun hx => by simp at hx⟩
      intro x hx
      rcases List.mem_cons.mp hx with h | h
      · rw [h]
        exact hc
      · exact hall x h
    · rw [if_neg hc]
      exact ⟨[], rfl, fun c hc => by simp at hc, fun _ => rfl⟩

theorem simple_strtoul_loop_append_ne :
    ∀ (a b : List Nat) (acc : Nat), (simple_strtoul_loop a acc).2 ≠ [] →
      simple_strtoul_loop (a ++ b) acc =
        ((simple_strtoul_loop a acc).1, (simple_strtoul_loop a acc).2 ++ b) := by
  intro a
  induction a with
  | nil =>
    intro b acc h
    exact absurd rfl h
  | cons c cs ih =>
    intro b acc h
    rw [simple_strtoul_loop] at h
    rw [List.cons_append, simple_strtoul_loop, simple_strtoul_loop]
    by_cases hc : isdigit c = true
    · rw [if_pos hc] at h
      rw [if_pos hc, if_pos hc]
      exact ih b _ h
    · rw [if_neg hc, if_neg hc]
      rfl

theorem simple_strtoul_loop_space (ws : List Nat) (acc : Nat)
    (h : ∀ c, c ∈ ws → isspace c = true) : simple_strtoul_loop ws acc = (acc, ws) := by
  cases ws with
  | nil => rfl
  | cons c cs =>
    have hd := isspace_not_digit c (h c (List.mem_cons_self c cs))
    rw [simple_strtoul_loop]
    simp [hd]

theorem simple_strtoul_loop_append_nil :
    ∀ (a ws : List Nat) (acc : Nat), (simple_strtoul_loop a acc).2 = [] →
      (∀ c, c ∈ ws → isspace c = true) →
      simple_strtoul_loop (a ++ ws) acc = ((simple_strtoul_loop a acc).1, ws) := by
  intro a
  induction a with
  | nil =>
    intro ws acc _ hws
    exact simple_strtoul_loop_space ws acc hws
  | cons c cs ih =>
    intro ws acc h hws
    rw [simple_strtoul_loop] at h
    rw [List.cons_append, simple_strtoul_loop, simple_strtoul_loop]
    by_cases hc : isdigit c = true
    · rw [if_pos hc] at h
      rw [if_pos hc, if_pos hc]
      exact ih ws _ h hws
    · rw [if_neg hc] at h
      simp at h

theorem simple_strtoul_append_ne (a b : List Nat) (h : (simple_strtoul a).2 ≠ []) :
    simple_strtoul (a ++ b) = ((simple_strtoul a).1, (simple_strtoul a).2 ++ b) := by
  simp only [simple_strtoul] at h ⊢
  rw [simple_strtoul_loop_append_ne a b 0 h]

theorem simple_strtoul_append_nil (a ws : List Nat) (h : (simple_strtoul a).2 = [])
    (hws : ∀ c, c ∈ ws → isspace c = true) :
    simple_strtoul (a ++ ws) = ((simple_strtoul a).1, ws) := by
  simp only [simple_strtoul] at h ⊢
  rw [simple_strtoul_loop_append_nil a ws 0 h hws]

theorem simple_strtoul_nil : simple_strtoul [] = (0, []) := rfl

/-- After white space the test of line 480 does not fire. -/
theorem deref_space_passes (ws : List Nat) (h : ∀ c, c ∈ ws → isspace c = true) :
    ¬ (deref ws ≠ 0 ∧ (!isspace (deref ws)) = true) := by
  cases ws with
  | nil => simp [deref]
  | cons c cs =>
    have hc := h c (List.mem_cons_self c cs)
    simp [deref, hc]

/-- What `parse_line` has checked when it reads an extent. -/
theorem parse_line_some (l : List Nat) (e : uid_gid_extent) (h : parse_line l = some e) :
    isspace (deref (simple_strtoul (skip_spaces l)).2) = true ∧
    isspace (deref (simple_strtoul
      (skip_spaces (simple_strtoul (skip_spaces l)).2)).2) = true ∧
    ¬ (deref (simple_strtoul (skip_spaces (simple_strtoul
        (skip_spaces (simple_strtoul (skip_spaces l)).2)).2)).2 ≠ 0 ∧
      (!isspace (deref (simple_strtoul (skip_spaces (simple_strtoul
        (skip_spaces (simple_strtoul (skip_spaces l)).2)).2)).2)) = true) ∧
    deref (skip_spaces (simple_strtoul (skip_spaces (simple_strtoul
      (skip_spaces (simple_strtoul (skip_spaces l)).2)).2)).2) = 0 ∧
    e = ⟨(simple_strtoul (skip_spaces l)).1,
      (simple_strtoul (skip_spaces (simple_strtoul (skip_spaces l)).2)).1,
      (simple_strtoul (skip_spaces (simple_strtoul
        (skip_spaces (simple_strtoul (skip_spaces l)).2)).2)).1⟩ := by
  unfold parse_line at h
  simp only at h
  split at h
  · exact absurd h (by simp)
  · rename_i c1
    split at h
    · exact absurd h (by simp)
    · rename_i c2
      split at h
      · exact absurd h (by simp)
      · rename_i c3
        split at h
        · exact absurd h (by simp)
        · rename_i c4
          simp only [Option.some.injEq] at h
          refine ⟨by simpa using c1, by simpa using c2, c3, by simpa using c4, h.symm⟩

/-- What `parse_line` reads when its four checks pass. -/
theorem parse_line_of_checks (l : List Nat)
    (c1 : isspace (deref (simple_strtoul (skip_spaces l)).2) = true)
    (c2 : isspace (deref (simple_strtoul
      (skip_spaces (simple_strtoul (skip_spaces l)).2)).2) = true)
    (c3 : ¬ (deref (simple_strtoul (skip_spaces (simple_strtoul
        (skip_spaces (simple_strtoul (skip_spaces l)).2)).2)).2 ≠ 0 ∧
      (!isspace (deref (simple_strtoul (skip_spaces (simple_strtoul
        (skip_spaces (simple_strtoul (skip_spaces l)).2)).2)).2)) = true))
    (c4 : deref (skip_spaces (simple_strtoul (skip_spaces (simple_strtoul
      (skip_spaces (simple_strtoul (skip_spaces l)).2)).2)).2) = 0) :
    parse_line l = some ⟨(simple_strtoul (skip_spaces l)).1,
      (simple_strtoul (skip_spaces (simple_strtoul (skip_spaces l)).2)).1,
      (simple_strtoul (skip_spaces (simple_strtoul
        (skip_spaces (simple_strtoul (skip_spaces l)).2)).2)).1⟩ := by
  unfold parse_line
  simp only [c1, c2, c4, Bool.not_true, Bool.false_eq_true, if_false, ne_eq, not_true_eq_false]
  rw [if_neg c3]

/-- White space added at the end of a line that `parse_line` reads does not
change what it reads. -/
theorem parse_line_append_space (l ws : List Nat) (e : uid_gid_extent)
    (h : parse_line l = some e) (hws : ∀ c, c ∈ ws → isspace c = true) :
    parse_line (l ++ ws) = some e := by
  obtain ⟨c1, c2, c3, c4, he⟩ := parse_line_some l e h
  have hn1 := ne_nil_of_isspace_deref _ c1
  have hn2 := ne_nil_of_isspace_deref _ c2
  have hp0 : skip_spaces l ≠ [] := by
    intro hx
    rw [hx, simple_strtoul_nil] at hn1
    exact hn1 rfl
  have hp1 : skip_spaces (simple_strtoul (skip_spaces l)).2 ≠ [] := by
    intro hx
    rw [hx, simple_strtoul_nil] at hn2
    exact hn2 rfl
  have E1 : simple_strtoul (skip_spaces (l ++ ws)) =
      ((simple_strtoul (skip_spaces l)).1, (simple_strtoul (skip_spaces l)).2 ++ ws) := by
    rw [skip_spaces_append_ne l ws hp0, simple_strtoul_append_ne _ ws hn1]
  have E2 : simple_strtoul (skip_spaces ((simple_strtoul (skip_spaces l)).2 ++ ws)) =
      ((simple_strtoul (skip_spaces (simple_strtoul (skip_spaces l)).2)).1,
        (simple_strtoul (skip_spaces (simple_strtoul (skip_spaces l)).2)).2 ++ ws) := by
    rw [skip_spaces_append_ne _ ws hp1, simple_strtoul_append_ne _ ws hn2]
  have E3 : ∃ tail3,
      simple_strtoul (skip_spaces
        ((simple_strtoul (skip_spaces (simple_strtoul (skip_spaces l)).2)).2 ++ ws)) =
        ((simple_strtoul (skip_spaces (simple_strtoul
          (skip_spaces (simple_strtoul (skip_spaces l)).2)).2)).1, tail3) ∧
      ¬ (deref tail3 ≠ 0 ∧ (!isspace (deref tail3)) = true) ∧
      deref (skip_spaces tail3) = 0 := by
    by_cases hp2 : skip_spaces (simple_strtoul
        (skip_spaces (simple_strtoul (skip_spaces l)).2)).2 = []
    · refine ⟨[], ?_, by simp [deref], rfl⟩
      rw [skip_spaces_append_nil _ ws hp2, skip_spaces_all ws hws, hp2]
      rfl
    · rw [skip_spaces_append_ne _ ws hp2]
      by_cases hn3 : (simple_strtoul (skip_spaces (simple_strtoul
          (skip_spaces (simple_strtoul (skip_spaces l)).2)).2)).2 = []
      · refine ⟨ws, simple_strtoul_append_nil _ ws hn3 hws, deref_space_passes ws hws, ?_⟩
        rw [skip_spaces_all ws hws]
        rfl
      · refine ⟨_, simple_strtoul_append_ne _ ws hn3, ?_, ?_⟩
        · rw [deref_append _ ws hn3]
          exact c3
        · by_cases hp3 : skip_spaces (simple_strtoul (skip_spaces (simple_strtoul
              (skip_spaces (simple_strtoul (skip_spaces l)).2)).2)).2 = []
          · rw [skip_spaces_append_nil _ ws hp3, skip_spaces_all ws hws]
            rfl
          · rw [skip_spaces_append_ne _ ws hp3, deref_append _ ws hp3]
            exact c4
  obtain ⟨tail3, E3a, E3b, E3c⟩ := E3
  have hfinal := parse_line_of_checks (l ++ ws)
    (by rw [E1]; simp only; rw [deref_append _ ws hn1]; exact c1)
    (by rw [E1]; simp only; rw [E2]; simp only; rw [deref_append _ ws hn2]; exact c2)
    (by rw [E1]; simp only; rw [E2]; simp only; rw [E3a]; exact E3b)
    (by rw [E1]; simp only; rw [E2]; simp only; rw [E3a]; exact E3c)
  rw [hfinal, he]
  simp only [E1, E2, E3a]

/-- A line without NUL that `parse_line` reads with a count that is not zero
has the form of the specification. -/
theorem parse_line_well_formed (l : List Nat) (e : uid_gid_extent)
    (h : parse_line l = some e) (hcount : e.count ≠ 0) (h0 : ∀ c, c ∈ l → c ≠ 0) :
    well_formed_line l := by
  obtain ⟨c1, c2, _, c4, he⟩ := parse_line_some l e h
  obtain ⟨s0, hs0, hs0a⟩ := skip_spaces_split l
  obtain ⟨d1, hd1, hd1a, _⟩ := simple_strtoul_loop_split (skip_spaces l) 0
  obtain ⟨s1, hs1, hs1a⟩ := skip_spaces_split (simple_strtoul (skip_spaces l)).2
  obtain ⟨d2, hd2, hd2a, _⟩ :=
    simple_strtoul_loop_split (skip_spaces (simple_strtoul (skip_spaces l)).2) 0
  obtain ⟨s2, hs2, hs2a⟩ := skip_spaces_split
    (simple_strtoul (skip_spaces (simple_strtoul (skip_spaces l)).2)).2
  obtain ⟨d3, hd3, hd3a, hd3v⟩ := simple_strtoul_loop_split
    (skip_spaces (simple_strtoul (skip_spaces (simple_strtoul (skip_spaces l)).2)).2) 0
  obtain ⟨s3, hs3, hs3a⟩ := skip_spaces_split
    (simple_strtoul (skip_spaces (simple_strtoul
      (skip_spaces (simple_strtoul (skip_spaces l)).2)).2)).2
  have hd1b : skip_spaces l = d1 ++ (simple_strtoul (skip_spaces l)).2 := hd1
  have hd2b : skip_spaces (simple_strtoul (skip_spaces l)).2 =
      d2 ++ (simple_strtoul (skip_spaces (simple_strtoul (skip_spaces l)).2)).2 := hd2
  have hd3b : skip_spaces (simple_strtoul (skip_spaces (simple_strtoul (skip_spaces l)).2)).2 =
      d3 ++ (simple_strtoul (skip_spaces (simple_strtoul
        (skip_spaces (simple_strtoul (skip_spaces l)).2)).2)).2 := hd3
  have hl : l = s0 ++ (d1 ++ (s1 ++ (d2 ++ (s2 ++ (d3 ++ (s3 ++
      skip_spaces (simple_strtoul (skip_spaces (simple_strtoul
        (skip_spaces (simple_strtoul (skip_spaces l)).2)).2)).2)))))) := by
    rw [← hs3, ← hd3b, ← hs2, ← hd2b, ← hs1, ← hd1b, ← hs0]
  have hp3 : skip_spaces (simple_strtoul (skip_spaces (simple_strtoul
      (skip_spaces (simple_strtoul (skip_spaces l)).2)).2)).2 = [] := by
    cases hx : skip_spaces (simple_strtoul (skip_spaces (simple_strtoul
        (skip_spaces (simple_strtoul (skip_spaces l)).2)).2)).2 with
    | nil => rfl
    | cons c cs =>
      exfalso
      rw [hx] at c4 hl
      simp only [deref, List.headD_cons] at c4
      subst c4
      apply h0 0 _ rfl
      rw [hl]
      simp
  rw [hp3, List.append_nil] at hl
  refine ⟨s0, d1, s1, d2, s2, d3, s3, hl, hs0a, hs1a, hs2a, hs3a, hd1a, hd2a, hd3a,
    ?_, ?_, ?_, ?_, ?_⟩
  · intro hx
    subst hx
    rw [List.nil_append] at hd1b
    have := skip_spaces_head l
    rw [hd1b, c1] at this
    simp at this
  · intro hx
    subst hx
    rw [List.nil_append] at hd2b
    have := skip_spaces_head (simple_strtoul (skip_spaces l)).2
    rw [hd2b, c2] at this
    simp at this
  · intro hx
    apply hcount
    rw [he]
    show (simple_strtoul_loop (skip_spaces (simple_strtoul (skip_spaces
      (simple_strtoul (skip_spaces l)).2)).2) 0).1 % 4294967296 = 0
    rw [hd3v hx]
  · intro hx
    subst hx
    rw [List.nil_append] at hs1
    have := skip_spaces_head (simple_strtoul (skip_spaces l)).2
    rw [← hs1, c1] at this
    simp at this
  · intro hx
    subst hx
    rw [List.nil_append] at hs2
    have := skip_spaces_head (simple_strtoul (skip_spaces (simple_strtoul (skip_spaces l)).2)).2
    rw [← hs2, c2] at this
    simp at this

/-- A line of the form of the specification is made of white space and
digits, and is not empty. -/
theorem well_formed_line_chars (l : List Nat) (h : well_formed_line l) :
    l ≠ [] ∧ ∀ c, c ∈ l → isspace c = true ∨ isdigit c = true := by
  obtain ⟨s0, d1, s1, d2, s2, d3, s3, hl, hs0, hs1, hs2, hs3, hd1, hd2, hd3, hn1, _, _, _, _⟩ :=
    h
  subst hl
  constructor
  · intro hx
    simp only [List.append_eq_nil] at hx
    exact hn1 hx.2.1
  · intro c hc
    simp only [List.mem_append] at hc
    rcases hc with h | h | h | h | h | h | h
    · exact Or.inl (hs0 c h)
    · exact Or.inr (hd1 c h)
    · exact Or.inl (hs1 c h)
    · exact Or.inr (hd2 c h)
    · exact Or.inl (hs2 c h)
    · exact Or.inr (hd3 c h)
    · exact Or.inl (hs3 c h)

theorem isdigit_not_space (c : Nat) (h : isdigit c = true) : isspace c = false := by
  simp only [isdigit, decide_eq_true_eq] at h
  simp only [isspace, decide_eq_false_iff_not]
  omega

/-- White space before digits is all that `skip_spaces` skips. -/
theorem skip_spaces_before_digit (s d rest : List Nat) (hs : ∀ c, c ∈ s → isspace c = true)
    (hd : ∀ c, c ∈ d → isdigit c = true) (hne : d ≠ []) :
    skip_spaces (s ++ (d ++ rest)) = d ++ rest := by
  rw [skip_spaces_append_nil s _ (skip_spaces_all s hs)]
  cases d with
  | nil => exact absurd rfl hne
  | cons c cs =>
    have hc := isdigit_not_space c (hd c (List.mem_cons_self c cs))
    rw [List.cons_append, skip_spaces]
    simp [hc]

/-- Digits before white space are all that the digit loop reads. -/
theorem simple_strtoul_loop_digits (s rest : List Nat)
    (hs : ∀ c, c ∈ s → isspace c = true) (hne : s ≠ []) :
    ∀ (d : List Nat) (acc : Nat), (∀ c, c ∈ d → isdigit c = true) →
      (simple_strtoul_loop (d ++ (s ++ rest)) acc).2 = s ++ rest := by
  intro d
  induction d with
  | nil =>
    intro acc _
    cases s with
    | nil => exact absurd rfl hne
    | cons c cs =>
      have hc := isspace_not_digit c (hs c (List.mem_cons_self c cs))
      rw [List.nil_append, List.cons_append, simple_strtoul_loop]
      simp [hc]
  | cons c cs ih =>
    intro acc hd
    rw [List.cons_append, simple_strtoul_loop, if_pos (hd c (List.mem_cons_self c cs))]
    exact ih _ (fun x hx => hd x (List.mem_cons_of_mem c hx))

/-- Digits before white space are all that `simple_strtoul` reads. -/
theorem simple_strtoul_digits (d s rest : List Nat) (hd : ∀ c, c ∈ d → isdigit c = true)
    (hs : ∀ c, c ∈ s → isspace c = true) (hne : s ≠ []) :
    (simple_strtoul (d ++ (s ++ rest))).2 = s ++ rest :=
  simple_strtoul_loop_digits s rest hs hne d 0 hd

/-- Digits at the end of the string are all that `simple_strtoul` reads. -/
theorem simple_strtoul_digits_end (d : List Nat) (hd : ∀ c, c ∈ d → isdigit c = true) :
    ∀ acc, (simple_strtoul_loop d acc).2 = [] := by
  induction d with
  | nil =>
    intro acc
    rfl
  | cons c cs ih =>
    intro acc
    rw [simple_strtoul_loop, if_pos (hd c (List.mem_cons_self c cs))]
    exact ih (fun x hx => hd x (List.mem_cons_of_mem c hx)) _

/-- A line of the form of the specification is read by `parse_line`. -/
theorem well_formed_line_parses (l : List Nat) (h : well_formed_line l) :
    ∃ e, parse_line l = some e := by
  obtain ⟨s0, d1, s1, d2, s2, d3, s3, hl, hs0, hs1, hs2, hs3, hd1, hd2, hd3, hn1, hn2, hn3,
    hm1, hm2⟩ := h
  subst hl
  have k0 : skip_spaces (s0 ++ (d1 ++ (s1 ++ (d2 ++ (s2 ++ (d3 ++ s3)))))) =
      d1 ++ (s1 ++ (d2 ++ (s2 ++ (d3 ++ s3)))) :=
    skip_spaces_before_digit s0 d1 _ hs0 hd1 hn1
  have k1 : (simple_strtoul (d1 ++ (s1 ++ (d2 ++ (s2 ++ (d3 ++ s3)))))).2 =
      s1 ++ (d2 ++ (s2 ++ (d3 ++ s3))) :=
    simple_strtoul_digits d1 s1 _ hd1 hs1 hm1
  have k2 : skip_spaces (s1 ++ (d2 ++ (s2 ++ (d3 ++ s3)))) = d2 ++ (s2 ++ (d3 ++ s3)) :=
    skip_spaces_before_digit s1 d2 _ hs1 hd2 hn2
  have k3 : (simple_strtoul (d2 ++ (s2 ++ (d3 ++ s3)))).2 = s2 ++ (d3 ++ s3) :=
    simple_strtoul_digits d2 s2 _ hd2 hs2 hm2
  have k4 : skip_spaces (s2 ++ (d3 ++ s3)) = d3 ++ s3 :=
    skip_spaces_before_digit s2 d3 _ hs2 hd3 hn3
  have k5 : (simple_strtoul (d3 ++ s3)).2 = s3 := by
    by_cases hs : s3 = []
    · subst hs
      rw [List.append_nil]
      exact simple_strtoul_digits_end d3 hd3 0
    · have := simple_strtoul_digits d3 s3 [] hd3 hs3 hs
      rw [List.append_nil] at this
      exact this
  have hsp1 : isspace (deref (s1 ++ (d2 ++ (s2 ++ (d3 ++ s3))))) = true := by
    cases s1 with
    | nil => exact absurd rfl hm1
    | cons c cs => exact hs1 c (List.mem_cons_self c cs)
  have hsp2 : isspace (deref (s2 ++ (d3 ++ s3))) = true := by
    cases s2 with
    | nil => exact absurd rfl hm2
    | cons c cs => exact hs2 c (List.mem_cons_self c cs)
  refine ⟨_, parse_line_of_checks _ ?_ ?_ ?_ ?_⟩
  · rw [k0, k1]
    exact hsp1
  · rw [k0, k1, k2, k3]
    exact hsp2
  · rw [k0, k1, k2, k3, k4, k5]
    exact deref_space_passes s3 hs3
  · rw [k0, k1, k2, k3, k4, k5, skip_spaces_all s3 hs3]
    rfl

/-- A batch with a line that does not have the form of the specification is
not parsed. The line is at the start of the text, or follows a newline and is
not the empty rest of the string after a final newline. -/
theorem parse_user_data_malformed (pre line post : List Nat)
    (hpre : pre = [] ∨ (pre.getLast? = some 10 ∧ deref (line ++ post) ≠ 0))
    (hpre0 : ∀ c, c ∈ pre → c ≠ 0)
    (hline : ∀ c, c ∈ line → c ≠ 0 ∧ c ≠ 10) (hpost : deref post = 0 ∨ deref post = 10)
    (hbad : ¬ well_formed_line line) :
    parse_user_data (pre ++ (line ++ post)) = none := by
  cases hp : parse_user_data (pre ++ (line ++ post)) with
  | none => rfl
  | some result =>
    exfalso
    have h1 := parse_user_data_some _ _ hp
    have hreach : ∃ f2 m2 l2, parse_loop f2 (line ++ post) m2 l2 = some (some result) := by
      rcases hpre with hnil | ⟨hlast, hderef⟩
      · subst hnil
        exact ⟨_, _, _, h1⟩
      · exact parse_loop_reach pre.length pre (line ++ post) _ _ _ result (le_refl _) hpre0
          (Or.inr hlast) hderef h1
    obtain ⟨f2, m2, l2, h2⟩ := hreach
    obtain ⟨e, he, hv, _⟩ := parse_loop_line f2 line post m2 l2 result hline hpost h2
    apply hbad
    apply parse_line_well_formed line e he _ (fun c hc => (hline c hc).1)
    unfold extent_valid at hv
    omega

/-- C14, as amended. Malformed lines are rejected: take an input that passes
the checks made before parsing and a line of it that comes before any NUL
byte: the line is at the start of the text, or follows a newline and is not
the empty rest of the string after a final newline, and it ends at a newline
or at the end of the string. If the line does not have the form optional
white space, digits, white space, digits, white space, digits, optional white
space, then `map_write` returns `-EINVAL` and the table stays as it was,
empty. -/
theorem map_write_rejects_malformed {NS : Type} (ns_capable : NS → Nat → Bool)
    (parent_of : NS → NS) (page_ok copy_ok : Bool) (ns : NS) (buf : List Nat) (ppos : Int)
    (cap_setid : Nat) (map parent_map : uid_gid_map) (pre line post : List Nat)
    (hmap : map.nr_extents = 0) (hcap : ns_capable ns cap_setid = true)
    (hpage : page_ok = true) (hpos : ppos = 0) (hsize : buf.length < PAGE_SIZE)
    (hcopy : copy_ok = true) (hbuf : buf = pre ++ (line ++ post))
    (hpre : pre = [] ∨ (pre.getLast? = some 10 ∧ deref (line ++ post) ≠ 0))
    (hpre0 : ∀ c, c ∈ pre → c ≠ 0)
    (hline : ∀ c, c ∈ line → c ≠ 0 ∧ c ≠ 10) (hpost : deref post = 0 ∨ deref post = 10)
    (hbad : ¬ well_formed_line line) :
    map_write ns_capable parent_of page_ok copy_ok ns buf ppos cap_setid map parent_map =
      ⟨-EINVAL, map, ppos⟩ := by
  apply map_write_parse_none ns_capable parent_of page_ok copy_ok ns buf ppos cap_setid map
    parent_map hmap hcap hpage hpos hsize hcopy
  rw [hbuf]
  exact parse_user_data_malformed pre line post hpre hpre0 hline hpost hbad

/-- Witness of C14 as amended: the empty input, a line with two numbers, a
line with four numbers, a line with a character that is not a digit, and an
empty line between two records are rejected with `-EINVAL`. -/
theorem map_write_rejects_malformed_witness :
    (¬ well_formed_line [] ∧
      map_write all_capable unit_parent true true () [] 0 7 empty_table two_extent_table =
        ⟨-EINVAL, empty_table, 0⟩) ∧
    (¬ well_formed_line (bytes "0 2") ∧
      map_write all_capable unit_parent true true () (bytes "0 2\n") 0 7 empty_table
        two_extent_table = ⟨-EINVAL, empty_table, 0⟩) ∧
    (¬ well_formed_line (bytes "0 2 3 4") ∧
      map_write all_capable unit_parent true true () (bytes "0 2 3 4\n") 0 7 empty_table
        two_extent_table = ⟨-EINVAL, empty_table, 0⟩) ∧
    (¬ well_formed_line (bytes "0 2 x") ∧
      map_write all_capable unit_parent true true () (bytes "0 2 x\n") 0 7 empty_table
        two_extent_table = ⟨-EINVAL, empty_table, 0⟩) ∧
    (¬ well_formed_line [] ∧
      map_write all_capable unit_parent true true () (bytes "0 2 3\n\n10 5 5\n") 0 7
        empty_table two_extent_table = ⟨-EINVAL, empty_table, 0⟩) := by
  have hnil : ¬ well_formed_line [] := fun h => (well_formed_line_chars [] h).1 rfl
  have h2 : ¬ well_formed_line (bytes "0 2") := fun h => by
    obtain ⟨e, he⟩ := well_formed_line_parses _ h
    have hnone : parse_line (bytes "0 2") = none := by decide
    rw [hnone] at he
    simp at he
  have h4 : ¬ well_formed_line (bytes "0 2 3 4") := fun h => by
    obtain ⟨e, he⟩ := well_formed_line_parses _ h
    have hnone : parse_line (bytes "0 2 3 4") = none := by decide
    rw [hnone] at he
    simp at he
  have hx : ¬ well_formed_line (bytes "0 2 x") := fun h => by
    obtain ⟨e, he⟩ := well_formed_line_parses _ h
    have hnone : parse_line (bytes "0 2 x") = none := by decide
    rw [hnone] at he
    simp at he
  exact ⟨⟨hnil,
      map_write_rejects_malformed all_capable unit_parent true true () [] 0 7 empty_table
        two_extent_table [] [] [] rfl rfl rfl rfl (by decide) rfl rfl (Or.inl rfl)
        (by decide) (by decide) (by decide) hnil⟩,
    ⟨h2,
      map_write_rejects_malformed all_capable unit_parent true true () (bytes "0 2\n") 0 7
        empty_table two_extent_table [] (bytes "0 2") [10] rfl rfl rfl rfl (by decide) rfl
        (by decide) (Or.inl rfl) (by decide) (by decide) (by decide) h2⟩,
    ⟨h4,
      map_write_rejects_malformed all_capable unit_parent true true () (bytes "0 2 3 4\n") 0 7
        empty_table two_extent_table [] (bytes "0 2 3 4") [10] rfl rfl rfl rfl (by decide) rfl
        (by decide) (Or.inl rfl) (by decide) (by decide) (by decide) h4⟩,
    ⟨hx,
      map_write_rejects_malformed all_capable unit_parent true true () (bytes "0 2 x\n") 0 7
        empty_table two_extent_table [] (bytes "0 2 x") [10] rfl rfl rfl rfl (by decide) rfl
        (by decide) (Or.inl rfl) (by decide) (by decide) (by decide) hx⟩,
    ⟨hnil,
      map_write_rejects_malformed all_capable unit_parent true true ()
        (bytes "0 2 3\n\n10 5 5\n") 0 7 empty_table two_extent_table (bytes "0 2 3\n") []
        (bytes "\n10 5 5\n") rfl rfl rfl rfl (by decide) rfl (by decide)
        (Or.inr ⟨by decide, by decide⟩) (by decide) (by decide) (by decide) hnil⟩⟩

/-- Counterexample to C14 as stated: the input `0 2 3`, NUL, `junk` has no
newline, so it is one line, and that line does not have the form of the
specification; `map_write` accepts it, returns its `10` bytes and installs one
extent. -/
theorem map_write_rejects_malformed_counterexample :
    ¬ well_formed_line nul_input ∧
    (map_write all_capable unit_parent true true () nul_input 0 7 empty_table
      two_extent_table).ret = 10 ∧
    (map_write all_capable unit_parent true true () nul_input 0 7 empty_table
      two_extent_table).ret ≠ -EINVAL ∧
    (map_write all_capable unit_parent true true () nul_input 0 7 empty_table
      two_extent_table).map.nr_extents = 1 := by
  refine ⟨?_, by decide, by decide, by decide⟩
  intro h
  have hc := (well_formed_line_chars nul_input h).2 0 (by decide)
  revert hc
  decide

/-! ## White space at the end of the text -/

theorem isspace_ne_zero (c : Nat) (h : isspace c = true) : c ≠ 0 := by
  intro hx
  subst hx
  simp [isspace_zero] at h

/-- A line of white space holds no record. -/
theorem parse_line_spaces (l : List Nat) (h : ∀ c, c ∈ l → isspace c = true) :
    parse_line l = none := by
  unfold parse_line
  simp [skip_spaces_all l h, simple_strtoul_nil, deref, isspace_zero]

/-- The string that `parse_line` is given is made of characters under the
cursor. -/
theorem find_end_of_line_mem :
    ∀ (pos : List Nat) (c : Nat), c ∈ (find_end_of_line pos).1 → c ∈ pos := by
  intro pos
  induction pos with
  | nil =>
    intro c hc
    simp [find_end_of_line] at hc
  | cons d ds ih =>
    intro c hc
    rw [find_end_of_line] at hc
    by_cases h10 : d = 10
    · simp [h10] at hc
    · by_cases h0 : d = 0
      · simp [h10, h0] at hc
      · simp only [h10, h0, if_false, List.mem_cons] at hc
        rcases hc with h | h
        · rw [h]
          exact List.mem_cons_self d ds
        · exact List.mem_cons_of_mem d (ih c h)

/-- When the parsing loop ends with a table, the line under the cursor was
read. -/
theorem parse_loop_first_line (fuel : Nat) (pos : List Nat) (new_map : uid_gid_map)
    (last : Option uid_gid_extent) (result : uid_gid_map)
    (h : parse_loop fuel pos new_map last = some (some result)) :
    ∃ e, parse_line (find_end_of_line pos).1 = some e := by
  cases fuel with
  | zero => simp [parse_loop] at h
  | succ n =>
    rw [parse_loop] at h
    split at h
    · simp at h
    · rename_i counted e hit
      exact ⟨e, (parse_iteration_some _ _ _ _ _ _ hit).1⟩
    · rename_i counted e next hit
      exact ⟨e, (parse_iteration_some _ _ _ _ _ _ hit).1⟩

/-- White space after a final newline is read as a further line, and the
batch is not parsed. -/
theorem parse_user_data_blank_line (t ws : List Nat) (h0 : ∀ c, c ∈ t → c ≠ 0)
    (hlast : t.getLast? = some 10) (hws : ∀ c, c ∈ ws → isspace c = true) (hne : ws ≠ []) :
    parse_user_data (t ++ ws) = none := by
  cases hp : parse_user_data (t ++ ws) with
  | none => rfl
  | some result =>
    exfalso
    have h1 := parse_user_data_some _ _ hp
    have hderef : deref ws ≠ 0 := by
      cases ws with
      | nil => exact absurd rfl hne
      | cons c cs => exact isspace_ne_zero c (hws c (List.mem_cons_self c cs))
    obtain ⟨f2, m2, l2, h2⟩ := parse_loop_reach t.length t ws _ _ _ result (le_refl _) h0
      (Or.inr hlast) hderef h1
    obtain ⟨e, he⟩ := parse_loop_first_line f2 ws m2 l2 result h2
    rw [parse_line_spaces _ (fun c hc => hws c (find_end_of_line_mem ws c hc))] at he
    simp at he

/-- White space other than newlines, with or without one final newline, added
to a text that does not end with a newline does not change the table that the
parsing loop ends with. -/
theorem parse_loop_trailing (ws tail : List Nat)
    (hws : ∀ c, c ∈ ws → isspace c = true ∧ c ≠ 10) (htail : tail = [] ∨ tail = [10]) :
    ∀ (n : Nat) (pos : List Nat) (fuel : Nat) (new_map : uid_gid_map)
      (last : Option uid_gid_extent) (result : uid_gid_map),
      pos.length ≤ n → (∀ c, c ∈ pos → c ≠ 0) → pos ≠ [] → pos.getLast? ≠ some 10 →
      parse_loop fuel pos new_map last = some (some result) →
      ∃ fuel2, parse_loop fuel2 (pos ++ (ws ++ tail)) new_map last = some (some result) := by
  have hend : is_end tail := by
    rcases htail with h | h
    · subst h
      exact Or.inl rfl
    · subst h
      exact Or.inr ⟨rfl, rfl⟩
  intro n
  induction n with
  | zero =>
    intro pos fuel new_map last result hlen _ hne _ _
    exact absurd (List.length_eq_zero.mp (by omega)) hne
  | succ n ih =>
    intro pos fuel new_map last result hlen h0 hne hlast h
    by_cases h10 : 10 ∈ pos
    · obtain ⟨line, rest, hsplit, hnot⟩ := List.eq_append_cons_of_mem h10
      subst hsplit
      have hline : ∀ c, c ∈ line → c ≠ 0 ∧ c ≠ 10 := by
        intro c hc
        refine ⟨h0 c (List.mem_append_left _ hc), ?_⟩
        intro hc10
        subst hc10
        exact hnot hc
      have h0r : ∀ c, c ∈ rest → c ≠ 0 := fun c hc =>
        h0 c (List.mem_append_right _ (List.mem_cons_of_mem _ hc))
      have hrne : rest ≠ [] := by
        intro hx
        subst hx
        apply hlast
        simp
      have hrlast : rest.getLast? ≠ some 10 := by
        intro hx
        apply hlast
        cases rest with
        | nil => exact absurd rfl hrne
        | cons d ds => simpa using hx
      have hderef : deref rest ≠ 0 := by
        cases rest with
        | nil => exact absurd rfl hrne
        | cons d ds => exact h0r d (List.mem_cons_self d ds)
      obtain ⟨fuel2, e, hp, hv, ho, hmax, hgo⟩ :=
        parse_loop_next_state fuel line rest new_map last result hline hderef h
      have hlen2 : rest.length ≤ n := by
        simp only [List.length_append, List.length_cons] at hlen
        omega
      obtain ⟨fuel3, hgo3⟩ := ih rest fuel2 _ (some e) result hlen2 h0r hrne hrlast hgo
      have hderef2 : deref (rest ++ (ws ++ tail)) ≠ 0 := by
        rw [deref_append rest _ hrne]
        exact hderef
      have heol := find_end_of_line_newline line (rest ++ (ws ++ tail)) hline
      simp only [hderef2, if_false] at heol
      have hit := parse_iteration_accepts (line ++ 10 :: (rest ++ (ws ++ tail))) new_map last e
        (by rw [heol]; exact hp) hv ho (fun hx => hmax hx.1)
      rw [heol] at hit
      refine ⟨fuel3 + 1, ?_⟩
      rw [List.append_assoc, List.cons_append, parse_loop, hit]
      exact hgo3
    · have hline : ∀ c, c ∈ pos → c ≠ 0 ∧ c ≠ 10 := by
        intro c hc
        refine ⟨h0 c hc, ?_⟩
        intro hc10
        subst hc10
        exact h10 hc
      have h2 : parse_loop fuel (pos ++ []) new_map last = some (some result) := by
        rw [List.append_nil]
        exact h
      obtain ⟨e, hp, hv, ho, hres⟩ :=
        parse_loop_last fuel pos [] new_map last result hline (Or.inl rfl) h2
      have hline2 : ∀ c, c ∈ pos ++ ws → c ≠ 0 ∧ c ≠ 10 := by
        intro c hc
        rcases List.mem_append.mp hc with hc1 | hc1
        · exact hline c hc1
        · exact ⟨isspace_ne_zero c (hws c hc1).1, (hws c hc1).2⟩
      have heol := find_end_of_line_end (pos ++ ws) tail hline2 hend
      have hp2 := parse_line_append_space pos ws e hp (fun c hc => (hws c hc).1)
      have hit := parse_iteration_accepts ((pos ++ ws) ++ tail) new_map last e
        (by rw [heol]; exact hp2) hv ho (by rw [heol]; simp)
      rw [heol] at hit
      refine ⟨1, ?_⟩
      rw [← List.append_assoc, parse_loop, hit, hres]

/-- White space other than newlines, with or without one final newline, added
to a text without NUL that does not end with a newline does not change what
`parse_user_data` gives when it gives a table. -/
theorem parse_user_data_trailing (t ws tail : List Nat) (parsed : uid_gid_map)
    (hws : ∀ c, c ∈ ws → isspace c = true ∧ c ≠ 10) (htail : tail = [] ∨ tail = [10])
    (h0 : ∀ c, c ∈ t → c ≠ 0) (hlast : t.getLast? ≠ some 10)
    (h : parse_user_data t = some parsed) :
    parse_user_data (t ++ (ws ++ tail)) = some parsed := by
  have hne : t ≠ [] := by
    intro hx
    subst hx
    have hnil : parse_user_data [] = none := by decide
    rw [hnil] at h
    simp at h
  obtain ⟨fuel2, h2⟩ := parse_loop_trailing ws tail hws htail t.length t _ _ _ parsed
    (le_refl _) h0 hne hlast (parse_user_data_some t parsed h)
  have h3 := parse_loop_mono fuel2 _ _ _ _ ((t ++ (ws ++ tail)).length + 1) h2
  have h4 := parse_loop_mono _ _ _ _ _ fuel2 (parse_user_data_eq (t ++ (ws ++ tail)))
  rw [Nat.add_comm] at h4
  rw [h3] at h4
  simp only [Option.some.injEq] at h4
  exact h4.symm

/-- One iteration of the parsing loop reads the buffer only through the line
that `find_end_of_line` cuts and through `next_line`: two cursors with the same
line and no next line give the same iteration. -/
theorem parse_iteration_congr (pos pos2 : List Nat) (new_map : uid_gid_map)
    (last : Option uid_gid_extent)
    (h1 : (find_end_of_line pos).1 = (find_end_of_line pos2).1)
    (h2 : (find_end_of_line pos).2 = (find_end_of_line pos2).2) :
    parse_iteration pos new_map last = parse_iteration pos2 new_map last := by
  unfold parse_iteration
  simp only [h1, h2]

/-- Two cursors with the same line and each with a next line give the same
iteration, up to the next line. -/
theorem parse_iteration_next (pos pos2 : List Nat) (new_map : uid_gid_map)
    (last : Option uid_gid_extent) (a b : List Nat)
    (h1 : (find_end_of_line pos).1 = (find_end_of_line pos2).1)
    (ha : (find_end_of_line pos).2 = some a) (hb : (find_end_of_line pos2).2 = some b) :
    (parse_iteration pos new_map last = none ∧ parse_iteration pos2 new_map last = none) ∨
    ∃ counted e, parse_iteration pos new_map last = some (counted, e, some a) ∧
      parse_iteration pos2 new_map last = some (counted, e, some b) := by
  unfold parse_iteration
  simp only [h1, ha, hb]
  cases parse_line (find_end_of_line pos2).1 with
  | none => exact Or.inl ⟨rfl, rfl⟩
  | some e =>
    simp only [Option.isSome_some, and_true]
    split_ifs
    all_goals first
      | exact Or.inl ⟨rfl, rfl⟩
      | exact Or.inr ⟨_, _, rfl, rfl⟩

/-- The parsing loop does not read past a NUL byte: what follows the first NUL
byte of the buffer does not change what the loop ends with. -/
theorem parse_loop_nul (x y : List Nat) :
    ∀ (fuel : Nat) (pre : List Nat) (new_map : uid_gid_map) (last : Option uid_gid_extent),
      (∀ c, c ∈ pre → c ≠ 0) →
      parse_loop fuel (pre ++ 0 :: x) new_map last =
        parse_loop fuel (pre ++ 0 :: y) new_map last := by
  intro fuel
  induction fuel with
  | zero =>
    intro pre new_map last _
    rfl
  | succ n ih =>
    intro pre new_map last h0
    rw [parse_loop, parse_loop]
    by_cases h10 : 10 ∈ pre
    · obtain ⟨line, rest, hsplit, hnot⟩ := List.eq_append_cons_of_mem h10
      subst hsplit
      have hline : ∀ c, c ∈ line → c ≠ 0 ∧ c ≠ 10 := by
        intro c hc
        refine ⟨h0 c (List.mem_append_left _ hc), ?_⟩
        intro hc10
        subst hc10
        exact hnot hc
      have h0r : ∀ c, c ∈ rest → c ≠ 0 := fun c hc =>
        h0 c (List.mem_append_right _ (List.mem_cons_of_mem _ hc))
      have ex := find_end_of_line_newline line (rest ++ 0 :: x) hline
      have ey := find_end_of_line_newline line (rest ++ 0 :: y) hline
      rw [List.append_assoc, List.cons_append, List.append_assoc, List.cons_append]
      cases rest with
      | nil =>
        have hx : deref ([] ++ 0 :: x) = 0 := rfl
        have hy : deref ([] ++ 0 :: y) = 0 := rfl
        simp only [hx, if_true] at ex
        simp only [hy, if_true] at ey
        rw [parse_iteration_congr (line ++ 10 :: ([] ++ 0 :: x)) (line ++ 10 :: ([] ++ 0 :: y))
          new_map last (by rw [ex, ey]) (by rw [ex, ey])]
      | cons d ds =>
        have hd : d ≠ 0 := h0r d (List.mem_cons_self d ds)
        have hx : deref (d :: ds ++ 0 :: x) = d := rfl
        have hy : deref (d :: ds ++ 0 :: y) = d := rfl
        simp only [hx, hd, if_false] at ex
        simp only [hy, hd, if_false] at ey
        rcases parse_iteration_next (line ++ 10 :: (d :: ds ++ 0 :: x))
            (line ++ 10 :: (d :: ds ++ 0 :: y)) new_map last _ _ (by rw [ex, ey])
            (by rw [ex]) (by rw [ey]) with ⟨e1, e2⟩ | ⟨counted, e, e1, e2⟩
        · rw [e1, e2]
        · rw [e1, e2]
          exact ih (d :: ds) counted (some e) h0r
    · have hline : ∀ c, c ∈ pre → c ≠ 0 ∧ c ≠ 10 := by
        intro c hc
        refine ⟨h0 c hc, ?_⟩
        intro hc10
        subst hc10
        exact h10 hc
      have ex := find_end_of_line_end pre (0 :: x) hline (Or.inl rfl)
      have ey := find_end_of_line_end pre (0 :: y) hline (Or.inl rfl)
      rw [parse_iteration_congr (pre ++ 0 :: x) (pre ++ 0 :: y) new_map last (by rw [ex, ey])
        (by rw [ex, ey])]

/-- What follows the first NUL byte of the buffer does not change what
`parse_user_data` gives. -/
theorem parse_user_data_nul (pre x y : List Nat) (h0 : ∀ c, c ∈ pre → c ≠ 0) :
    parse_user_data (pre ++ 0 :: x) = parse_user_data (pre ++ 0 :: y) := by
  have hx := parse_loop_mono _ _ _ _ _ ((pre ++ 0 :: y).length + 1)
    (parse_user_data_eq (pre ++ 0 :: x))
  have hy := parse_loop_mono _ _ _ _ _ ((pre ++ 0 :: x).length + 1)
    (parse_user_data_eq (pre ++ 0 :: y))
  rw [Nat.add_comm ((pre ++ 0 :: y).length + 1)] at hy
  rw [parse_loop_nul x y _ pre _ _ h0, hy] at hx
  exact (Option.some.inj hx).symm

/-- Bytes added to a text that holds a NUL byte do not change what
`parse_user_data` gives. -/
theorem parse_user_data_after_nul (t ws : List Nat) (h : 0 ∈ t) :
    parse_user_data (t ++ ws) = parse_user_data t := by
  obtain ⟨pre, x, hsplit, hnot⟩ := List.eq_append_cons_of_mem h
  subst hsplit
  have h0 : ∀ c, c ∈ pre → c ≠ 0 := by
    intro c hc hc0
    subst hc0
    exact hnot hc
  rw [List.append_assoc, List.cons_append]
  exact parse_user_data_nul pre (x ++ ws) x h0

/-- A text that `parse_user_data` reads as it reads an accepted text, and that
is shorter than one page, is accepted and installs the same extents. -/
theorem map_write_same_parse {NS : Type} (ns_capable : NS → Nat → Bool)
    (parent_of : NS → NS) (page_ok copy_ok : Bool) (ns : NS) (t t2 : List Nat) (ppos : Int)
    (cap_setid : Nat) (map parent_map : uid_gid_map)
    (hacc : 0 ≤ (map_write ns_capable parent_of page_ok copy_ok ns t ppos cap_setid map
      parent_map).ret)
    (hparse : parse_user_data t2 = parse_user_data t) (hsize : t2.length < PAGE_SIZE) :
    (map_write ns_capable parent_of page_ok copy_ok ns t2 ppos cap_setid map
      parent_map).ret = t2.length ∧
    (map_write ns_capable parent_of page_ok copy_ok ns t2 ppos cap_setid map parent_map).map =
      (map_write ns_capable parent_of page_ok copy_ok ns t ppos cap_setid map
        parent_map).map := by
  obtain ⟨hmap, hcap, hpage, hpos, _, hcopy, parsed, mapped, hp, hpcap, hm, hw⟩ :=
    map_write_success ns_capable parent_of page_ok copy_ok ns t ppos cap_setid map parent_map
      hacc
  have hmw := map_write_parsed ns_capable parent_of page_ok copy_ok ns t2 ppos cap_setid map
    parent_map parsed hmap hcap hpage hpos hsize hcopy (by rw [hparse]; exact hp)
  simp only [hpcap, if_true, hm] at hmw
  rw [hmw, hw]
  exact ⟨rfl, rfl⟩

/-- C15, as amended. White space at the end of the last line is ignored: for
an input text `t` that `map_write` accepts and that does not end with a
newline, `t` followed by white space other than newlines, and then by one
final newline or by nothing, is accepted when it is shorter than one page, and
the same extents are installed. For an accepted text `t` that holds a NUL
byte, `t` followed by any white space, newlines included, is accepted when it
is shorter than one page, and the same extents are installed. White space
after a final newline is not ignored: when `t` holds no NUL byte and ends with
a newline, `t` followed by white space that is not empty is rejected with
`-EINVAL`. -/
theorem map_write_trailing_space {NS : Type} (ns_capable : NS → Nat → Bool)
    (parent_of : NS → NS) (page_ok copy_ok : Bool) (ns : NS) (t : List Nat) (ppos : Int)
    (cap_setid : Nat) (map parent_map : uid_gid_map) (ws : List Nat)
    (hacc : 0 ≤ (map_write ns_capable parent_of page_ok copy_ok ns t ppos cap_setid map
      parent_map).ret) :
    (t.getLast? ≠ some 10 → (∀ c, c ∈ ws → isspace c = true ∧ c ≠ 10) →
      ∀ tail, tail = [] ∨ tail = [10] → (t ++ (ws ++ tail)).length < PAGE_SIZE →
      (map_write ns_capable parent_of page_ok copy_ok ns (t ++ (ws ++ tail)) ppos cap_setid map
        parent_map).ret = (t ++ (ws ++ tail)).length ∧
      (map_write ns_capable parent_of page_ok copy_ok ns (t ++ (ws ++ tail)) ppos cap_setid map
        parent_map).map =
        (map_write ns_capable parent_of page_ok copy_ok ns t ppos cap_setid map
          parent_map).map) ∧
    (0 ∈ t → (∀ c, c ∈ ws → isspace c = true) → (t ++ ws).length < PAGE_SIZE →
      (map_write ns_capable parent_of page_ok copy_ok ns (t ++ ws) ppos cap_setid map
        parent_map).ret = (t ++ ws).length ∧
      (map_write ns_capable parent_of page_ok copy_ok ns (t ++ ws) ppos cap_setid map
        parent_map).map =
        (map_write ns_capable parent_of page_ok copy_ok ns t ppos cap_setid map
          parent_map).map) ∧
    ((∀ c, c ∈ t → c ≠ 0) → t.getLast? = some 10 → ws ≠ [] →
      (∀ c, c ∈ ws → isspace c = true) → (t ++ ws).length < PAGE_SIZE →
      map_write ns_capable parent_of page_ok copy_ok ns (t ++ ws) ppos cap_setid map
        parent_map = ⟨-EINVAL, map, ppos⟩) := by
  obtain ⟨hmap, hcap, hpage, hpos, _, hcopy, parsed, mapped, hp, hpcap, hm, hw⟩ :=
    map_write_success ns_capable parent_of page_ok copy_ok ns t ppos cap_setid map parent_map
      hacc
  refine ⟨?_, ?_, ?_⟩
  · intro hlast hws tail htail hsize
    apply map_write_same_parse ns_capable parent_of page_ok copy_ok ns t _ ppos cap_setid map
      parent_map hacc _ hsize
    by_cases hnul : 0 ∈ t
    · exact parse_user_data_after_nul t (ws ++ tail) hnul
    · have h0 : ∀ c, c ∈ t → c ≠ 0 := by
        intro c hc hc0
        subst hc0
        exact hnul hc
      rw [hp]
      exact parse_user_data_trailing t ws tail parsed hws htail h0 hlast hp
  · intro hnul _ hsize
    exact map_write_same_parse ns_capable parent_of page_ok copy_ok ns t _ ppos cap_setid map
      parent_map hacc (parse_user_data_after_nul t ws hnul) hsize
  · intro h0 hlast hne hws hsize
    exact map_write_parse_none ns_capable parent_of page_ok copy_ok ns (t ++ ws) ppos cap_setid
      map parent_map hmap hcap hpage hpos hsize hcopy
      (parse_user_data_blank_line t ws h0 hlast hws hne)

/-- Witness of C15 as amended: `0 2 3` followed by two blanks and a newline
installs what `0 2 3` installs; `0 2 3`, a NUL byte and `junk` followed by two
newlines installs what it installs without them; `0 2 3\n` followed by a
newline is rejected. -/
theorem map_write_trailing_space_witness :
    (0 ≤ (map_write all_capable unit_parent true true () (bytes "0 2 3") 0 7 empty_table
        two_extent_table).ret ∧
      (map_write all_capable unit_parent true true () (bytes "0 2 3" ++ (bytes "  " ++ [10])) 0
        7 empty_table two_extent_table).ret = (bytes "0 2 3" ++ (bytes "  " ++ [10])).length ∧
      (map_write all_capable unit_parent true true () (bytes "0 2 3" ++ (bytes "  " ++ [10])) 0
        7 empty_table two_extent_table).map =
        (map_write all_capable unit_parent true true () (bytes "0 2 3") 0 7 empty_table
          two_extent_table).map) ∧
    (0 ≤ (map_write all_capable unit_parent true true () nul_input 0 7 empty_table
        two_extent_table).ret ∧
      (map_write all_capable unit_parent true true () (nul_input ++ bytes "\n\n") 0 7
        empty_table two_extent_table).ret = (nul_input ++ bytes "\n\n").length ∧
      (map_write all_capable unit_parent true true () (nul_input ++ bytes "\n\n") 0 7
        empty_table two_extent_table).map =
        (map_write all_capable unit_parent true true () nul_input 0 7 empty_table
          two_extent_table).map) ∧
    (0 ≤ (map_write all_capable unit_parent true true () (bytes "0 2 3\n") 0 7 empty_table
        two_extent_table).ret ∧
      map_write all_capable unit_parent true true () (bytes "0 2 3\n" ++ bytes "\n") 0 7
        empty_table two_extent_table = ⟨-EINVAL, empty_table, 0⟩) :=
  ⟨⟨by decide,
      (map_write_trailing_space all_capable unit_parent true true () (bytes "0 2 3") 0 7
        empty_table two_extent_table (bytes "  ") (by decide)).1 (by decide)
        (by decide) [10] (Or.inr rfl) (by decide)⟩,
    ⟨by decide,
      (map_write_trailing_space all_capable unit_parent true true () nul_input 0 7
        empty_table two_extent_table (bytes "\n\n") (by decide)).2.1 (by decide)
        (by decide) (by decide)⟩,
    ⟨by decide,
      (map_write_trailing_space all_capable unit_parent true true () (bytes "0 2 3\n") 0 7
        empty_table two_extent_table (bytes "\n") (by decide)).2.2 (by decide) (by decide)
        (by decide) (by decide) (by decide)⟩⟩

/-- Counterexample to C15 as stated: `map_write` accepts the text `0 2 3\n`,
and rejects with `-EINVAL` that text followed by a newline and that text
followed by two blanks. -/
theorem map_write_trailing_space_counterexample :
    0 ≤ (map_write all_capable unit_parent true true () (bytes "0 2 3\n") 0 7 empty_table
      two_extent_table).ret ∧
    (map_write all_capable unit_parent true true () (bytes "0 2 3\n\n") 0 7 empty_table
      two_extent_table).ret = -EINVAL ∧
    (map_write all_capable unit_parent true true () (bytes "0 2 3\n  ") 0 7 empty_table
      two_extent_table).ret = -EINVAL := by
  decide

/-! ## The value `(u32) -1` and the translations -/

/-- C26. The failure sentinel is never a legitimate translation: on a table in
which every extent in use has `count >= 1`, `first + count <= 2 ^ 32 - 1` and
`lower_first + count <= 2 ^ 32 - 1`, `map_id_down` returns `(u32) -1` exactly
when no extent holds the id in its upper range, `map_id_up` returns `(u32) -1`
exactly when no extent holds the id in its lower range, and the id `(u32) -1`
itself lies in no range and translates to `(u32) -1` in both directions. -/
theorem sentinel_not_translation (map : uid_gid_map)
    (hv : ∀ i, i < map.nr_extents → extent_valid (extent_at map i)) (id : Nat) :
    (map_id_down map id = 4294967295 ↔
      ¬ ∃ i, i < map.nr_extents ∧ (extent_at map i).first ≤ id ∧
        id < (extent_at map i).first + (extent_at map i).count) ∧
    (map_id_up map id = 4294967295 ↔
      ¬ ∃ i, i < map.nr_extents ∧ (extent_at map i).lower_first ≤ id ∧
        id < (extent_at map i).lower_first + (extent_at map i).count) ∧
    (¬ ∃ i, i < map.nr_extents ∧
      (((extent_at map i).first ≤ 4294967295 ∧
          4294967295 < (extent_at map i).first + (extent_at map i).count) ∨
        ((extent_at map i).lower_first ≤ 4294967295 ∧
          4294967295 < (extent_at map i).lower_first + (extent_at map i).count))) ∧
    map_id_down map 4294967295 = 4294967295 ∧ map_id_up map 4294967295 = 4294967295 := by
  have hdown : ∀ x, map_id_down map x = 4294967295 ↔
      ¬ ∃ i, i < map.nr_extents ∧ (extent_at map i).first ≤ x ∧
        x < (extent_at map i).first + (extent_at map i).count := by
    intro x
    rcases map_id_down_cases map x with ⟨k, hk, hhit, _, hres⟩ | ⟨hnone, hres⟩
    · obtain ⟨hc, hf, hl⟩ := hv k hk
      rw [u32_last _ _ hc hf] at hhit
      have hoff := u32_offset x (extent_at map k).first (extent_at map k).lower_first hhit.1
        (by omega)
      constructor
      · intro h
        rw [hres, hoff] at h
        omega
      · intro h
        exact absurd ⟨k, hk, hhit.1, by omega⟩ h
    · constructor
      · rintro _ ⟨i, hi, h1, h2⟩
        obtain ⟨hc, hf, hl⟩ := hv i hi
        apply hnone i hi
        rw [u32_last _ _ hc hf]
        omega
      · intro _
        exact hres
  have hup : ∀ x, map_id_up map x = 4294967295 ↔
      ¬ ∃ i, i < map.nr_extents ∧ (extent_at map i).lower_first ≤ x ∧
        x < (extent_at map i).lower_first + (extent_at map i).count := by
    intro x
    rcases map_id_up_cases map x with ⟨k, hk, hhit, _, hres⟩ | ⟨hnone, hres⟩
    · obtain ⟨hc, hf, hl⟩ := hv k hk
      rw [u32_last _ _ hc hl] at hhit
      have hoff := u32_offset x (extent_at map k).lower_first (extent_at map k).first hhit.1
        (by omega)
      constructor
      · intro h
        rw [hres, hoff] at h
        omega
      · intro h
        exact absurd ⟨k, hk, hhit.1, by omega⟩ h
    · constructor
      · rintro _ ⟨i, hi, h1, h2⟩
        obtain ⟨hc, hf, hl⟩ := hv i hi
        apply hnone i hi
        rw [u32_last _ _ hc hl]
        omega
      · intro _
        exact hres
  refine ⟨hdown id, hup id, ?_, (hdown 4294967295).2 ?_, (hup 4294967295).2 ?_⟩
  · rintro ⟨i, hi, h | h⟩
    · obtain ⟨hc, hf, hl⟩ := hv i hi
      omega
    · obtain ⟨hc, hf, hl⟩ := hv i hi
      omega
  · rintro ⟨i, hi, _, h⟩
    obtain ⟨hc, hf, hl⟩ := hv i hi
    omega
  · rintro ⟨i, hi, _, h⟩
    obtain ⟨hc, hf, hl⟩ := hv i hi
    omega

/-- Witness of C26: with the extents `0 100 5` and `5 200 5` the id `3` lies
in the first upper range and `map_id_down` does not return `(u32) -1`; the id
`3` lies in no lower range and `map_id_up` returns `(u32) -1`. -/
theorem sentinel_not_translation_witness :
    (∀ i, i < two_extent_table.nr_extents → extent_valid (extent_at two_extent_table i)) ∧
    map_id_down two_extent_table 3 = 103 ∧
    (map_id_up two_extent_table 3 = 4294967295 ↔
      ¬ ∃ i, i < two_extent_table.nr_extents ∧ (extent_at two_extent_table i).lower_first ≤ 3 ∧
        3 < (extent_at two_extent_table i).lower_first + (extent_at two_extent_table i).count) ∧
    map_id_up two_extent_table 3 = 4294967295 :=
  ⟨by decide, by decide,
    (sentinel_not_translation two_extent_table (by decide) 3).2.1, by decide⟩

/-! ## Blocks of ids -/

/-- C24, the claim as it is written fails at a block that wraps: with the
extents `0 100 5` and `5 200 5`, which satisfy the Extent Table invariant,
the block of `2 ^ 32 - 1` ids from `3` on has `id2 = 1` after the wrap, so
`map_id_range_down` finds both ends in the first extent and returns `103`,
although the id `100` of the block lies in no extent. -/
theorem map_id_range_down_wrap_counterexample :
    extent_table_inv two_extent_table ∧
    u32_sub (u32_add 3 4294967295) 1 = 1 ∧
    map_id_range_down two_extent_table 3 4294967295 = 103 ∧
    map_id_range_down two_extent_table 3 4294967295 ≠ 4294967295 ∧
    ¬ ∃ i, i < two_extent_table.nr_extents ∧
      ∀ k, 3 ≤ k → k < 3 + 4294967295 →
        (extent_at two_extent_table i).first ≤ k ∧
        k < (extent_at two_extent_table i).first + (extent_at two_extent_table i).count := by
  refine ⟨by decide, by decide, by decide, by decide, ?_⟩
  rintro ⟨i, hi, h⟩
  have h100 := h 100 (by omega) (by omega)
  have hi2 : i = 0 ∨ i = 1 := by
    have : i < 2 := hi
    omega
  rcases hi2 with rfl | rfl
  · exact absurd h100.2 (by decide)
  · exact absurd h100.2 (by decide)

/-- C24 as amended. Block containment for the blocks that do not wrap: on a
table that satisfies the Extent Table invariant, for every `id` and `count`
with `id + count <= 2 ^ 32`, the empty block `count = 0` included,
`map_id_range_down` returns a value other than `(u32) -1` only if one extent
of the table holds every id `id, id + 1, ..., id + count - 1` of the block. -/
theorem map_id_range_down_contained (map : uid_gid_map) (hinv : extent_table_inv map)
    (id count : Nat) (hw : id + count ≤ 4294967296)
    (h : map_id_range_down map id count ≠ 4294967295) :
    ∃ i, i < map.nr_extents ∧
      ∀ k, id ≤ k → k < id + count →
        (extent_at map i).first ≤ k ∧
        k < (extent_at map i).first + (extent_at map i).count := by
  rcases map_id_range_down_cases map id count with ⟨i, hi, hhit, _, _⟩ | ⟨_, hres⟩
  · refine ⟨i, hi, ?_⟩
    intro k hk1 hk2
    have hb := hinv.1 i hi
    rw [u32_last _ _ hb.1 hb.2.1] at hhit
    have hid2 : u32_sub (u32_add id count) 1 = id + count - 1 := by
      unfold u32_sub u32_add
      omega
    rw [hid2] at hhit
    omega
  · exact absurd hres h

/-- Witness of C24 as amended: with the extents `0 100 5` and `5 200 5` the
block of `2` ids from `6` on is translated to `201`, and the second extent
holds the ids `6` and `7`. -/
theorem map_id_range_down_contained_witness :
    extent_table_inv two_extent_table ∧
    map_id_range_down two_extent_table 6 2 = 201 ∧
    ∃ i, i < two_extent_table.nr_extents ∧
      ∀ k, 6 ≤ k → k < 6 + 2 →
        (extent_at two_extent_table i).first ≤ k ∧
        k < (extent_at two_extent_table i).first + (extent_at two_extent_table i).count :=
  ⟨by decide, by decide,
    map_id_range_down_contained two_extent_table (by decide) 6 2 (by decide) (by decide)⟩

/-! ## The reference on the parent at creation -/

/-- C21, the claim as it is written fails: `create_user_ns` called with the
credentials `mapped_cred` in `sample_heap` returns `0`, and the reference count
of the parent, the namespace at address `0`, is `1` before the call and `1`
after it, not `2`. -/
theorem create_user_ns_parent_count_counterexample :
    create_user_ns (some 2) sample_heap mapped_cred = some created_sample ∧
    created_sample.ret = 0 ∧
    mapped_cred.user_ns = 0 ∧
    (sample_heap 0).map (fun node => node.kref) = some 1 ∧
    (created_sample.heap 0).map (fun node => node.kref) = some 1 ∧
    (created_sample.heap 0).map (fun node => node.kref) ≠
      (sample_heap 0).map (fun node => node.kref + 1) := by
  refine ⟨rfl, rfl, rfl, rfl, rfl, ?_⟩
  decide

/-- C21 as amended. The reference on the parent is handed over: when
`create_user_ns` returns `0` and the allocation returned an address at which
no node was, the parent namespace is the same node after the call as before
it, so its reference count is unchanged, as is every node that was in memory;
the credentials, which referred to the parent before the call, refer to the
new node, and the `parent` link of the new node refers to the parent. -/
theorem create_user_ns_parent_count (alloc : Option Nat) (heap : ns_heap) (new : cred)
    (r : create_result) (parent_node : user_namespace)
    (hcall : create_user_ns alloc heap new = some r) (hret : r.ret = 0)
    (hparent : heap new.user_ns = some parent_node)
    (hfresh : ∀ ns, alloc = some ns → heap ns = none) :
    r.heap new.user_ns = some parent_node ∧
    (∀ a node, heap a = some node → r.heap a = some node) ∧
    ∃ ns node, alloc = some ns ∧ ns ≠ new.user_ns ∧ r.new.user_ns = ns ∧
      r.heap ns = some node ∧ node.parent = some new.user_ns ∧ node.kref = 1 := by
  unfold create_user_ns at hcall
  simp only at hcall
  split at hcall
  · simp at hcall
  · split at hcall
    · simp only [Option.some.injEq] at hcall
      subst hcall
      simp [EPERM] at hret
    · split at hcall
      · simp only [Option.some.injEq] at hcall
        subst hcall
        simp [ENOMEM] at hret
      · rename_i ns
        have hns : heap ns = none := hfresh ns rfl
        have hne : ns ≠ new.user_ns := by
          intro h
          rw [h, hparent] at hns
          exact Option.noConfusion hns
        simp only [Option.some.injEq] at hcall
        subst hcall
        have hkeep : ∀ a node, heap a = some node →
            (if a = ns then some { zeroed_user_ns with
              kref := 1, parent := some new.user_ns, owner := new.euid, group := new.egid }
            else heap a) = some node := by
          intro a node ha
          have ha2 : a ≠ ns := by
            intro h
            rw [h, hns] at ha
            exact Option.noConfusion ha
          rw [if_neg ha2]
          exact ha
        refine ⟨hkeep _ _ hparent, hkeep, ns, { zeroed_user_ns with
            kref := 1, parent := some new.user_ns, owner := new.euid, group := new.egid },
          rfl, hne, rfl, by simp only [if_true], rfl, rfl⟩

/-- Witness of C21 as amended: the creation of a namespace at address `2` for
the credentials `mapped_cred` of `sample_heap` leaves the parent at address
`0` as it was. -/
theorem create_user_ns_parent_count_witness :
    create_user_ns (some 2) sample_heap mapped_cred = some created_sample ∧
    created_sample.heap mapped_cred.user_ns = some two_extent_ns ∧
    (∀ a node, sample_heap a = some node → created_sample.heap a = some node) ∧
    ∃ ns node, some 2 = some ns ∧ ns ≠ mapped_cred.user_ns ∧
      created_sample.new.user_ns = ns ∧ created_sample.heap ns = some node ∧
      node.parent = some mapped_cred.user_ns ∧ node.kref = 1 :=
  ⟨rfl,
    create_user_ns_parent_count (some 2) sample_heap mapped_cred created_sample two_extent_ns
      rfl rfl rfl (by
        intro ns h
        have h2 : ns = 2 := (Option.some.inj h).symm
        subst h2
        rfl)⟩

/-! ## The root namespace -/

/-- On the table of the root namespace both translations are the identity on
every `u32` id: an id below `2 ^ 32 - 1` lies in the one extent at offset
`id`, and the id `2 ^ 32 - 1` lies in no extent and comes back as
`(u32) -1`, which is the same value. -/
theorem root_table_identity (id : Nat) (hid : id < 4294967296) :
    map_id_down root_table id = id ∧ map_id_up root_table id = id := by
  have hinv : extent_table_inv root_table := by decide
  by_cases h : id < 4294967295
  · have h1 := map_id_down_of_mem root_table hinv 0 id (by decide) (Nat.zero_le _) (by
      show id < 0 + 4294967295
      omega)
    have h2 := map_id_up_of_mem root_table hinv 0 id (by decide) (Nat.zero_le _) (by
      show id < 0 + 4294967295
      omega)
    have e1 : (extent_at root_table 0).lower_first = 0 := rfl
    have e2 : (extent_at root_table 0).first = 0 := rfl
    rw [e1, e2] at h1
    rw [e1, e2] at h2
    constructor
    · rw [h1]
      omega
    · rw [h2]
      omega
  · have e : id = 4294967295 := by omega
    subst e
    constructor
    · decide
    · decide

/-- A namespace that `create_user_ns` adds has a parent, so the namespaces
without a parent and their tables stay as they were. -/
theorem create_user_ns_keeps_roots (alloc : Option Nat) (heap : ns_heap) (new : cred)
    (r : create_result) (hroots : roots_identity heap)
    (hcall : create_user_ns alloc heap new = some r) : roots_identity r.heap := by
  unfold create_user_ns at hcall
  simp only at hcall
  split at hcall
  · simp at hcall
  · split at hcall
    · simp only [Option.some.injEq] at hcall
      subst hcall
      exact hroots
    · split at hcall
      · simp only [Option.some.injEq] at hcall
        subst hcall
        exact hroots
      · rename_i ns
        simp only [Option.some.injEq] at hcall
        subst hcall
        intro a node ha hp
        by_cases hns : a = ns
        · simp only [hns, if_true, Option.some.injEq] at ha
          subst ha
          simp at hp
        · simp only [hns, if_false] at ha
          exact hroots a node ha hp

/-- A write to `uid_map` changes no namespace without a parent:
`proc_uid_map_write` refuses the write at line 562. -/
theorem proc_uid_map_write_keeps_roots (ns_capable : Nat → Nat → Bool) (page_ok copy_ok : Bool)
    (heap : ns_heap) (ns : Nat) (buf : List Nat) (ppos : Int) (r : proc_write_result)
    (hroots : roots_identity heap)
    (hcall : proc_uid_map_write ns_capable page_ok copy_ok heap ns buf ppos = some r) :
    roots_identity r.heap := by
  unfold proc_uid_map_write at hcall
  split at hcall
  · simp at hcall
  · rename_i node hnode
    split at hcall
    · simp only [Option.some.injEq] at hcall
      subst hcall
      exact hroots
    · rename_i parent hpar
      split at hcall
      · simp at hcall
      · simp only [Option.some.injEq] at hcall
        subst hcall
        intro a nd ha hp
        by_cases hns : a = ns
        · simp only [hns, if_true, Option.some.injEq] at ha
          subst ha
          simp only at hp
          rw [hpar] at hp
          exact Option.noConfusion hp
        · simp only [hns, if_false] at ha
          exact hroots a nd ha hp

/-- A write to `gid_map` changes no namespace without a parent:
`proc_gid_map_write` refuses the write at line 574. -/
theorem proc_gid_map_write_keeps_roots (ns_capable : Nat → Nat → Bool) (page_ok copy_ok : Bool)
    (heap : ns_heap) (ns : Nat) (buf : List Nat) (ppos : Int) (r : proc_write_result)
    (hroots : roots_identity heap)
    (hcall : proc_gid_map_write ns_capable page_ok copy_ok heap ns buf ppos = some r) :
    roots_identity r.heap := by
  unfold proc_gid_map_write at hcall
  split at hcall
  · simp at hcall
  · rename_i node hnode
    split at hcall
    · simp only [Option.some.injEq] at hcall
      subst hcall
      exact hroots
    · rename_i parent hpar
      split at hcall
      · simp at hcall
      · simp only [Option.some.injEq] at hcall
        subst hcall
        intro a nd ha hp
        by_cases hns : a = ns
        · simp only [hns, if_true, Option.some.injEq] at ha
          subst ha
          simp only at hp
          rw [hpar] at hp
          exact Option.noConfusion hp
        · simp only [hns, if_false] at ha
          exact hroots a nd ha hp

/-- Memory that holds only the root namespace satisfies `roots_identity`. -/
theorem boot_heap_roots : roots_identity boot_heap := by
  intro a node ha _
  unfold boot_heap at ha
  by_cases h0 : a = 0
  · simp only [h0, if_true, Option.some.injEq] at ha
    subst ha
    exact ⟨rfl, rfl⟩
  · simp only [h0, if_false] at ha
    exact Option.noConfusion ha

/-- C23. Root identity: the root namespace has no parent, and in it
`make_kuid`, `from_kuid`, `make_kgid` and `from_kgid` return the id they are
given, for every 32-bit id; the same holds for every namespace without a
parent in memory in which the namespaces without a parent have the tables of
the root namespace, a property that `create_user_ns` and the writes to
`uid_map` and `gid_map` keep. -/
theorem root_identity (heap : ns_heap) (hroots : roots_identity heap) (a : Nat)
    (node : user_namespace) (hnode : heap a = some node) (hparent : node.parent = none)
    (kref owner group proc_inum id : Nat) (hid : id < 4294967296) :
    ((init_user_ns kref owner group proc_inum).parent = none ∧
      make_kuid (init_user_ns kref owner group proc_inum) id = id ∧
      from_kuid (init_user_ns kref owner group proc_inum) id = id ∧
      make_kgid (init_user_ns kref owner group proc_inum) id = id ∧
      from_kgid (init_user_ns kref owner group proc_inum) id = id) ∧
    (make_kuid node id = id ∧ from_kuid node id = id ∧
      make_kgid node id = id ∧ from_kgid node id = id) := by
  have h := root_table_identity id hid
  obtain ⟨hu, hg⟩ := hroots a node hnode hparent
  refine ⟨⟨rfl, h.1, h.2, h.1, h.2⟩, ?_⟩
  unfold make_kuid from_kuid make_kgid from_kgid KUIDT_INIT KGIDT_INIT
  rw [hu, hg]
  exact ⟨h.1, h.2, h.1, h.2⟩

/-- Witness of C23: in memory that holds only the root namespace, the ids `0`,
`1000` and `2 ^ 32 - 1` translate to themselves in the root namespace. -/
theorem root_identity_witness :
    roots_identity boot_heap ∧ boot_heap 0 = some (init_user_ns 1 0 0 0) ∧
    make_kuid (init_user_ns 1 0 0 0) 1000 = 1000 ∧
    from_kgid (init_user_ns 1 0 0 0) 4294967295 = 4294967295 ∧
    make_kuid (init_user_ns 1 0 0 0) 0 = 0 :=
  ⟨boot_heap_roots, rfl,
    (root_identity boot_heap boot_heap_roots 0 (init_user_ns 1 0 0 0) rfl rfl 1 0 0 0 1000
      (by decide)).2.1,
    (root_identity boot_heap boot_heap_roots 0 (init_user_ns 1 0 0 0) rfl rfl 1 0 0 0
      4294967295 (by decide)).2.2.2.2,
    (root_identity boot_heap boot_heap_roots 0 (init_user_ns 1 0 0 0) rfl rfl 1 0 0 0 0
      (by decide)).1.2.1⟩

/-! ## Reading a table back -/

theorem digits_value_append (ds : List Nat) (d : Nat) :
    digits_value (ds ++ [d]) = digits_value ds * 10 + (d - 48) := by
  simp [digits_value, List.foldl_append]

/-- With as many digits allowed as the number has, `decimal_digits` writes the
whole number: the digits read back as the number. -/
theorem decimal_digits_value :
    ∀ (fuel n : Nat), n < 10 ^ fuel → digits_value (decimal_digits fuel n) = n := by
  intro fuel
  induction fuel with
  | zero =>
    intro n h
    simp only [pow_zero, Nat.lt_one_iff] at h
    subst h
    rfl
  | succ k ih =>
    intro n h
    rw [decimal_digits]
    by_cases h10 : n < 10
    · rw [if_pos h10]
      simp [digits_value]
    · rw [if_neg h10, digits_value_append, ih (n / 10) (by
        rw [pow_succ] at h
        exact Nat.div_lt_of_lt_mul (by rw [Nat.mul_comm]; exact h))]
      omega

/-- Ten digits are enough for a `u32`. -/
theorem decimal_digits_u32 (n : Nat) (h : n < 4294967296) :
    digits_value (decimal_digits 10 n) = n :=
  decimal_digits_value 10 n (by
    have : (10 : Nat) ^ 10 = 10000000000 := by norm_num
    omega)

theorem decimal_digits_length :
    ∀ (fuel n : Nat), (decimal_digits fuel n).length ≤ fuel := by
  intro fuel
  induction fuel with
  | zero =>
    intro n
    simp [decimal_digits]
  | succ k ih =>
    intro n
    rw [decimal_digits]
    by_cases h10 : n < 10
    · rw [if_pos h10]
      simp
    · rw [if_neg h10, List.length_append]
      have := ih (n / 10)
      simp only [List.length_singleton]
      omega

/-- A field written by `%10u` for a `u32` has ten characters. -/
theorem format_u10_length (n : Nat) : (format_u10 n).length = 10 := by
  unfold format_u10
  have := decimal_digits_length 10 n
  simp only [List.length_append, List.length_replicate]
  omega

theorem digits_value_spaces (k : Nat) (ds : List Nat) :
    digits_value (List.replicate k 32 ++ ds) = digits_value ds := by
  unfold digits_value
  rw [List.foldl_append]
  have h : ∀ j, List.foldl (fun acc d => acc * 10 + (d - 48)) 0 (List.replicate j 32) = 0 := by
    intro j
    induction j with
    | zero => rfl
    | succ m ih =>
      rw [List.replicate_succ, List.foldl_cons]
      exact ih
  rw [h]

/-- The field written for a `u32` reads back as that number. -/
theorem format_u10_value (n : Nat) (h : n < 4294967296) : digits_value (format_u10 n) = n := by
  unfold format_u10
  rw [digits_value_spaces]
  exact decimal_digits_u32 n h

/-- The three columns of a record are the three numbers it was written
from. -/
theorem seq_printf_record_columns (a b c : Nat) (ha : a < 4294967296) (hb : b < 4294967296)
    (hc : c < 4294967296) :
    record_column (seq_printf_record a b c) 0 = a ∧
    record_column (seq_printf_record a b c) 1 = b ∧
    record_column (seq_printf_record a b c) 2 = c := by
  have la := format_u10_length a
  have lb := format_u10_length b
  have lc := format_u10_length c
  unfold record_column seq_printf_record
  refine ⟨?_, ?_, ?_⟩
  · rw [Nat.mul_zero, List.drop_zero, List.take_append_of_le_length (by omega),
      List.take_of_length_le (by omega)]
    exact format_u10_value a ha
  · have hd : List.drop (11 * 1) (format_u10 a ++ 32 :: (format_u10 b ++ 32 :: (format_u10 c ++ [10])))
        = format_u10 b ++ 32 :: (format_u10 c ++ [10]) := by
      rw [List.drop_append_eq_append_drop, List.drop_of_length_le (by omega), la]
      rfl
    rw [hd, List.take_append_of_le_length (by omega), List.take_of_length_le (by omega)]
    exact format_u10_value b hb
  · have hd : List.drop (11 * 2) (format_u10 a ++ 32 :: (format_u10 b ++ 32 :: (format_u10 c ++ [10])))
        = format_u10 c ++ [10] := by
      rw [List.drop_append_eq_append_drop, List.drop_of_length_le (by omega), la]
      show List.drop 11 (format_u10 b ++ 32 :: (format_u10 c ++ [10])) = _
      rw [List.drop_append_eq_append_drop, List.drop_of_length_le (by omega), lb]
      rfl
    rw [hd, List.take_append_of_le_length (by omega), List.take_of_length_le (by omega)]
    exact format_u10_value c hc

/-- What `map_id_up` returns is a `u32`. -/
theorem map_id_up_lt (map : uid_gid_map) (id : Nat) : map_id_up map id < 4294967296 := by
  rcases map_id_up_cases map id with ⟨_, _, _, _, hres⟩ | ⟨_, hres⟩
  · rw [hres]
    unfold u32_add
    omega
  · rw [hres]
    omega

/-- C22, the claim as it is written fails for a caller inside the namespace
that is shown: in `show_heap` the child at address `1` holds the extent
`0 1000 10`; a caller in the child that reads the table of the child gets the
record `0 1000 10`, the middle column being `map_id_up` of `1000` in the table
of the root, while `map_id_up` of `1000` in the table of the child, the
namespace of the caller, is `0`. -/
theorem m_show_own_namespace_counterexample :
    uid_m_start show_heap 1 0 = some (some (extent_at child_table 0)) ∧
    uid_m_show show_heap 1 1 (extent_at child_table 0) =
      some (0, bytes "         0       1000         10\n") ∧
    gid_m_show show_heap 1 1 (extent_at child_table 0) =
      some (0, bytes "         0       1000         10\n") ∧
    map_id_up child_table (extent_at child_table 0).lower_first = 0 ∧
    seq_printf_record (extent_at child_table 0).first
        (map_id_up child_table (extent_at child_table 0).lower_first)
        (extent_at child_table 0).count =
      bytes "         0          0         10\n" ∧
    uid_m_show show_heap 1 1 (extent_at child_table 0) ≠
      some (0, seq_printf_record (extent_at child_table 0).first
        (map_id_up child_table (extent_at child_table 0).lower_first)
        (extent_at child_table 0).count) := by
  refine ⟨by decide, by decide, by decide, by decide, by decide, by decide⟩

/-- The namespace that `lower_ns` chooses: the namespace of the caller, except
for a caller in the namespace that is shown when that namespace has a parent,
for whom it is the parent. -/
theorem lower_ns_cases (heap : ns_heap) (current ns lower : Nat) (node : user_namespace)
    (hns : heap ns = some node) (hlower : lower_ns heap current ns = some lower) :
    (current ≠ ns → lower = current) ∧
    (current = ns → node.parent = none → lower = current) ∧
    (current = ns → ∀ p, node.parent = some p → lower = p) := by
  unfold lower_ns at hlower
  by_cases hc : current = ns
  · subst hc
    simp only [if_true, hns] at hlower
    refine ⟨fun h => absurd rfl h, ?_, ?_⟩
    · intro _ hp
      rw [hp] at hlower
      exact (Option.some.inj hlower).symm
    · intro _ p hp
      rw [hp] at hlower
      exact (Option.some.inj hlower).symm
  · simp only [hc, if_false] at hlower
    exact ⟨fun _ => (Option.some.inj hlower).symm, fun h => absurd h hc, fun h => absurd h hc⟩

/-- C22 as amended. Read-back projection: `uid_m_start` and `gid_m_start` give
each extent in use of the table of the namespace that is shown; for an extent
whose `first` and `count` are `u32` values, the record that `uid_m_show` or
`gid_m_show` writes has `first` in column one and `count` in column three, and
its middle column is `map_id_up` of the stored `lower_first` in the uid or gid
table of the namespace `lower`, which is the namespace of the caller, except
when the caller is in the namespace that is shown and that namespace has a
parent: then `lower` is the parent. -/
theorem m_show_projection (heap : ns_heap) (current ns lower : Nat)
    (node lower_node : user_namespace) (e : uid_gid_extent)
    (hns : heap ns = some node) (hlower : lower_ns heap current ns = some lower)
    (hnode : heap lower = some lower_node)
    (hf : e.first < 4294967296) (hc : e.count < 4294967296) :
    ((current ≠ ns → lower = current) ∧
      (current = ns → node.parent = none → lower = current) ∧
      (current = ns → ∀ p, node.parent = some p → lower = p)) ∧
    (∀ pos, pos < node.uid_map.nr_extents →
      uid_m_start heap ns pos = some (some (extent_at node.uid_map pos))) ∧
    (∀ pos, pos < node.gid_map.nr_extents →
      gid_m_start heap ns pos = some (some (extent_at node.gid_map pos))) ∧
    (∃ text, uid_m_show heap current ns e = some (0, text) ∧
      text = seq_printf_record e.first (map_id_up lower_node.uid_map e.lower_first) e.count ∧
      record_column text 0 = e.first ∧
      record_column text 1 = map_id_up lower_node.uid_map e.lower_first ∧
      record_column text 2 = e.count) ∧
    (∃ text, gid_m_show heap current ns e = some (0, text) ∧
      text = seq_printf_record e.first (map_id_up lower_node.gid_map e.lower_first) e.count ∧
      record_column text 0 = e.first ∧
      record_column text 1 = map_id_up lower_node.gid_map e.lower_first ∧
      record_column text 2 = e.count) := by
  refine ⟨lower_ns_cases heap current ns lower node hns hlower, ?_, ?_, ?_, ?_⟩
  · intro pos hpos
    simp only [uid_m_start, hns, m_start, hpos, if_true]
  · intro pos hpos
    simp only [gid_m_start, hns, m_start, hpos, if_true]
  · have hcol := seq_printf_record_columns e.first
      (map_id_up lower_node.uid_map e.lower_first) e.count hf (map_id_up_lt _ _) hc
    refine ⟨_, ?_, rfl, hcol.1, hcol.2.1, hcol.2.2⟩
    simp only [uid_m_show, hlower, hnode, from_kuid, KUIDT_INIT]
  · have hcol := seq_printf_record_columns e.first
      (map_id_up lower_node.gid_map e.lower_first) e.count hf (map_id_up_lt _ _) hc
    refine ⟨_, ?_, rfl, hcol.1, hcol.2.1, hcol.2.2⟩
    simp only [gid_m_show, hlower, hnode, from_kgid, KGIDT_INIT]

/-- Witness of C22 as amended: in `show_heap` a caller in the child at address
`1` that reads the table of the child gets the middle column from the table of
the root at address `0`: the record of the extent `0 1000 10` has the columns
`0`, `1000` and `10`. -/
theorem m_show_projection_witness :
    show_heap 1 = some mapped_child_ns ∧
    lower_ns show_heap 1 1 = some 0 ∧
    show_heap 0 = some (init_user_ns 2 0 0 0) ∧
    map_id_up (init_user_ns 2 0 0 0).uid_map (extent_at child_table 0).lower_first = 1000 ∧
    ∃ text, uid_m_show show_heap 1 1 (extent_at child_table 0) = some (0, text) ∧
      text = seq_printf_record (extent_at child_table 0).first
        (map_id_up (init_user_ns 2 0 0 0).uid_map (extent_at child_table 0).lower_first)
        (extent_at child_table 0).count ∧
      record_column text 0 = (extent_at child_table 0).first ∧
      record_column text 1 =
        map_id_up (init_user_ns 2 0 0 0).uid_map (extent_at child_table 0).lower_first ∧
      record_column text 2 = (extent_at child_table 0).count :=
  ⟨rfl, by decide, rfl, by decide,
    (m_show_projection show_heap 1 1 0 _ (init_user_ns 2 0 0 0) (extent_at child_table 0)
      rfl (by decide) rfl (by decide) (by decide)).2.2.2.1⟩

/-! ## The release cascade -/

theorem parent_chain_cons (heap : ns_heap) (p : Option Nat) (a : Nat) (l : List Nat)
    (stop : Option Nat) :
    parent_chain heap p (a :: l) stop ↔
      p = some a ∧ ∃ node, heap a = some node ∧ parent_chain heap node.parent l stop := by
  rw [parent_chain]
  constructor
  · rintro ⟨hp, h⟩
    cases hn : heap a with
    | none =>
      rw [hn] at h
      exact h.elim
    | some node =>
      rw [hn] at h
      exact ⟨hp, node, rfl, h⟩
  · rintro ⟨hp, node, hn, h⟩
    rw [hn]
    exact ⟨hp, h⟩

/-- A chain of parent links is the same chain in memory that agrees on its
nodes. -/
theorem parent_chain_congr (heap heap2 : ns_heap) :
    ∀ (l : List Nat) (p stop : Option Nat), (∀ a, a ∈ l → heap2 a = heap a) →
      parent_chain heap p l stop → parent_chain heap2 p l stop := by
  intro l
  induction l with
  | nil =>
    intro p stop _ h
    exact h
  | cons a l ih =>
    intro p stop hag h
    rw [parent_chain_cons] at h ⊢
    obtain ⟨hp, node, hn, hrest⟩ := h
    refine ⟨hp, node, ?_, ih _ _ (fun b hb => hag b (List.mem_cons_of_mem _ hb)) hrest⟩
    rw [hag a (List.mem_cons_self _ _)]
    exact hn

/-- The decrement of a reference count of `2` or more. -/
theorem kref_dec_survives (k : Nat) (h1 : 2 ≤ k) (h2 : k < 4294967296) :
    u32_sub k 1 = k - 1 ∧ u32_sub k 1 ≠ 0 := by
  unfold u32_sub
  omega

/-- The release cascade along a chain of parent links, for any number of
nested calls that `fuel` allows. -/
theorem free_user_ns_chain :
    ∀ (run : List Nat) (heap : ns_heap) (ns : Nat) (stop : Option Nat) (fuel : Nat),
      parent_chain heap (some ns) (ns :: run) stop →
      (ns :: (run ++ stop.toList)).Nodup →
      (∀ a, a ∈ run → ∃ node, heap a = some node ∧ node.kref = 1) →
      (∀ s, stop = some s →
        ∃ node, heap s = some node ∧ 2 ≤ node.kref ∧ node.kref < 4294967296) →
      run.length < fuel →
      ∃ heap2, free_user_ns fuel heap ns = some (some heap2) ∧
        (∀ a, a = ns ∨ a ∈ run → heap2 a = none) ∧
        (∀ s node, stop = some s → heap s = some node →
          heap2 s = some { node with kref := node.kref - 1 }) ∧
        (∀ a, a ≠ ns → a ∉ run → stop ≠ some a → heap2 a = heap a) := by
  intro run
  induction run with
  | nil =>
    intro heap ns stop fuel hchain hnd _ hstop hfuel
    obtain ⟨k, rfl⟩ : ∃ k, fuel = k + 1 := ⟨fuel - 1, by
      simp only [List.length_nil] at hfuel
      omega⟩
    rw [parent_chain_cons] at hchain
    obtain ⟨_, node, hnode, hrest⟩ := hchain
    have hpar : node.parent = stop := hrest
    cases stop with
    | none =>
      refine ⟨fun a => if a = ns then none else heap a, ?_, ?_, ?_, ?_⟩
      · rw [free_user_ns]
        simp only [hnode, hpar, put_user_ns]
      · intro a ha
        rcases ha with ha | ha
        · simp only [ha, if_true]
        · exact absurd ha (List.not_mem_nil a)
      · intro s nd hs
        exact Option.noConfusion hs
      · intro a ha _ _
        simp only [ha, if_false]
    | some s =>
      obtain ⟨snode, hs, hk2, hk3⟩ := hstop s rfl
      have hne : s ≠ ns := by
        intro h
        subst h
        simp at hnd
      have hdec := kref_dec_survives snode.kref hk2 hk3
      refine ⟨fun a => if a = s then some { snode with kref := u32_sub snode.kref 1 }
        else if a = ns then none else heap a, ?_, ?_, ?_, ?_⟩
      · rw [free_user_ns]
        simp only [hnode, hpar, put_user_ns, hne, if_false, hs, hdec.2]
      · intro a ha
        rcases ha with ha | ha
        · subst ha
          simp only [Ne.symm hne, if_false, if_true]
        · exact absurd ha (List.not_mem_nil a)
      · intro s2 nd hs2 hnd2
        have e : s2 = s := (Option.some.inj hs2).symm
        subst e
        rw [hs] at hnd2
        have e2 : snode = nd := Option.some.inj hnd2
        subst e2
        simp only [if_true, hdec.1]
      · intro a ha _ hsa
        have hsa2 : a ≠ s := fun h => hsa (by rw [h])
        simp only [hsa2, ha, if_false]
  | cons p run ih =>
    intro heap ns stop fuel hchain hnd hrun hstop hfuel
    obtain ⟨k, rfl⟩ : ∃ k, fuel = k + 1 := ⟨fuel - 1, by
      simp only [List.length_cons] at hfuel
      omega⟩
    rw [parent_chain_cons] at hchain
    obtain ⟨_, node, hnode, hrest⟩ := hchain
    have hrest2 := hrest
    rw [parent_chain_cons] at hrest2
    obtain ⟨hpar, pnode, hpnode, hprest⟩ := hrest2
    obtain ⟨pnode2, hpnode2, hk1⟩ := hrun p (List.mem_cons_self _ _)
    rw [hpnode] at hpnode2
    have e : pnode = pnode2 := Option.some.inj hpnode2
    subst e
    have hnd1 : ns ∉ p :: (run ++ stop.toList) := (List.nodup_cons.1 hnd).1
    have hnd2 : (p :: (run ++ stop.toList)).Nodup := (List.nodup_cons.1 hnd).2
    have hpns : p ≠ ns := fun h => hnd1 (by rw [h]; exact List.mem_cons_self _ _)
    have hnd3 : p ∉ run ++ stop.toList := (List.nodup_cons.1 hnd2).1
    have hzero : u32_sub pnode.kref 1 = 0 := by
      rw [hk1]
      unfold u32_sub
      omega
    obtain ⟨heap1, hheap1⟩ : ∃ h : ns_heap, h = fun a =>
        if a = p then some { pnode with kref := u32_sub pnode.kref 1 }
        else if a = ns then none else heap a := ⟨_, rfl⟩
    have hag : ∀ a, a ∈ run ++ stop.toList → heap1 a = heap a := by
      intro a ha
      have h1 : a ≠ p := fun h => hnd3 (by rw [← h]; exact ha)
      have h2 : a ≠ ns := fun h => hnd1 (by rw [← h]; exact List.mem_cons_of_mem _ ha)
      rw [hheap1]
      simp only [h1, h2, if_false]
    have hp1 : heap1 p = some { pnode with kref := u32_sub pnode.kref 1 } := by
      rw [hheap1]
      simp only [if_true]
    have hns1 : heap1 ns = none := by
      rw [hheap1]
      simp only [Ne.symm hpns, if_false, if_true]
    have hmem : ∀ s, stop = some s → s ∈ run ++ stop.toList := by
      intro s hs
      apply List.mem_append_right
      rw [hs]
      exact List.mem_singleton.2 rfl
    obtain ⟨heap2, hcall, hfreed, hsurv, hother⟩ :=
      ih heap1 p stop k
        (by
          rw [parent_chain_cons]
          exact ⟨rfl, _, hp1, parent_chain_congr heap heap1 run _ _
            (fun a ha => hag a (List.mem_append_left _ ha)) hprest⟩)
        hnd2
        (by
          intro a ha
          obtain ⟨nd, h1, h2⟩ := hrun a (List.mem_cons_of_mem _ ha)
          exact ⟨nd, by rw [hag a (List.mem_append_left _ ha)]; exact h1, h2⟩)
        (by
          intro s hs
          obtain ⟨nd, h1, h2⟩ := hstop s hs
          refine ⟨nd, ?_, h2⟩
          rw [hag s (hmem s hs)]
          exact h1)
        (by
          simp only [List.length_cons] at hfuel
          omega)
    refine ⟨heap2, ?_, ?_, ?_, ?_⟩
    · rw [free_user_ns]
      simp only [hnode, hpar, put_user_ns, hpns, if_false, hpnode]
      rw [if_pos hzero]
      rw [hheap1] at hcall
      exact hcall
    · intro a ha
      rcases ha with ha | ha
      · subst ha
        have h1 : a ≠ p := Ne.symm hpns
        have h2 : a ∉ run := fun h => hnd1 (List.mem_cons_of_mem _ (List.mem_append_left _ h))
        have h3 : stop ≠ some a := fun h => hnd1 (List.mem_cons_of_mem _ (hmem a h))
        rw [hother a h1 h2 h3]
        exact hns1
      · rcases List.mem_cons.1 ha with ha | ha
        · exact hfreed a (Or.inl ha)
        · exact hfreed a (Or.inr ha)
    · intro s nd hs hnd4
      apply hsurv s nd hs
      rw [hag s (hmem s hs)]
      exact hnd4
    · intro a h1 h2 h3
      have h4 : a ≠ p := fun h => h2 (by rw [h]; exact List.mem_cons_self _ _)
      have h5 : a ∉ run := fun h => h2 (List.mem_cons_of_mem _ h)
      rw [hother a h4 h5 h3, hheap1]
      simp only [h4, h1, if_false]

/-- C25. Release cascade: let the `parent` links lead from the node `ns`
through the ancestors `run`, each with reference count `1`, to `stop`, which
is `NULL` or an ancestor with a reference count of `2` or more, no node
occurring twice. Then `free_user_ns` returns as soon as `fuel` allows one call
for `ns` and one for each node of `run`; it frees `ns` and the nodes of `run`,
it leaves the ancestor `stop` with its reference count decremented by one and
nothing else changed, and it leaves every other node as it was. With `run`
empty this is the single step: the node is freed and one reference is dropped
on its parent, none when the parent is `NULL`. Dropping the last reference to
`ns` with `put_user_ns` leaves the same memory behind. -/
theorem free_user_ns_cascade (heap : ns_heap) (ns : Nat) (run : List Nat) (stop : Option Nat)
    (fuel : Nat)
    (hchain : parent_chain heap (some ns) (ns :: run) stop)
    (hacyclic : (ns :: (run ++ stop.toList)).Nodup)
    (hrun : ∀ a, a ∈ run → ∃ node, heap a = some node ∧ node.kref = 1)
    (hstop : ∀ s, stop = some s →
      ∃ node, heap s = some node ∧ 2 ≤ node.kref ∧ node.kref < 4294967296)
    (hfuel : run.length < fuel) :
    ∃ heap2, free_user_ns fuel heap ns = some (some heap2) ∧
      (∀ node, heap ns = some node → node.kref = 1 →
        put_user_ns (free_user_ns fuel) heap (some ns) = some (some heap2)) ∧
      (∀ a, a = ns ∨ a ∈ run → heap2 a = none) ∧
      (∀ s node, stop = some s → heap s = some node →
        heap2 s = some { node with kref := node.kref - 1 }) ∧
      (∀ a, a ≠ ns → a ∉ run → stop ≠ some a → heap2 a = heap a) := by
  obtain ⟨heap2, hcall, hfreed, hsurv, hother⟩ :=
    free_user_ns_chain run heap ns stop fuel hchain hacyclic hrun hstop hfuel
  refine ⟨heap2, hcall, ?_, hfreed, hsurv, hother⟩
  intro node hnode hk
  have hnd1 : ns ∉ run ++ stop.toList := (List.nodup_cons.1 hacyclic).1
  obtain ⟨heap0, hheap0⟩ : ∃ h : ns_heap, h = fun a =>
      if a = ns then some { node with kref := u32_sub node.kref 1 } else heap a := ⟨_, rfl⟩
  have hag : ∀ a, a ∈ run ++ stop.toList → heap0 a = heap a := by
    intro a ha
    have h1 : a ≠ ns := fun h => hnd1 (by rw [← h]; exact ha)
    rw [hheap0]
    simp only [h1, if_false]
  have hmem : ∀ s, stop = some s → s ∈ run ++ stop.toList := by
    intro s hs
    apply List.mem_append_right
    rw [hs]
    exact List.mem_singleton.2 rfl
  have hns0 : heap0 ns = some { node with kref := u32_sub node.kref 1 } := by
    rw [hheap0]
    simp only [if_true]
  have hchain2 := hchain
  rw [parent_chain_cons] at hchain2
  obtain ⟨_, node2, hnode2, hrest⟩ := hchain2
  rw [hnode] at hnode2
  have e : node = node2 := Option.some.inj hnode2
  subst e
  obtain ⟨heap3, hcall3, hfreed3, hsurv3, hother3⟩ :=
    free_user_ns_chain run heap0 ns stop fuel
      (by
        rw [parent_chain_cons]
        exact ⟨rfl, _, hns0, parent_chain_congr heap heap0 run _ _
          (fun a ha => hag a (List.mem_append_left _ ha)) hrest⟩)
      hacyclic
      (by
        intro a ha
        obtain ⟨nd, h1, h2⟩ := hrun a ha
        exact ⟨nd, by rw [hag a (List.mem_append_left _ ha)]; exact h1, h2⟩)
      (by
        intro s hs
        obtain ⟨nd, h1, h2⟩ := hstop s hs
        exact ⟨nd, by rw [hag s (hmem s hs)]; exact h1, h2⟩)
      hfuel
  have hzero : u32_sub node.kref 1 = 0 := by
    rw [hk]
    unfold u32_sub
    omega
  have hsame : heap3 = heap2 := by
    funext a
    by_cases h1 : a = ns ∨ a ∈ run
    · rw [hfreed3 a h1, hfreed a h1]
    · have h2 : a ≠ ns := fun h => h1 (Or.inl h)
      have h3 : a ∉ run := fun h => h1 (Or.inr h)
      by_cases h4 : stop = some a
      · obtain ⟨nd, h5, _⟩ := hstop a h4
        rw [hsurv a nd h4 h5, hsurv3 a nd h4 (by rw [hag a (hmem a h4)]; exact h5)]
      · rw [hother3 a h2 h3 h4, hother a h2 h3 h4, hheap0]
        simp only [h2, if_false]
  simp only [put_user_ns, hnode]
  rw [if_pos hzero]
  rw [hheap0, hsame] at hcall3
  exact hcall3

/-- Witness of C25: in `chain_heap` the release of the node at address `4`,
by `free_user_ns` or by `put_user_ns` on its last reference, frees it and its
ancestors at the addresses `3` and `2`, whose counts were `1`, and takes the
count of the ancestor at address `1` from `3` to `2`; the root at address `0`
is as it was. -/
theorem free_user_ns_cascade_witness :
    parent_chain chain_heap (some 4) [4, 3, 2] (some 1) ∧
    (∃ heap2, free_user_ns 3 chain_heap 4 = some (some heap2) ∧ heap2 4 = none ∧
      heap2 3 = none ∧ heap2 2 = none ∧ heap2 1 = some (chain_ns 2 (some 0)) ∧
      heap2 0 = some (init_user_ns 2 0 0 0)) ∧
    ∃ heap2, free_user_ns 3 chain_heap 4 = some (some heap2) ∧
      (∀ node, chain_heap 4 = some node → node.kref = 1 →
        put_user_ns (free_user_ns 3) chain_heap (some 4) = some (some heap2)) ∧
      (∀ a, a = 4 ∨ a ∈ [3, 2] → heap2 a = none) ∧
      (∀ s node, some 1 = some s → chain_heap s = some node →
        heap2 s = some { node with kref := node.kref - 1 }) ∧
      (∀ a, a ≠ 4 → a ∉ [3, 2] → some 1 ≠ some a → heap2 a = chain_heap a) :=
  ⟨by decide,
    ⟨_, rfl, by decide, by decide, by decide, by decide, by decide⟩,
    free_user_ns_cascade chain_heap 4 [3, 2] (some 1) 3 (by decide) (by decide)
      (by
        intro a ha
        rcases List.mem_cons.1 ha with h | h
        · subst h
          exact ⟨_, rfl, rfl⟩
        · have h2 : a = 2 := List.mem_singleton.1 h
          subst h2
          exact ⟨_, rfl, rfl⟩)
      (by
        intro s hs
        have h2 : s = 1 := (Option.some.inj hs).symm
        subst h2
        exact ⟨_, rfl, by decide, by decide⟩)
      (by decide)⟩

end UserNamespace
